import Mathlib

/-!
Shallow embedding of the `qmem` quantum-memory scheduler and proofs about it.

Python sources embedded here: `qmem/_patch.py`, `qmem/utility/_tqec_helpler.py`,
`qmem/_operation.py`, `qmem/_path_generator.py`, `qmem/_controller.py`,
`qmem/_qmem.py`.  Machine integers are modelled as `Int`; Python list indexing
(which accepts negative indices, wrapping from the end, and raises `IndexError`
out of range) is modelled by `pyIdx`/`pyGet`/`pySet`; Python exceptions are
modelled by `Except String`.
-/

namespace Qmem

/-- Python list-index normalisation: a negative index wraps once from the end;
anything still out of range is an `IndexError` (here: `none`). -/
def pyIdx (len : Nat) (i : Int) : Option Nat :=
  if 0 ≤ i ∧ i < len then some i.toNat
  else if -(len : Int) ≤ i ∧ i < 0 then some (i + len).toNat
  else none

/-- Python `l[i]` read. -/
def pyGet (l : List α) (i : Int) : Option α :=
  (pyIdx l.length i).bind l.get?

/-- Python `l[i] = a` write; the caller has already read `l[i]`, so the index is
known valid and an out-of-range write never occurs (we leave `l` unchanged). -/
def pySet (l : List α) (i : Int) (a : α) : List α :=
  match pyIdx l.length i with
  | some n => l.set n a
  | none => l

/-- Basis symbols of `tqec.utils.enums.Basis`, the alphabet {X, Z} of boundary
types. -/
inductive Basis
  | X
  | Z
deriving DecidableEq, Repr

/-- Basis.flipped of the tqec library: swaps the two basis symbols. -/
def Basis.flipped : Basis → Basis
  | .X => .Z
  | .Z => .X

/-- zx_flip of `qmem/utility/_tqec_helpler.py`: the str/Basis conversion
wrappers collapse away on the Basis representation, leaving `flipped`. -/
def zx_flip (b : Basis) : Basis := b.flipped

/-- ZXCube of the tqec library: a 3-component boundary type, one basis symbol
per axis. -/
structure ZXCube where
  x : Basis
  y : Basis
  z : Basis
deriving DecidableEq, Repr

/-- ZXCube.as_tuple. -/
def ZXCube.as_tuple (k : ZXCube) : List Basis := [k.x, k.y, k.z]

/-- ZXCube.from_str on a 3-symbol list (the string has been mapped to its list
of basis symbols); any other length is a construction error. -/
def ZXCube.from_list : List Basis → Option ZXCube
  | [a, b, c] => some ⟨a, b, c⟩
  | _ => none

/-- ZXCube.from_str "XZX", the default kind of `get_cube_kind`. -/
def defaultXZX : ZXCube := ⟨.X, .Z, .X⟩

/-- Vec2 of `qmem/utility/_vec.py` restricted to grid coordinates (both
components present); row/column line selectors, which the source also encodes
as Vec2 with an absent component, are modelled separately by `Line`. -/
structure Vec2 where
  x : Int
  y : Int
deriving DecidableEq, Repr

/-- Position3D of the tqec library. -/
structure Position3D where
  x : Int
  y : Int
  z : Int
deriving DecidableEq, Repr

/-- Cube of `qmem/_patch.py` (also `qmem/utility/_tqec_helpler.py`): `kind` is
`Option` because `add_a_cube`'s `cube_kind` argument defaults to Python
`None`. -/
structure Cube where
  kind : Option ZXCube
  pos : Position3D
deriving DecidableEq, Repr

/-- Pipe of `qmem/utility/_tqec_helpler.py`. -/
structure Pipe where
  from_pos : Position3D
  to_pos : Position3D
deriving DecidableEq, Repr

/-- PatchType of `qmem/_patch_type.py`. -/
inductive PatchType
  | DATA
  | ACCESS_HALLWAY
  | YOKE
  | OUTLET
  | WALL
deriving DecidableEq, Repr

/-- TqecMemoryPatch of `qmem/_patch.py`: position, patch type, the fixed-length
per-cycle timeline `_cycle_layer`, and `current_occupied_cycle` (starts at -1).
-/
structure TqecMemoryPatch where
  pos : Vec2
  patch_type : PatchType
  _cycle_layer : List (Option Cube)
  current_occupied_cycle : Int
deriving DecidableEq, Repr

/-- TqecMemoryPatch.__init__ (with MemoryPatch.__init__'s preallocated
timeline of `maximum_cycles` empty slots). -/
def TqecMemoryPatch.mk_patch (pos : Vec2) (patch_type : PatchType)
    (maximum_cycles : Nat) : TqecMemoryPatch :=
  ⟨pos, patch_type, List.replicate maximum_cycles none, -1⟩

/-- TqecMemoryPatch.add_a_cube: raises if the slot already holds a cube,
otherwise stores `Cube(cube_kind, Position3D(pos.x, pos.y, cycle))` and raises
`current_occupied_cycle` to `max(current_occupied_cycle, cycle)`. -/
def TqecMemoryPatch.add_a_cube (p : TqecMemoryPatch) (cycle : Int)
    (cube_kind : Option ZXCube) : Except String TqecMemoryPatch :=
  match pyGet p._cycle_layer cycle with
  | none => .error "IndexError: list index out of range"
  | some (some _) => .error "Cube already exists at cycle"
  | some none =>
      .ok { p with
              _cycle_layer :=
                (pySet p._cycle_layer cycle
                  (some ⟨cube_kind, ⟨p.pos.x, p.pos.y, cycle⟩⟩)),
              current_occupied_cycle := max p.current_occupied_cycle cycle }

/-- TqecMemoryPatch.set_cube_kind: raises if no cube exists at the cycle,
otherwise overwrites that cube's kind in place. -/
def TqecMemoryPatch.set_cube_kind (p : TqecMemoryPatch) (cycle : Int)
    (cube_kind : Option ZXCube) : Except String TqecMemoryPatch :=
  match pyGet p._cycle_layer cycle with
  | none => .error "IndexError: list index out of range"
  | some none => .error "No cube exists at cycle to set kind"
  | some (some c) =>
      .ok { p with _cycle_layer :=
              (pySet p._cycle_layer cycle (some { c with kind := cube_kind })) }

/-- Loop body of the backward scan of TqecMemoryPatch.get_cube_kind, counting
iterations structurally: the while loop decrements `cyl` once per iteration
and stops as soon as `cyl` is negative, so `(cyl + 1).toNat` iterations always
suffice and the zero-fuel fallthrough (returning `cyl`, necessarily negative
there) agrees with the loop. -/
def scan_back_go (layer : List (Option Cube)) : Nat → Int → Int
  | 0, cyl => cyl
  | n + 1, cyl =>
      if 0 ≤ cyl ∧ pyGet layer cyl = some none then
        scan_back_go layer n (cyl - 1)
      else
        cyl

/-- Backward scan of TqecMemoryPatch.get_cube_kind: decrement `cyl` while it is
non-negative and the slot there is empty.  The source reads the slot with a
plain index; the scan is only entered with `cyl` below an in-range cycle, so an
out-of-range read cannot occur (modelled as stopping). -/
def scan_back (layer : List (Option Cube)) (cyl : Int) : Int :=
  scan_back_go layer (cyl + 1).toNat cyl

/-- The scan satisfies the while-loop unfolding equation. -/
theorem scan_back_step (layer : List (Option Cube)) (cyl : Int) :
    scan_back layer cyl =
      if 0 ≤ cyl ∧ pyGet layer cyl = some none then
        scan_back layer (cyl - 1)
      else
        cyl := by
  unfold scan_back
  cases h : (cyl + 1).toNat with
  | zero =>
      rw [if_neg]
      · rfl
      · rintro ⟨hc, -⟩
        omega
  | succ n =>
      by_cases hc : 0 ≤ cyl ∧ pyGet layer cyl = some none
      · rw [scan_back_go, if_pos hc, if_pos hc]
        have hn : n = (cyl - 1 + 1).toNat := by omega
        rw [hn]
      · rw [scan_back_go, if_neg hc, if_neg hc]

/-- TqecMemoryPatch.get_cube_kind: raises if no cube exists at `cycle` itself;
otherwise scans backward from `cycle - 1` for the latest occupied slot and
returns that cube's kind.  When the scan falls through to -1, the Python
negative index reads the final timeline slot; only if that slot is also empty
does the fixed default XZX get returned. -/
def TqecMemoryPatch.get_cube_kind (p : TqecMemoryPatch) (cycle : Int) :
    Except String (Option ZXCube) :=
  match pyGet p._cycle_layer cycle with
  | none => .error "IndexError: list index out of range"
  | some none => .error "No cube exists at cycle to get kind"
  | some (some _) =>
      let cyl := scan_back p._cycle_layer (cycle - 1)
      match pyGet p._cycle_layer cyl with
      | some (some c) => .ok c.kind
      | some none => .ok (some defaultXZX)
      | none => .error "IndexError: list index out of range"

/-- TqecMemoryPatch.is_free_at_cycle. -/
def TqecMemoryPatch.is_free_at_cycle (p : TqecMemoryPatch) (cycle : Int) :
    Except String Bool :=
  match pyGet p._cycle_layer cycle with
  | none => .error "IndexError: list index out of range"
  | some slot => .ok slot.isNone

/-- TqecMemoryPatch.next_available_cycle: `max(start_cycle,
current_occupied_cycle + 1)` (the commented-out re-verification loop of the
source is dead code). -/
def TqecMemoryPatch.next_available_cycle (p : TqecMemoryPatch)
    (start_cycle : Int) : Int :=
  max start_cycle (p.current_occupied_cycle + 1)

/-! Helper lemmas about the Python-indexing primitives. -/

theorem pyIdx_of_range {len : Nat} {i : Int} (h0 : 0 ≤ i) (h1 : i < len) :
    pyIdx len i = some i.toNat := by
  simp [pyIdx, h0, h1]

theorem pyGet_of_range {l : List α} {i : Int} (h0 : 0 ≤ i) (h1 : i < l.length) :
    pyGet l i = l.get? i.toNat := by
  simp [pyGet, pyIdx_of_range h0 h1]

theorem pyGet_neg_one {l : List α} (h : l ≠ []) :
    pyGet l (-1) = l.getLast? := by
  have hlen : 0 < l.length := List.length_pos.mpr h
  have hidx : pyIdx l.length (-1) = some (l.length - 1) := by
    simp only [pyIdx]
    rw [if_neg (by omega), if_pos (by constructor <;> omega)]
    congr 1
    omega
  simp only [pyGet, hidx, Option.some_bind]
  rw [List.getLast?_eq_get? l]

theorem pySet_length (l : List α) (i : Int) (a : α) :
    (pySet l i a).length = l.length := by
  unfold pySet
  cases pyIdx l.length i <;> simp

theorem pySet_get_same {l : List α} {i : Int} (a : α)
    (h0 : 0 ≤ i) (h1 : i < l.length) :
    (pySet l i a).get? i.toNat = some a := by
  unfold pySet
  rw [pyIdx_of_range h0 h1]
  exact List.get?_set_eq_of_lt a (by omega)

theorem pySet_get_other {l : List α} {i : Int} (a : α) {j : Nat}
    (h0 : 0 ≤ i) (h1 : i < l.length) (hne : j ≠ i.toNat) :
    (pySet l i a).get? j = l.get? j := by
  unfold pySet
  rw [pyIdx_of_range h0 h1]
  exact List.get?_set_ne a l (fun h => hne h.symm)

/-! Helper lemmas about the backward scan of `get_cube_kind`. -/

theorem scan_back_of_empty_below {layer : List (Option Cube)} {cyl : Int}
    (hge : -1 ≤ cyl)
    (h : ∀ j, 0 ≤ j → j ≤ cyl → pyGet layer j = some none) :
    scan_back layer cyl = -1 := by
  by_cases hc : 0 ≤ cyl
  · rw [scan_back_step]
    rw [if_pos ⟨hc, h cyl hc le_rfl⟩]
    exact scan_back_of_empty_below (by omega) (fun j hj hj' => h j hj (by omega))
  · rw [scan_back_step]
    rw [if_neg (by tauto)]
    omega
termination_by (cyl + 1).toNat
decreasing_by omega

theorem scan_back_of_hit {layer : List (Option Cube)} {cyl j : Int}
    {cu : Cube} (hj0 : 0 ≤ j) (hjc : j ≤ cyl)
    (hocc : pyGet layer j = some (some cu))
    (hempty : ∀ i, j < i → i ≤ cyl → pyGet layer i = some none) :
    scan_back layer cyl = j := by
  rcases eq_or_lt_of_le hjc with rfl | hlt
  · rw [scan_back_step]
    rw [if_neg (by simp [hocc])]
  · rw [scan_back_step]
    rw [if_pos ⟨by omega, hempty cyl hlt le_rfl⟩]
    exact scan_back_of_hit hj0 (by omega) hocc
      (fun i h1 h2 => hempty i h1 (by omega))
termination_by (cyl + 1).toNat
decreasing_by omega

/-- C7: on a patch whose timeline has an in-range slot at cycle `c`,
`add_a_cube` fails with the conflict error when a cube is already scheduled
there (producing no new state, so timeline and `current_occupied_cycle` are
untouched), and otherwise schedules exactly one cube at `c`, leaves every other
slot unchanged, and updates `current_occupied_cycle` to
`max(current_occupied_cycle, c)`, which never decreases it. -/
theorem add_a_cube_conflict_or_place (p : TqecMemoryPatch) (c : Int)
    (k : Option ZXCube) (h0 : 0 ≤ c) (h1 : c < p._cycle_layer.length) :
    (∀ b, pyGet p._cycle_layer c = some (some b) →
        p.add_a_cube c k = .error "Cube already exists at cycle") ∧
    (pyGet p._cycle_layer c = some none →
        ∃ p', p.add_a_cube c k = .ok p' ∧
          pyGet p'._cycle_layer c =
            some (some ⟨k, ⟨p.pos.x, p.pos.y, c⟩⟩) ∧
          (∀ j : Int, 0 ≤ j → j < p._cycle_layer.length → j ≠ c →
            pyGet p'._cycle_layer j = pyGet p._cycle_layer j) ∧
          p'.current_occupied_cycle = max p.current_occupied_cycle c ∧
          p.current_occupied_cycle ≤ p'.current_occupied_cycle) := by
  constructor
  · intro b hb
    unfold TqecMemoryPatch.add_a_cube
    rw [hb]
  · intro hfree
    unfold TqecMemoryPatch.add_a_cube
    rw [hfree]
    refine ⟨_, rfl, ?_, ?_, rfl, le_max_left _ _⟩
    · have hlen : c < ((pySet p._cycle_layer c
          (some ⟨k, ⟨p.pos.x, p.pos.y, c⟩⟩)).length : Int) := by
        rw [pySet_length]; exact h1
      rw [pyGet_of_range h0 hlen]
      exact pySet_get_same _ h0 h1
    · intro j hj0 hj1 hjne
      have hlen : j < ((pySet p._cycle_layer c
          (some ⟨k, ⟨p.pos.x, p.pos.y, c⟩⟩)).length : Int) := by
        rw [pySet_length]; exact hj1
      rw [pyGet_of_range hj0 hlen, pyGet_of_range hj0 hj1]
      exact pySet_get_other _ h0 h1 (by omega)

/-- C7 witness: a fresh two-slot patch accepts a cube at cycle 0, and the
placement facts hold there. -/
theorem add_a_cube_conflict_or_place_witness :
    ∃ p', (TqecMemoryPatch.mk_patch ⟨0, 0⟩ .DATA 2).add_a_cube 0 none
        = .ok p' ∧
      pyGet p'._cycle_layer 0 = some (some ⟨none, ⟨0, 0, 0⟩⟩) ∧
      (∀ j : Int, 0 ≤ j →
        j < (TqecMemoryPatch.mk_patch ⟨0, 0⟩ .DATA 2)._cycle_layer.length →
        j ≠ 0 → pyGet p'._cycle_layer j =
          pyGet (TqecMemoryPatch.mk_patch ⟨0, 0⟩ .DATA 2)._cycle_layer j) ∧
      p'.current_occupied_cycle =
        max (TqecMemoryPatch.mk_patch ⟨0, 0⟩ .DATA 2).current_occupied_cycle 0
        ∧
      (TqecMemoryPatch.mk_patch ⟨0, 0⟩ .DATA 2).current_occupied_cycle ≤
        p'.current_occupied_cycle := by
  exact (add_a_cube_conflict_or_place
    (TqecMemoryPatch.mk_patch ⟨0, 0⟩ .DATA 2) 0 none (by decide)
    (by decide)).2 (by decide)

theorem pyGet_ne_nil {l : List α} {i : Int} {v : α} (h : pyGet l i = some v) :
    l ≠ [] := by
  rintro rfl
  simp only [pyGet, pyIdx, List.length_nil] at h
  split at h <;> simp_all

/-- Patch used to exercise `get_cube_kind`: blocks at cycles 0 (kind XXX) and
2 (kind ZZZ), cycles 1 and 3 empty. -/
def kindLookupPatch : TqecMemoryPatch :=
  ⟨⟨0, 0⟩, .DATA,
   [some ⟨some ⟨.X, .X, .X⟩, ⟨0, 0, 0⟩⟩, none,
    some ⟨some ⟨.Z, .Z, .Z⟩, ⟨0, 0, 2⟩⟩, none], 2⟩

/-- C2 counterexample: at cycle 2 the patch holds a Block of type ZZZ, yet
`get_cube_kind 2` returns the earlier Block's type XXX, not the present
Block's type; and at cycle 1, where no Block is present but an earlier Block
exists to inherit from, the lookup fails instead of scanning backward. -/
theorem get_cube_kind_present_and_absent_counterexample :
    kindLookupPatch.get_cube_kind 2 = .ok (some ⟨.X, .X, .X⟩) ∧
    kindLookupPatch.get_cube_kind 2 ≠ .ok (some ⟨.Z, .Z, .Z⟩) ∧
    kindLookupPatch.get_cube_kind 1 =
      .error "No cube exists at cycle to get kind" := by
  have h2 : kindLookupPatch.get_cube_kind 2 = .ok (some ⟨.X, .X, .X⟩) := rfl
  refine ⟨h2, ?_, rfl⟩
  rw [h2]
  intro h
  simp at h

/-- C2 (amended): `get_cube_kind(c)` fails whenever no Block is present at
cycle `c` itself; when a Block is present there, it ignores that Block's own
type and returns the type of the Block at the latest cycle strictly earlier
than `c`; when no earlier Block exists the backward scan ends at index -1,
which in Python resolves to the final timeline slot, whose Block type is
returned if that slot is occupied, the fixed default XZX otherwise. -/
theorem get_cube_kind_behaviour (p : TqecMemoryPatch) (c : Int) (h0 : 0 ≤ c) :
    (pyGet p._cycle_layer c = some none →
      p.get_cube_kind c = .error "No cube exists at cycle to get kind") ∧
    (∀ b, pyGet p._cycle_layer c = some (some b) →
      (∀ j cu, 0 ≤ j → j < c → pyGet p._cycle_layer j = some (some cu) →
        (∀ i, j < i → i < c → pyGet p._cycle_layer i = some none) →
        p.get_cube_kind c = .ok cu.kind) ∧
      ((∀ j : Int, 0 ≤ j → j < c → pyGet p._cycle_layer j = some none) →
        (∀ cu, p._cycle_layer.getLast? = some (some cu) →
          p.get_cube_kind c = .ok cu.kind) ∧
        (p._cycle_layer.getLast? = some none →
          p.get_cube_kind c = .ok (some defaultXZX)))) := by
  constructor
  · intro hfree
    unfold TqecMemoryPatch.get_cube_kind
    rw [hfree]
  · intro b hb
    have hnil : p._cycle_layer ≠ [] := pyGet_ne_nil hb
    constructor
    · intro j cu hj0 hjc hocc hempty
      unfold TqecMemoryPatch.get_cube_kind
      rw [hb]
      have hscan : scan_back p._cycle_layer (c - 1) = j :=
        scan_back_of_hit hj0 (by omega) hocc
          (fun i h1 h2 => hempty i h1 (by omega))
      simp only [hscan, hocc]
    · intro hbelow
      have hscan : scan_back p._cycle_layer (c - 1) = -1 :=
        scan_back_of_empty_below (by omega)
          (fun j hj0 hj1 => hbelow j hj0 (by omega))
      constructor
      · intro cu hlast
        unfold TqecMemoryPatch.get_cube_kind
        rw [hb]
        simp only [hscan, pyGet_neg_one hnil, hlast]
      · intro hlast
        unfold TqecMemoryPatch.get_cube_kind
        rw [hb]
        simp only [hscan, pyGet_neg_one hnil, hlast]

/-- C2 witness: on `kindLookupPatch`, cycle 2 holds a Block and the latest
earlier Block sits at cycle 0, so the lookup returns that Block's type XXX. -/
theorem get_cube_kind_behaviour_witness :
    kindLookupPatch.get_cube_kind 2 = .ok (some ⟨.X, .X, .X⟩) := by
  refine ((get_cube_kind_behaviour kindLookupPatch 2 (by decide)).2
    ⟨some ⟨.Z, .Z, .Z⟩, ⟨0, 0, 2⟩⟩ (by decide)).1 0
    ⟨some ⟨.X, .X, .X⟩, ⟨0, 0, 0⟩⟩ (by decide) (by decide) (by decide) ?_
  intro i h1 h2
  have hi : i = 1 := by omega
  subst hi
  decide

/-- C10: when the only Blocks at or below cycle `c` sit exactly at `c`, the
backward scan of `get_cube_kind` terminates at index -1, which Python resolves
to the final timeline slot: the lookup returns the kind stored there whenever
that slot holds a Block, and the default XZX only when that final slot is also
empty. -/
theorem get_cube_kind_first_block_reads_final_slot (p : TqecMemoryPatch)
    (c : Int) (b : Cube) (h0 : 0 ≤ c)
    (hb : pyGet p._cycle_layer c = some (some b))
    (hbelow : ∀ j : Int, 0 ≤ j → j < c → pyGet p._cycle_layer j = some none) :
    (∀ cu, p._cycle_layer.getLast? = some (some cu) →
      p.get_cube_kind c = .ok cu.kind) ∧
    (p._cycle_layer.getLast? = some none →
      p.get_cube_kind c = .ok (some defaultXZX)) := by
  have hnil : p._cycle_layer ≠ [] := pyGet_ne_nil hb
  have hscan : scan_back p._cycle_layer (c - 1) = -1 :=
    scan_back_of_empty_below (by omega)
      (fun j hj0 hj1 => hbelow j hj0 (by omega))
  constructor
  · intro cu hlast
    unfold TqecMemoryPatch.get_cube_kind
    rw [hb]
    simp only [hscan, pyGet_neg_one hnil, hlast]
  · intro hlast
    unfold TqecMemoryPatch.get_cube_kind
    rw [hb]
    simp only [hscan, pyGet_neg_one hnil, hlast]

/-- Patch used to exercise the index -1 wrap-around: a Block at cycle 1 with no
earlier Block, and an occupied final slot of kind ZZZ. -/
def wrapAroundPatch : TqecMemoryPatch :=
  ⟨⟨0, 0⟩, .DATA,
   [none, some ⟨some ⟨.X, .X, .X⟩, ⟨0, 0, 1⟩⟩, none,
    some ⟨some ⟨.Z, .Z, .Z⟩, ⟨0, 0, 3⟩⟩], 3⟩

/-- C10 witness: on `wrapAroundPatch`, querying cycle 1 (its earliest Block)
returns the kind of the Block in the final slot, index -1 in Python. -/
theorem get_cube_kind_first_block_reads_final_slot_witness :
    wrapAroundPatch.get_cube_kind 1 = .ok (some ⟨.Z, .Z, .Z⟩) := by
  refine (get_cube_kind_first_block_reads_final_slot wrapAroundPatch 1
    ⟨some ⟨.X, .X, .X⟩, ⟨0, 0, 1⟩⟩ (by decide) (by decide) ?_).1
    ⟨some ⟨.Z, .Z, .Z⟩, ⟨0, 0, 3⟩⟩ (by decide)
  intro j h1 h2
  have hj : j = 0 := by omega
  subst hj
  decide

theorem ok_bind {ε α β : Type} (a : α) (f : α → Except ε β) :
    (Except.ok a >>= f) = f a := rfl

theorem error_bind {ε α β : Type} (e : ε) (f : α → Except ε β) :
    ((Except.error e : Except ε α) >>= f) = .error e := rfl

/-- Dynamic of `qmem/utility/_tqec_helpler.py`: the axis of a movement step.
The source also lists a placeholder `U` ("undetermined"); it is written into a
kind list and overwritten before ever being read (both branches of the step
assign the same component), so kinds stay in `Basis` here. -/
inductive Dynamic
  | X
  | Y
  | Z
deriving DecidableEq, Repr

/-- PositionToDynamicMapper.type_to_dynamic: axis to kind-component index. -/
def type_to_dynamic : Dynamic → Nat
  | .X => 0
  | .Y => 1
  | .Z => 2

/-- excluder: the axes that are neither `axis1` nor `axis2`.  The source takes
a Python set difference, whose iteration order is unspecified; the result is
only consumed at index 0 when `axis1 ≠ axis2`, where it is a singleton, so the
fixed order chosen here is immaterial. -/
def excluder (axis1 axis2 : Dynamic) : List Dynamic :=
  [Dynamic.X, Dynamic.Y, Dynamic.Z].filter
    (fun d => !(d == axis1) && !(d == axis2))

/-- cube_dynamic: the single axis along which the step moves; stationary and
diagonal steps are errors.  The source compares each |delta| against 1e-9; on
the integer coordinates in use this is exactly "delta is nonzero". -/
def cube_dynamic (prev_pos current_pos : Position3D) :
    Except String Dynamic :=
  let deltas : List (Dynamic × Nat) :=
    [(Dynamic.X, (current_pos.x - prev_pos.x).natAbs),
     (Dynamic.Y, (current_pos.y - prev_pos.y).natAbs),
     (Dynamic.Z, (current_pos.z - prev_pos.z).natAbs)]
  let active_axes := (deltas.filter (fun ad => 0 < ad.2)).map (·.1)
  match active_axes with
  | [] => .error "No movement detected: The cube is stationary."
  | [a] => .ok a
  | _ => .error "Diagonal movement detected"

/-- Python `l[i]` on a kind list (raises IndexError out of range). -/
def listGetE (l : List α) (i : Nat) : Except String α :=
  match l.get? i with
  | some a => .ok a
  | none => .error "IndexError: list index out of range"

/-- Python `l[i] = a` on a kind list (raises IndexError out of range). -/
def listAssignE (l : List α) (i : Nat) (a : α) : Except String (List α) :=
  if i < l.length then .ok (l.set i a) else
    .error "IndexError: list assignment index out of range"

/-- One iteration of the loop body of generate_cube_kinds: copy the previous
kind, provisionally unset component `axis1` (the dead `U` write), then either
restore it (no turn) or assign the flip of the excluded axis' component (turn).
-/
def generate_cube_kinds_step (prev_kind : List Basis)
    (movement_axis1 movement_axis2 : Dynamic) : Except String (List Basis) :=
  if movement_axis1 = movement_axis2 then do
    let v ← listGetE prev_kind (type_to_dynamic movement_axis1)
    listAssignE prev_kind (type_to_dynamic movement_axis1) v
  else do
    let excluded_axis ← listGetE (excluder movement_axis1 movement_axis2) 0
    let v ← listGetE prev_kind (type_to_dynamic excluded_axis)
    listAssignE prev_kind (type_to_dynamic movement_axis1) (zx_flip v)

/-- Loop of generate_cube_kinds over indices 1..size-1, carrying the previous
position and previously generated kind. -/
def gck_loop (prev_pos : Position3D) :
    List Position3D → List Basis → Except String (List (List Basis))
  | [], _ => .ok []
  | curr_pos :: rest, prev_kind => do
      let movement_axis1 ← cube_dynamic prev_pos curr_pos
      let movement_axis2 ←
        match rest with
        | next_pos :: _ => cube_dynamic curr_pos next_pos
        | [] => .ok movement_axis1
      let curr_kind ←
        generate_cube_kinds_step prev_kind movement_axis1 movement_axis2
      let tail ← gck_loop curr_pos rest curr_kind
      .ok (curr_kind :: tail)

/-- generate_cube_kinds of `qmem/utility/_tqec_helpler.py`: the list of kinds
starts with the initial kind and gains one kind per further position. -/
def generate_cube_kinds (positions : List Position3D)
    (initial_kind : List Basis) : Except String (List (List Basis)) :=
  match positions with
  | [] => .ok [initial_kind]
  | p :: rest => do
      let tail ← gck_loop p rest initial_kind
      .ok (initial_kind :: tail)

/-- C6: on any 4-position path whose step axes are [X, X, Y], starting from the
initial kind (X,Z,X), the propagation returns exactly the sequence
(X,Z,X), (X,Z,X), (Z,Z,X), (Z,Z,X). -/
theorem generate_cube_kinds_worked_example
    (p0 p1 p2 p3 : Position3D)
    (h1 : cube_dynamic p0 p1 = .ok .X)
    (h2 : cube_dynamic p1 p2 = .ok .X)
    (h3 : cube_dynamic p2 p3 = .ok .Y) :
    generate_cube_kinds [p0, p1, p2, p3] [.X, .Z, .X] =
      .ok [[.X, .Z, .X], [.X, .Z, .X], [.Z, .Z, .X], [.Z, .Z, .X]] := by
  simp [generate_cube_kinds, gck_loop, h1, h2, h3, generate_cube_kinds_step,
    listGetE, listAssignE, excluder, zx_flip, Basis.flipped, type_to_dynamic,
    ok_bind, error_bind]

/-- C6 witness: the concrete path (0,0,0) → (1,0,0) → (2,0,0) → (2,1,0) has
step axes [X, X, Y] and produces the worked-example sequence. -/
theorem generate_cube_kinds_worked_example_witness :
    generate_cube_kinds [⟨0, 0, 0⟩, ⟨1, 0, 0⟩, ⟨2, 0, 0⟩, ⟨2, 1, 0⟩]
      [.X, .Z, .X] =
      .ok [[.X, .Z, .X], [.X, .Z, .X], [.Z, .Z, .X], [.Z, .Z, .X]] :=
  generate_cube_kinds_worked_example _ _ _ _ rfl rfl rfl

/-! Patches are shared mutable Python objects.  The embedding keeps all of a
run's patches in one `Store` and passes references (store indices) around, so
aliased patch lists behave as in the source. -/

abbrev Store := List TqecMemoryPatch

abbrev PatchRef := Nat

def getPatch (store : Store) (r : PatchRef) : Except String TqecMemoryPatch :=
  match store.get? r with
  | some p => .ok p
  | none => .error "invalid patch reference"

def setPatch (store : Store) (r : PatchRef) (p : TqecMemoryPatch) : Store :=
  store.set r p

/-- `patch.add_a_cube(...)` through a reference. -/
def addCubeAt (store : Store) (r : PatchRef) (cycle : Int)
    (cube_kind : Option ZXCube) : Except String Store := do
  let p ← getPatch store r
  let p' ← p.add_a_cube cycle cube_kind
  .ok (setPatch store r p')

/-- `patch.set_cube_kind(...)` through a reference. -/
def setCubeKindAt (store : Store) (r : PatchRef) (cycle : Int)
    (cube_kind : Option ZXCube) : Except String Store := do
  let p ← getPatch store r
  let p' ← p.set_cube_kind cycle cube_kind
  .ok (setPatch store r p')

/-- YokeOperationType of `qmem/_operation.py`. -/
inductive YokeOperationType
  | YOKE_ROW
  | YOKE_COL
deriving DecidableEq, Repr

/-- YokeOperation state after `__init__`. -/
structure YokeOperation where
  patches : List PatchRef
  access_hallway_patches : List PatchRef
  cycle : Int
  op_type : YokeOperationType
deriving DecidableEq, Repr

/-- YokeOperation.__init__: collect every participant's next available cycle
(relative to the requested cycle), take the maximum together with the
requested cycle itself, and pin the operation there. -/
def YokeOperation.init (store : Store) (target_patches : List PatchRef)
    (access_hallway_patches : List PatchRef) (cycle : Int)
    (op_type : YokeOperationType) : Except String YokeOperation := do
  let next_available_cycles ←
    (target_patches ++ access_hallway_patches).mapM (fun r => do
      let p ← getPatch store r
      pure (p.next_available_cycle cycle))
  let max_next_available_cycle := next_available_cycles.foldl max cycle
  .ok ⟨target_patches, access_hallway_patches,
       max cycle max_next_available_cycle, op_type⟩

theorem init_le_foldl_max (l : List Int) (a : Int) : a ≤ l.foldl max a := by
  induction l generalizing a with
  | nil => simp
  | cons x xs ih => exact le_trans (le_max_left a x) (ih (max a x))

theorem mem_le_foldl_max {l : List Int} {x : Int} (hx : x ∈ l) (a : Int) :
    x ≤ l.foldl max a := by
  induction l generalizing a with
  | nil => cases hx
  | cons y ys ih =>
      rcases List.mem_cons.mp hx with rfl | h
      · exact le_trans (le_max_right a x) (init_le_foldl_max ys (max a x))
      · exact ih h (max a y)

theorem mapM_except_mem {α β : Type} {f : α → Except String β} {l : List α}
    {ys : List β} (h : l.mapM f = .ok ys) {x : α} (hx : x ∈ l) {y : β}
    (hy : f x = .ok y) : y ∈ ys := by
  induction l generalizing ys with
  | nil => cases hx
  | cons a as ih =>
      rw [List.mapM_cons] at h
      cases hfa : f a with
      | error e => rw [hfa] at h; simp [ok_bind, error_bind] at h
      | ok b =>
          rw [hfa, ok_bind] at h
          cases hrest : as.mapM f with
          | error e => rw [hrest] at h; simp [ok_bind, error_bind] at h
          | ok bs =>
              rw [hrest, ok_bind] at h
              have hys : ys = b :: bs := by
                injection h.symm
              subst hys
              rcases List.mem_cons.mp hx with rfl | hmem
              · rw [hfa] at hy
                obtain rfl : b = y := by injection hy
                exact List.mem_cons_self _ _
              · exact List.mem_cons_of_mem _ (ih hrest hmem)

/-- C8: a YokeOperation's actual scheduled cycle is at least the requested
cycle and at least every participating target and access-hallway patch's
`next_available_cycle(requested)`. -/
theorem yoke_barrier (store : Store) (targets access : List PatchRef)
    (c : Int) (ty : YokeOperationType) (y : YokeOperation)
    (h : YokeOperation.init store targets access c ty = .ok y) :
    c ≤ y.cycle ∧
    ∀ r ∈ targets ++ access, ∀ p, getPatch store r = .ok p →
      p.next_available_cycle c ≤ y.cycle := by
  unfold YokeOperation.init at h
  cases hm : (targets ++ access).mapM (fun r => do
      let p ← getPatch store r
      pure (p.next_available_cycle c)) with
  | error e =>
      rw [hm, error_bind] at h
      cases h
  | ok nacs =>
      rw [hm, ok_bind] at h
      obtain rfl : (⟨targets, access, max c (nacs.foldl max c), ty⟩ :
          YokeOperation) = y := by injection h
      refine ⟨le_max_left _ _, ?_⟩
      intro r hr p hp
      have hmem : p.next_available_cycle c ∈ nacs :=
        mapM_except_mem hm hr (by rw [hp, ok_bind]; rfl)
      exact le_trans (mem_le_foldl_max hmem c) (le_max_right _ _)

/-- C8 witness: one patch occupied through cycle 5 and a request at cycle 3
pin the Yoke at cycle 6, at or above the participant's next available cycle
and the request. -/
theorem yoke_barrier_witness :
    (3 : Int) ≤ (6 : Int) ∧
    ∀ r ∈ ([0] ++ [] : List PatchRef), ∀ p,
      getPatch [(⟨⟨0, 0⟩, .DATA, [], 5⟩ : TqecMemoryPatch)] r = .ok p →
      p.next_available_cycle 3 ≤ (6 : Int) := by
  have h := yoke_barrier [(⟨⟨0, 0⟩, .DATA, [], 5⟩ : TqecMemoryPatch)]
    [0] [] 3 .YOKE_ROW ⟨[0], [], 6, .YOKE_ROW⟩ rfl
  exact h

theorem pyIdx_lt {len : Nat} {i : Int} {n : Nat} (h : pyIdx len i = some n) :
    n < len := by
  unfold pyIdx at h
  split at h
  · injection h with h'
    omega
  · split at h
    · injection h with h'
      omega
    · cases h

theorem pyGet_pySet_of_norm_ne {l : List α} {i j : Int} (a : α)
    (h : pyIdx l.length j ≠ pyIdx l.length i) :
    pyGet (pySet l i a) j = pyGet l j := by
  unfold pyGet pySet
  cases hi : pyIdx l.length i with
  | none => rfl
  | some n =>
      rw [List.length_set]
      cases hj : pyIdx l.length j with
      | none => rfl
      | some m =>
          rw [hi, hj] at h
          simp only [Option.some_bind]
          exact List.get?_set_ne a l (fun hnm => h (by rw [hnm]))

theorem pyGet_pySet_of_norm_eq {l : List α} {i j : Int} (a : α) {n : Nat}
    (hj : pyIdx l.length j = some n) (hi : pyIdx l.length i = some n) :
    pyGet (pySet l i a) j = some a := by
  unfold pyGet pySet
  rw [hi, List.length_set, hj]
  simp only [Option.some_bind]
  exact List.get?_set_eq_of_lt a (pyIdx_lt hi)

theorem pyGet_some_norm {l : List α} {i : Int} {v : α}
    (h : pyGet l i = some v) : ∃ n, pyIdx l.length i = some n := by
  unfold pyGet at h
  cases hn : pyIdx l.length i with
  | none => rw [hn] at h; cases h
  | some n => exact ⟨n, rfl⟩

/-- Occupancy: in store `st`, the patch behind `r` holds cube `cu` at cycle
`c`. -/
def OccupiedAt (st : Store) (r : PatchRef) (c : Int) (cu : Cube) : Prop :=
  ∃ p, getPatch st r = .ok p ∧ pyGet p._cycle_layer c = some (some cu)

theorem getPatch_setPatch_same {st : Store} {r : PatchRef}
    {p : TqecMemoryPatch} (hp : r < st.length) :
    getPatch (setPatch st r p) r = .ok p := by
  unfold getPatch setPatch
  rw [List.get?_set_eq_of_lt p hp]

theorem getPatch_setPatch_other {st : Store} {r r' : PatchRef}
    (p : TqecMemoryPatch) (h : r' ≠ r) :
    getPatch (setPatch st r p) r' = getPatch st r' := by
  unfold getPatch setPatch
  rw [List.get?_set_ne p st (fun hh => h hh.symm)]

theorem getPatch_lt {st : Store} {r : PatchRef} {p : TqecMemoryPatch}
    (h : getPatch st r = .ok p) : r < st.length := by
  unfold getPatch at h
  cases hg : st.get? r with
  | none => rw [hg] at h; cases h
  | some q =>
      obtain ⟨hlt, -⟩ := List.get?_eq_some.mp hg
      exact hlt

/-- add_a_cube only fills an empty slot; every already-occupied slot of every
patch survives it. -/
theorem addCubeAt_preserves {st st' : Store} {r : PatchRef} {c : Int}
    {k : Option ZXCube} (h : addCubeAt st r c k = .ok st')
    {r' : PatchRef} {c' : Int} {cu : Cube} (hocc : OccupiedAt st r' c' cu) :
    OccupiedAt st' r' c' cu := by
  obtain ⟨p', hp', hslot⟩ := hocc
  unfold addCubeAt at h
  cases hp : getPatch st r with
  | error e => rw [hp, error_bind] at h; cases h
  | ok p =>
      rw [hp, ok_bind] at h
      unfold TqecMemoryPatch.add_a_cube at h
      cases hslotc : pyGet p._cycle_layer c with
      | none => rw [hslotc, error_bind] at h; cases h
      | some s =>
          cases s with
          | some b => rw [hslotc, error_bind] at h; cases h
          | none =>
              rw [hslotc, ok_bind] at h
              obtain rfl :
                  setPatch st r
                    { p with
                        _cycle_layer :=
                          (pySet p._cycle_layer c
                            (some ⟨k, ⟨p.pos.x, p.pos.y, c⟩⟩)),
                        current_occupied_cycle :=
                          max p.current_occupied_cycle c } = st' := by
                injection h
              by_cases hr : r' = r
              · subst hr
                rw [hp'] at hp
                obtain rfl : p' = p := by injection hp
                refine ⟨_, getPatch_setPatch_same (getPatch_lt hp'), ?_⟩
                simp only
                obtain ⟨n, hn⟩ := pyGet_some_norm hslot
                have hne : pyIdx p'._cycle_layer.length c' ≠
                    pyIdx p'._cycle_layer.length c := by
                  intro heq
                  rcases hnc : pyIdx p'._cycle_layer.length c with hc | nc
                  · rw [hnc] at heq
                    rw [hn] at heq
                    cases heq
                  · have : pyGet p'._cycle_layer c' = pyGet p'._cycle_layer c := by
                      unfold pyGet
                      rw [heq]
                    rw [hslot, hslotc] at this
                    cases this
                rw [pyGet_pySet_of_norm_ne _ hne]
                exact hslot
              · exact ⟨p', by rw [getPatch_setPatch_other _ hr]; exact hp',
                  hslot⟩

/-- add_a_cube fills the requested slot of the requested patch. -/
theorem addCubeAt_establishes {st st' : Store} {r : PatchRef} {c : Int}
    {k : Option ZXCube} (h : addCubeAt st r c k = .ok st') :
    ∃ p, getPatch st r = .ok p ∧
      OccupiedAt st' r c ⟨k, ⟨p.pos.x, p.pos.y, c⟩⟩ := by
  unfold addCubeAt at h
  cases hp : getPatch st r with
  | error e => rw [hp, error_bind] at h; cases h
  | ok p =>
      rw [hp, ok_bind] at h
      unfold TqecMemoryPatch.add_a_cube at h
      cases hslotc : pyGet p._cycle_layer c with
      | none => rw [hslotc, error_bind] at h; cases h
      | some s =>
          cases s with
          | some b => rw [hslotc, error_bind] at h; cases h
          | none =>
              rw [hslotc, ok_bind] at h
              obtain rfl :
                  setPatch st r
                    { p with
                        _cycle_layer :=
                          (pySet p._cycle_layer c
                            (some ⟨k, ⟨p.pos.x, p.pos.y, c⟩⟩)),
                        current_occupied_cycle :=
                          max p.current_occupied_cycle c } = st' := by
                injection h
              obtain ⟨n, hn⟩ := pyGet_some_norm hslotc
              exact ⟨p, rfl, _, getPatch_setPatch_same (getPatch_lt hp),
                pyGet_pySet_of_norm_eq _ hn hn⟩

/-- Iteration order of a Python set, modelled as first-occurrence order of the
underlying list (the real order is unspecified; all uses below are
order-insensitive). -/
def set_order [DecidableEq α] (l : List α) : List α :=
  l.foldl (fun acc x => if x ∈ acc then acc else acc ++ [x]) []

/-- Python `max(candidates, key=l.count)`: the first candidate of maximal
count (`max` keeps the earlier element on ties); empty input raises. -/
def max_by_count [DecidableEq α] (candidates l : List α) : Except String α :=
  match candidates with
  | [] => .error "max() arg is an empty sequence"
  | c :: cs =>
      .ok (cs.foldl (fun best x => if l.count best < l.count x then x else best)
        c)

/-- `max(set(cube_kinds), key=cube_kinds.count)` of YokeOperation.run. -/
def majority_kind_of (cube_kinds : List (Option ZXCube)) :
    Except String (Option ZXCube) :=
  max_by_count (set_order cube_kinds) cube_kinds

/-- First loop of YokeOperation.run: a Block of the majority kind on every
target patch at `cycle`, with its temporal pipe. -/
def yoke_targets_add (cycle : Int) (k : ZXCube) :
    Store → List PatchRef →
    Except String (Store × List Position3D × List Pipe)
  | store, [] => .ok (store, [], [])
  | store, r :: rs => do
      let p ← getPatch store r
      let store' ← addCubeAt store r cycle (some k)
      let (store'', ps, pp) ← yoke_targets_add cycle k store' rs
      .ok (store'', ⟨p.pos.x, p.pos.y, cycle⟩ :: ps,
        (⟨⟨p.pos.x, p.pos.y, cycle - 1⟩, ⟨p.pos.x, p.pos.y, cycle⟩⟩ : Pipe)
          :: pp)

/-- Second loop of YokeOperation.run: a Block of the (y-)flipped kind on every
access-hallway patch at `cycle` (no temporal pipe: that append is commented
out in the source). -/
def yoke_hallway_add (cycle : Int) (k : ZXCube) :
    Store → List PatchRef → Except String (Store × List Position3D)
  | store, [] => .ok (store, [])
  | store, r :: rs => do
      let p ← getPatch store r
      let store' ← addCubeAt store r cycle (some k)
      let (store'', ps) ← yoke_hallway_add cycle k store' rs
      .ok (store'', ⟨p.pos.x, p.pos.y, cycle⟩ :: ps)

/-- Final loop of YokeOperation.run: a Block at `cycle + 1` on every target
patch, with its temporal pipe. -/
def yoke_revert_add (cycle : Int) (k : ZXCube) :
    Store → List PatchRef →
    Except String (Store × List Position3D × List Pipe)
  | store, [] => .ok (store, [], [])
  | store, r :: rs => do
      let p ← getPatch store r
      let store' ← addCubeAt store r (cycle + 1) (some k)
      let (store'', ps, pp) ← yoke_revert_add cycle k store' rs
      .ok (store'', ⟨p.pos.x, p.pos.y, cycle + 1⟩ :: ps,
        (⟨⟨p.pos.x, p.pos.y, cycle⟩, ⟨p.pos.x, p.pos.y, cycle + 1⟩⟩ : Pipe)
          :: pp)

/-- Spatial pipes of YokeOperation.run, connecting each target to its access
point at offset `patches[0].pos - access_hallway_patches[0].pos` along the
line-normal axis. -/
def yoke_spatial_pipes (store : Store) (y : YokeOperation) (cycle : Int) :
    Except String (List Pipe) := do
  let p0 ← match y.patches.head? with
    | some r => getPatch store r
    | none => .error "IndexError: list index out of range"
  let a0 ← match y.access_hallway_patches.head? with
    | some r => getPatch store r
    | none => .error "IndexError: list index out of range"
  match y.op_type with
  | .YOKE_ROW =>
      let row_df := p0.pos.y - a0.pos.y
      y.patches.mapM (fun r => do
        let p ← getPatch store r
        pure (⟨⟨p.pos.x, p.pos.y, cycle⟩,
               ⟨p.pos.x, p.pos.y - row_df, cycle⟩⟩ : Pipe))
  | .YOKE_COL =>
      let col_df := p0.pos.x - a0.pos.x
      y.patches.mapM (fun r => do
        let p ← getPatch store r
        pure (⟨⟨p.pos.x, p.pos.y, cycle⟩,
               ⟨p.pos.x - col_df, p.pos.y, cycle⟩⟩ : Pipe))

/-- Pipes chaining consecutive access-hallway patches at `cycle`. -/
def yoke_chain_pipes (store : Store) (hall : List PatchRef) (cycle : Int) :
    Except String (List Pipe) :=
  (hall.zip hall.tail).mapM (fun rr => do
    let p1 ← getPatch store rr.1
    let p2 ← getPatch store rr.2
    pure (⟨⟨p1.pos.x, p1.pos.y, cycle⟩, ⟨p2.pos.x, p2.pos.y, cycle⟩⟩ : Pipe))

/-- YokeOperation.run of `qmem/_operation.py`: majority kind among targets at
`cycle - 1` (via get_cube_kind), Blocks on targets (majority kind) and
hallways (second component flipped) at `cycle`, spatial and chain pipes, then
reverting Blocks on targets at `cycle + 1`.  The source mutates `kind[1]` in
place before the hallway loop and flips it again for the revert loop, which
restores the original second component. -/
def YokeOperation.run (store : Store) (self : YokeOperation) :
    Except String (Store × List Position3D × List Pipe) := do
  let cycle := self.cycle
  let cube_kinds ← self.patches.mapM (fun r => do
    let p ← getPatch store r
    p.get_cube_kind (cycle - 1))
  let majority_kind ← majority_kind_of cube_kinds
  let mk ← match majority_kind with
    | some k => Except.ok k
    | none => .error "AttributeError: NoneType has no attribute as_tuple"
  let (store1, pos1, pipes1) ← yoke_targets_add cycle mk store self.patches
  let flipped_kind : ZXCube := ⟨mk.x, mk.y.flipped, mk.z⟩
  let (store2, pos2) ←
    yoke_hallway_add cycle flipped_kind store1 self.access_hallway_patches
  let spatial ← yoke_spatial_pipes store2 self cycle
  let chain ← yoke_chain_pipes store2 self.access_hallway_patches cycle
  let revert_kind : ZXCube := ⟨mk.x, mk.y.flipped.flipped, mk.z⟩
  let (store3, pos3, pipes3) ← yoke_revert_add cycle revert_kind store2
    self.patches
  .ok (store3, pos1 ++ pos2 ++ pos3, pipes1 ++ spatial ++ chain ++ pipes3)

theorem yoke_targets_add_preserves {cycle : Int} {k : ZXCube} {rs : List PatchRef} :
    ∀ {st st' : Store} {ps pp},
    yoke_targets_add cycle k st rs = .ok (st', ps, pp) →
    ∀ {r' c' cu}, OccupiedAt st r' c' cu → OccupiedAt st' r' c' cu := by
  induction rs with
  | nil =>
      intro st st' ps pp h r' c' cu hocc
      unfold yoke_targets_add at h
      injection h with h2
      cases h2
      exact hocc
  | cons r rs ih =>
      intro st st' ps pp h r' c' cu hocc
      unfold yoke_targets_add at h
      cases hp : getPatch st r with
      | error e => rw [hp, error_bind] at h; cases h
      | ok p =>
          rw [hp, ok_bind] at h
          cases hadd : addCubeAt st r cycle (some k) with
          | error e => rw [hadd, error_bind] at h; cases h
          | ok stA =>
              rw [hadd, ok_bind] at h
              cases hrec : yoke_targets_add cycle k stA rs with
              | error e => rw [hrec, error_bind] at h; cases h
              | ok res =>
                  obtain ⟨stB, psB, ppB⟩ := res
                  rw [hrec, ok_bind] at h
                  injection h with h2
                  cases h2
                  exact ih hrec (addCubeAt_preserves hadd hocc)

theorem yoke_targets_add_occupies {cycle : Int} {k : ZXCube} {rs : List PatchRef} :
    ∀ {st st' : Store} {ps pp},
    yoke_targets_add cycle k st rs = .ok (st', ps, pp) →
    ∀ r ∈ rs, ∃ cu, OccupiedAt st' r cycle cu ∧ cu.kind = some k := by
  induction rs with
  | nil =>
      intro st st' ps pp h r hr
      cases hr
  | cons r0 rs ih =>
      intro st st' ps pp h r hr
      unfold yoke_targets_add at h
      cases hp : getPatch st r0 with
      | error e => rw [hp, error_bind] at h; cases h
      | ok p =>
          rw [hp, ok_bind] at h
          cases hadd : addCubeAt st r0 cycle (some k) with
          | error e => rw [hadd, error_bind] at h; cases h
          | ok stA =>
              rw [hadd, ok_bind] at h
              cases hrec : yoke_targets_add cycle k stA rs with
              | error e => rw [hrec, error_bind] at h; cases h
              | ok res =>
                  obtain ⟨stB, psB, ppB⟩ := res
                  rw [hrec, ok_bind] at h
                  injection h with h2
                  cases h2
                  rcases List.mem_cons.mp hr with rfl | hmem
                  · obtain ⟨q, -, hocc2⟩ := addCubeAt_establishes hadd
                    exact ⟨_, yoke_targets_add_preserves hrec hocc2, rfl⟩
                  · exact ih hrec r hmem

theorem yoke_hallway_add_preserves {cycle : Int} {k : ZXCube} {rs : List PatchRef} :
    ∀ {st st' : Store} {ps},
    yoke_hallway_add cycle k st rs = .ok (st', ps) →
    ∀ {r' c' cu}, OccupiedAt st r' c' cu → OccupiedAt st' r' c' cu := by
  induction rs with
  | nil =>
      intro st st' ps h r' c' cu hocc
      unfold yoke_hallway_add at h
      injection h with h2
      cases h2
      exact hocc
  | cons r rs ih =>
      intro st st' ps h r' c' cu hocc
      unfold yoke_hallway_add at h
      cases hp : getPatch st r with
      | error e => rw [hp, error_bind] at h; cases h
      | ok p =>
          rw [hp, ok_bind] at h
          cases hadd : addCubeAt st r cycle (some k) with
          | error e => rw [hadd, error_bind] at h; cases h
          | ok stA =>
              rw [hadd, ok_bind] at h
              cases hrec : yoke_hallway_add cycle k stA rs with
              | error e => rw [hrec, error_bind] at h; cases h
              | ok res =>
                  obtain ⟨stB, psB⟩ := res
                  rw [hrec, ok_bind] at h
                  injection h with h2
                  cases h2
                  exact ih hrec (addCubeAt_preserves hadd hocc)

theorem yoke_hallway_add_occupies {cycle : Int} {k : ZXCube} {rs : List PatchRef} :
    ∀ {st st' : Store} {ps},
    yoke_hallway_add cycle k st rs = .ok (st', ps) →
    ∀ r ∈ rs, ∃ cu, OccupiedAt st' r cycle cu ∧ cu.kind = some k := by
  induction rs with
  | nil =>
      intro st st' ps h r hr
      cases hr
  | cons r0 rs ih =>
      intro st st' ps h r hr
      unfold yoke_hallway_add at h
      cases hp : getPatch st r0 with
      | error e => rw [hp, error_bind] at h; cases h
      | ok p =>
          rw [hp, ok_bind] at h
          cases hadd : addCubeAt st r0 cycle (some k) with
          | error e => rw [hadd, error_bind] at h; cases h
          | ok stA =>
              rw [hadd, ok_bind] at h
              cases hrec : yoke_hallway_add cycle k stA rs with
              | error e => rw [hrec, error_bind] at h; cases h
              | ok res =>
                  obtain ⟨stB, psB⟩ := res
                  rw [hrec, ok_bind] at h
                  injection h with h2
                  cases h2
                  rcases List.mem_cons.mp hr with rfl | hmem
                  · obtain ⟨q, -, hocc2⟩ := addCubeAt_establishes hadd
                    exact ⟨_, yoke_hallway_add_preserves hrec hocc2, rfl⟩
                  · exact ih hrec r hmem

theorem yoke_revert_add_preserves {cycle : Int} {k : ZXCube} {rs : List PatchRef} :
    ∀ {st st' : Store} {ps pp},
    yoke_revert_add cycle k st rs = .ok (st', ps, pp) →
    ∀ {r' c' cu}, OccupiedAt st r' c' cu → OccupiedAt st' r' c' cu := by
  induction rs with
  | nil =>
      intro st st' ps pp h r' c' cu hocc
      unfold yoke_revert_add at h
      injection h with h2
      cases h2
      exact hocc
  | cons r rs ih =>
      intro st st' ps pp h r' c' cu hocc
      unfold yoke_revert_add at h
      cases hp : getPatch st r with
      | error e => rw [hp, error_bind] at h; cases h
      | ok p =>
          rw [hp, ok_bind] at h
          cases hadd : addCubeAt st r (cycle + 1) (some k) with
          | error e => rw [hadd, error_bind] at h; cases h
          | ok stA =>
              rw [hadd, ok_bind] at h
              cases hrec : yoke_revert_add cycle k stA rs with
              | error e => rw [hrec, error_bind] at h; cases h
              | ok res =>
                  obtain ⟨stB, psB, ppB⟩ := res
                  rw [hrec, ok_bind] at h
                  injection h with h2
                  cases h2
                  exact ih hrec (addCubeAt_preserves hadd hocc)

/-- C5 (amended): when a YokeOperation run completes, every target patch holds
a Block at the scheduled cycle carrying the majority kind computed from the
targets' `get_cube_kind(cycle - 1)` lookups, and every access-hallway patch
holds a Block whose kind is that majority with its y-component flipped — for
YOKE_ROW and YOKE_COL alike. -/
theorem yoke_run_schedules_majority_and_y_flip (store : Store)
    (y : YokeOperation) (st' : Store) (ps : List Position3D) (pp : List Pipe)
    (h : YokeOperation.run store y = .ok (st', ps, pp)) :
    ∃ ks mk,
      y.patches.mapM (fun r => do
        let p ← getPatch store r
        p.get_cube_kind (y.cycle - 1)) = .ok ks ∧
      majority_kind_of ks = .ok (some mk) ∧
      (∀ r ∈ y.patches, ∃ cu, OccupiedAt st' r y.cycle cu ∧
        cu.kind = some mk) ∧
      (∀ r ∈ y.access_hallway_patches, ∃ cu, OccupiedAt st' r y.cycle cu ∧
        cu.kind = some ⟨mk.x, mk.y.flipped, mk.z⟩) := by
  unfold YokeOperation.run at h
  simp only [] at h
  cases hks : y.patches.mapM (fun r => do
      let p ← getPatch store r
      p.get_cube_kind (y.cycle - 1)) with
  | error e => rw [hks, error_bind] at h; cases h
  | ok ks =>
      rw [hks, ok_bind] at h
      cases hmaj : majority_kind_of ks with
      | error e => rw [hmaj, error_bind] at h; cases h
      | ok mk0 =>
          rw [hmaj, ok_bind] at h
          cases mk0 with
          | none => simp only [error_bind] at h; cases h
          | some mk =>
              simp only [ok_bind] at h
              cases h1 : yoke_targets_add y.cycle mk store y.patches with
              | error e => simp only [h1, error_bind] at h; cases h
              | ok res1 =>
                  obtain ⟨st1, pos1, pipes1⟩ := res1
                  simp only [h1, ok_bind] at h
                  cases h2 : yoke_hallway_add y.cycle
                      ⟨mk.x, mk.y.flipped, mk.z⟩ st1
                      y.access_hallway_patches with
                  | error e => simp only [h2, error_bind] at h; cases h
                  | ok res2 =>
                      obtain ⟨st2, pos2⟩ := res2
                      simp only [h2, ok_bind] at h
                      cases h3 : yoke_spatial_pipes st2 y y.cycle with
                      | error e => simp only [h3, error_bind] at h; cases h
                      | ok spatial =>
                          simp only [h3, ok_bind] at h
                          cases h4 : yoke_chain_pipes st2
                              y.access_hallway_patches y.cycle with
                          | error e => simp only [h4, error_bind] at h; cases h
                          | ok chain =>
                              simp only [h4, ok_bind] at h
                              cases h5 : yoke_revert_add y.cycle
                                  ⟨mk.x, mk.y.flipped.flipped, mk.z⟩ st2
                                  y.patches with
                              | error e => simp only [h5, error_bind] at h; cases h
                              | ok res3 =>
                                  obtain ⟨st3, pos3, pipes3⟩ := res3
                                  simp only [h5, ok_bind] at h
                                  injection h with h6
                                  obtain ⟨rfl, -⟩ := Prod.ext_iff.mp h6
                                  refine ⟨ks, mk, rfl, hmaj, ?_, ?_⟩
                                  · intro r hr
                                    obtain ⟨cu, hocc, hk⟩ :=
                                      yoke_targets_add_occupies h1 r hr
                                    exact ⟨cu, yoke_revert_add_preserves h5
                                      (yoke_hallway_add_preserves h2 hocc),
                                      hk⟩
                                  · intro r hr
                                    obtain ⟨cu, hocc, hk⟩ :=
                                      yoke_hallway_add_occupies h2 r hr
                                    exact ⟨cu,
                                      yoke_revert_add_preserves h5 hocc, hk⟩

/-- Store for the YOKE_COL counterexample: one occupied Data patch at (1,0)
(Blocks at cycles 0 and 1, kind (X,Z,X)) and one empty access-hallway patch at
(0,0) in the adjacent column. -/
def yokeColStore : Store :=
  [⟨⟨1, 0⟩, .DATA,
     [some ⟨some ⟨.X, .Z, .X⟩, ⟨1, 0, 0⟩⟩, some ⟨some ⟨.X, .Z, .X⟩, ⟨1, 0, 1⟩⟩,
      none, none], 1⟩,
   ⟨⟨0, 0⟩, .ACCESS_HALLWAY, [none, none, none, none], -1⟩]

/-- A column yoke over that store, scheduled at cycle 2. -/
def yokeColOp : YokeOperation := ⟨[0], [1], 2, .YOKE_COL⟩

/-- Kind of the Block the access-hallway patch receives at the scheduled cycle
in the YOKE_COL counterexample run (None if the run fails or no Block is
there). -/
def yokeColHallwayKind : Option (Option ZXCube) :=
  match YokeOperation.run yokeColStore yokeColOp with
  | .ok (st, _, _) =>
      match getPatch st 1 with
      | .ok p =>
          match pyGet p._cycle_layer 2 with
          | some (some cu) => some cu.kind
          | _ => none
      | .error _ => none
  | .error _ => none

/-- C5 counterexample: in a YOKE_COL run whose majority kind is (X,Z,X), the
access-hallway patch receives kind (X,X,X) — the y-component flipped — not the
(Z,Z,X) the claim's x-component flip for YOKE_COL would give. -/
theorem yoke_col_flips_y_not_x_counterexample :
    yokeColHallwayKind = some (some ⟨.X, .X, .X⟩) ∧
    yokeColHallwayKind ≠ some (some ⟨.Z, .Z, .X⟩) := by
  refine ⟨rfl, ?_⟩
  intro h
  rw [show yokeColHallwayKind = some (some ⟨.X, .X, .X⟩) from rfl] at h
  simp at h

/-- Store for the C5 witness: a row yoke with one occupied Data patch at (0,0)
and the hallway at (0,1). -/
def yokeRowStore : Store :=
  [⟨⟨0, 0⟩, .DATA,
     [some ⟨some ⟨.X, .Z, .X⟩, ⟨0, 0, 0⟩⟩, some ⟨some ⟨.X, .Z, .X⟩, ⟨0, 0, 1⟩⟩,
      none, none], 1⟩,
   ⟨⟨0, 1⟩, .ACCESS_HALLWAY, [none, none, none, none], -1⟩]

/-- A row yoke over that store, scheduled at cycle 2. -/
def yokeRowOp : YokeOperation := ⟨[0], [1], 2, .YOKE_ROW⟩

/-- The store `yokeRowOp` leaves behind. -/
def yokeRowStoreAfter : Store :=
  [⟨⟨0, 0⟩, .DATA,
     [some ⟨some ⟨.X, .Z, .X⟩, ⟨0, 0, 0⟩⟩, some ⟨some ⟨.X, .Z, .X⟩, ⟨0, 0, 1⟩⟩,
      some ⟨some ⟨.X, .Z, .X⟩, ⟨0, 0, 2⟩⟩,
      some ⟨some ⟨.X, .Z, .X⟩, ⟨0, 0, 3⟩⟩], 3⟩,
   ⟨⟨0, 1⟩, .ACCESS_HALLWAY,
     [none, none, some ⟨some ⟨.X, .X, .X⟩, ⟨0, 1, 2⟩⟩, none], 2⟩]

/-- C5 witness: the concrete row-yoke run schedules the majority kind (X,Z,X)
on the target and its y-flip (X,X,X) on the hallway. -/
theorem yoke_run_schedules_majority_and_y_flip_witness :
    ∃ ks mk,
      yokeRowOp.patches.mapM (fun r => do
        let p ← getPatch yokeRowStore r
        p.get_cube_kind (yokeRowOp.cycle - 1)) = .ok ks ∧
      majority_kind_of ks = .ok (some mk) ∧
      (∀ r ∈ yokeRowOp.patches, ∃ cu,
        OccupiedAt yokeRowStoreAfter r yokeRowOp.cycle cu ∧
        cu.kind = some mk) ∧
      (∀ r ∈ yokeRowOp.access_hallway_patches, ∃ cu,
        OccupiedAt yokeRowStoreAfter r yokeRowOp.cycle cu ∧
        cu.kind = some ⟨mk.x, mk.y.flipped, mk.z⟩) :=
  yoke_run_schedules_majority_and_y_flip yokeRowStore yokeRowOp
    yokeRowStoreAfter [⟨0, 0, 2⟩, ⟨0, 1, 2⟩, ⟨0, 0, 3⟩]
    [⟨⟨0, 0, 1⟩, ⟨0, 0, 2⟩⟩, ⟨⟨0, 0, 2⟩, ⟨0, 1, 2⟩⟩, ⟨⟨0, 0, 2⟩, ⟨0, 0, 3⟩⟩]
    rfl

/-! Embedding of `qmem/_path_generator.py` (BFSPathGenerator). -/

/-- Vec2.__add__ on grid coordinates. -/
def Vec2.add (a b : Vec2) : Vec2 := ⟨a.x + b.x, a.y + b.y⟩

/-- Python `m[y][x]` read on the layout matrix. -/
def pyGet2 (m : List (List Int)) (y x : Int) : Option Int :=
  (pyGet m y).bind (fun row => pyGet row x)

/-- Python `m[y][x] = v` write on the layout matrix; callers read the cell
first, so the indices are valid by the time the write happens. -/
def pySet2 (m : List (List Int)) (y x : Int) (v : Int) : List (List Int) :=
  match pyIdx m.length y with
  | some n =>
      match m.get? n with
      | some row => m.set n (pySet row x v)
      | none => m
  | none => m

/-- Python dict lookup. -/
def dictGet [DecidableEq κ] (d : List (κ × ν)) (k : κ) : Option ν :=
  (d.find? (fun p => p.1 == k)).map (·.2)

/-- Python dict store (update in place, or append a new entry). -/
def dictSet [DecidableEq κ] (d : List (κ × ν)) (k : κ) (v : ν) :
    List (κ × ν) :=
  if (d.find? (fun p => p.1 == k)).isSome then
    d.map (fun p => if p.1 == k then (k, v) else p)
  else
    d ++ [(k, v)]

/-- BFSPathGenerator: `self.map` plus the row/column counts fixed at
construction.  `path` mutates `self.map`: `self.map.copy()` is a shallow copy,
the row lists are shared, so the goal/start marking writes reach `self.map`.
The embedding therefore threads one matrix and returns it as the new
`self.map`. -/
structure BFSPathGenerator where
  map : List (List Int)
  rows : Nat
  cols : Nat
deriving DecidableEq, Repr

/-- BFSPathGenerator.__init__. -/
def BFSPathGenerator.mk_gen (m : List (List Int)) : BFSPathGenerator :=
  ⟨m, m.length, if 0 < m.length then (m.headI).length else 0⟩

/-- Goal-marking loop of BFSPathGenerator.path: reject goals on walls, then
overwrite each goal cell with 1 ("walkable"). -/
def mark_goals : List (List Int) → List Vec2 →
    Except String (List (List Int))
  | m, [] => .ok m
  | m, g :: gs =>
      match pyGet2 m g.y g.x with
      | none => .error "IndexError: list index out of range"
      | some v =>
          if v < 0 then .error "Goal is not accessible."
          else mark_goals (pySet2 m g.y g.x 1) gs

/-- Neighbor directions, in the source's iteration order. -/
def directions : List Vec2 := [⟨0, 1⟩, ⟨1, 0⟩, ⟨0, -1⟩, ⟨-1, 0⟩]

/-- Walkability test of the neighbor check: `map[y][x] > 0` (the bounds have
already been checked). -/
def cellPositive (m : List (List Int)) (y x : Int) : Bool :=
  match pyGet2 m y x with
  | some v => 0 < v
  | none => false

/-- One neighbor check of the exploration loop: enqueue the offset cell when
it is in bounds, positive-valued and unvisited, marking it visited and
recording its parent. -/
def explore_step (m : List (List Int)) (rows cols : Nat) (current : Vec2)
    (s : List Vec2 × List Vec2 × List (Vec2 × Option Vec2)) (d : Vec2) :
    List Vec2 × List Vec2 × List (Vec2 × Option Vec2) :=
  let neighbor := current.add d
  if 0 ≤ neighbor.x ∧ neighbor.x < cols ∧ 0 ≤ neighbor.y ∧ neighbor.y < rows
      ∧ cellPositive m neighbor.y neighbor.x ∧ neighbor ∉ s.2.1 then
    (s.1 ++ [neighbor], s.2.1 ++ [neighbor],
      dictSet s.2.2 neighbor (some current))
  else s

/-- Neighbor exploration for one popped cell: enqueue every in-bounds,
positive-valued, unvisited neighbor, marking it visited and recording its
parent. -/
def explore (m : List (List Int)) (rows cols : Nat) (current : Vec2)
    (st : List Vec2 × List Vec2 × List (Vec2 × Option Vec2)) :
    List Vec2 × List Vec2 × List (Vec2 × Option Vec2) :=
  directions.foldl (explore_step m rows cols current) st

/-- Path reconstruction of BFSPathGenerator.path: follow the parent chain from
the popped goal to the start (parent None), then reverse.  The chain is
strictly shorter than the parent table, so `parent.length + 1` steps suffice;
the zero-fuel case (a cyclic chain) cannot be reached from `path`. -/
def reconstruct (parent : List (Vec2 × Option Vec2)) :
    Nat → Option Vec2 → List Vec2 → Except String (List Vec2)
  | _, none, path => .ok path.reverse
  | 0, some _, _ => .error "reconstruction did not terminate"
  | n + 1, some c, path =>
      match dictGet parent c with
      | none => .error "KeyError"
      | some pr => reconstruct parent n pr (path ++ [c])

/-- Main loop of BFSPathGenerator.path: pop the queue head; a popped goal is
reconstructed and returned, otherwise its neighbors are explored.  Every
enqueued cell is distinct (enqueue implies unvisited) and in bounds except
possibly the start, so `rows * cols + 1` pops suffice; the zero-fuel error is
unreachable from `path`. -/
def bfs_loop (m : List (List Int)) (rows cols : Nat) (goals : List Vec2) :
    Nat → List Vec2 → List Vec2 → List (Vec2 × Option Vec2) →
    Except String (List Vec2)
  | 0, _, _, _ => .error "BFS loop fuel exhausted"
  | n + 1, queue, visited, parent =>
      match queue with
      | [] => .ok []
      | current :: rest =>
          if current ∈ goals then
            reconstruct parent (parent.length + 1) (some current) []
          else
            let s := explore m rows cols current (rest, visited, parent)
            bfs_loop m rows cols goals n s.1 s.2.1 s.2.2

/-- BFSPathGenerator.path of `qmem/_path_generator.py` on a goal list (the
source wraps a single goal into a singleton list first).  Returns the found
path (or [] when unreachable) together with the generator's `self.map` after
the call, which the goal/start marking has written through the shared rows. -/
def BFSPathGenerator.path (gen : BFSPathGenerator) (start : Vec2)
    (goals : List Vec2) : Except String (List Vec2 × BFSPathGenerator) := do
  let m ← mark_goals gen.map goals
  let sv ← match pyGet2 m start.y start.x with
    | some v => Except.ok v
    | none => .error "IndexError: list index out of range"
  if sv < 0 then
    .error "Start is not walkable."
  else do
    let m := pySet2 m start.y start.x 1
    let res ← bfs_loop m gen.rows gen.cols goals (gen.rows * gen.cols + 1)
      [start] [start] [(start, none)]
    .ok (res, { gen with map := m })

/-- C4 (the layout is mutated): on the grid [[0,1,2]], `path((0,0), (2,0))`
succeeds, but afterwards the generator's stored layout matrix is [[1,1,1]]:
`self.map.copy()` copies only the outer list, the row objects are shared, and
the goal/start marking writes 1 into them. -/
theorem path_mutates_layout :
    (BFSPathGenerator.mk_gen [[0, 1, 2]]).path ⟨0, 0⟩ [⟨2, 0⟩] =
      .ok ([⟨0, 0⟩, ⟨1, 0⟩, ⟨2, 0⟩],
        { map := [[1, 1, 1]], rows := 1, cols := 3 }) ∧
    ([[1, 1, 1]] : List (List Int)) ≠ [[0, 1, 2]] :=
  ⟨rfl, by decide⟩

/-- C3 counterexample: on the corridor [[0,0,2]] whose intermediate cell is
Data (value 0), `path((0,0), (2,0))` returns [] — 0 positions, not the
claimed n + 1 = 3 — because the neighbor check admits only cells with value
> 0, so Data cells are not walkable. -/
theorem bfs_data_corridor_counterexample :
    (BFSPathGenerator.mk_gen [[0, 0, 2]]).path ⟨0, 0⟩ [⟨2, 0⟩] =
      .ok ([], { map := [[1, 0, 1]], rows := 1, cols := 3 }) ∧
    (0 : Nat) ≠ 2 + 1 :=
  ⟨rfl, by decide⟩

/-! Embedding of MoveOperation of `qmem/_operation.py`. -/

/-- Python "use the value or raise": `Option` to `Except` with the raised
message. -/
def except_of_option (o : Option α) (msg : String) : Except String α :=
  match o with
  | some a => .ok a
  | none => .error msg

/-- MoveOperation state after `__init__`: the chain is
`[from_patch] + access_hallway_patches + [to_patch]`. -/
structure MoveOperation where
  from_patch : PatchRef
  access_hallway_patches : List PatchRef
  to_patch : PatchRef
  cycle : Int
deriving DecidableEq, Repr

/-- `self.patches` of MoveOperation. -/
def MoveOperation.patches (mv : MoveOperation) : List PatchRef :=
  mv.from_patch :: (mv.access_hallway_patches ++ [mv.to_patch])

/-- `self.positions_patch_map[...]` lookup: the dict comprehension maps each
chain patch's position to the patch, later entries overwriting earlier ones,
so the lookup finds the last chain patch at the position.  Patch positions
never change, so reading them from the store at run time matches the dict
built in `__init__`. -/
def ppm_lookup (store : Store) (chain : List PatchRef) (pos : Vec2) :
    Except String PatchRef := do
  let pairs ← chain.mapM (fun r => do
    let p ← getPatch store r
    pure (p.pos, r))
  match pairs.reverse.find? (fun pr => pr.1 == pos) with
  | some pr => .ok pr.2
  | none => .error "KeyError"

/-- Back-pressure while loop of MoveOperation.run: while the next patch is
busy at the cursor cycle, schedule a Block on the current patch and advance
the cursor.  Iterations are counted structurally: the loop condition is
`cycle ≤ next.current_occupied_cycle`, the body leaves
`next.current_occupied_cycle` unchanged (adding to a patch at a cycle at or
below its counter does not move the counter) and increments `cycle`, so the
fuel `(next.next_available_cycle cycle - cycle).toNat` computed at entry is
exactly the number of iterations and the zero-fuel re-check below finds the
condition false. -/
def move_wait_loop : Nat → Store → PatchRef → PatchRef → Int →
    List Position3D → Except String (Store × Int × List Position3D)
  | 0, store, _, next_patch, cycle, acc => do
      let np ← getPatch store next_patch
      if np.next_available_cycle cycle ≠ cycle then
        .error "wait loop fuel exhausted"
      else
        .ok (store, cycle, acc)
  | n + 1, store, curr_patch, next_patch, cycle, acc => do
      let np ← getPatch store next_patch
      if np.next_available_cycle cycle ≠ cycle then do
        let cp ← getPatch store curr_patch
        let store' ← addCubeAt store curr_patch cycle none
        move_wait_loop n store' curr_patch next_patch (cycle + 1)
          (acc ++ [⟨cp.pos.x, cp.pos.y, cycle⟩])
      else
        .ok (store, cycle, acc)

/-- Pairwise chain walk of MoveOperation.run: for each adjacent pair, stall on
the current patch until the next one frees up, then schedule a Block on the
current patch. -/
def move_chain_loop : Store → List PatchRef → Int → List Position3D →
    Except String (Store × Int × List Position3D)
  | store, curr_patch :: next_patch :: rest, cycle, acc => do
      let np ← getPatch store next_patch
      let fuel := (np.next_available_cycle cycle - cycle).toNat
      let (store1, cycle1, acc1) ←
        move_wait_loop fuel store curr_patch next_patch cycle acc
      let cp ← getPatch store1 curr_patch
      let store2 ← addCubeAt store1 curr_patch cycle1 none
      move_chain_loop store2 (next_patch :: rest) cycle1
        (acc1 ++ [⟨cp.pos.x, cp.pos.y, cycle1⟩])
  | store, _, cycle, acc => .ok (store, cycle, acc)

/-- MoveOperation.run of `qmem/_operation.py`:
start at the from-patch's next available cycle; an Outlet origin gets a Block
immediately (advancing the cursor), any other origin a temporal continuation
pipe; walk the chain pairwise with back-pressure stalling; put two consecutive
Blocks on the final patch; feed the emitted positions into
generate_cube_kinds seeded with the from-patch's inherited kind and write the
kinds back through the position-to-patch map; emit pipes between consecutive
emitted positions. -/
def move_run_rest (store : Store) (self : MoveOperation) (store0 : Store)
    (positions0 : List Position3D) (pipes0 : List Pipe)
    (cycle0 start_cycle : Int) :
    Except String (Store × List Position3D × List Pipe) := do
  let chain := self.patches
  let (store1, cycle1, positions1) ←
    move_chain_loop store0 chain cycle0 positions0
  let last_patch ← except_of_option chain.getLast?
    "IndexError: list index out of range"
  let lp ← getPatch store1 last_patch
  let store2 ← addCubeAt store1 last_patch cycle1 none
  let positions2 := positions1 ++ [(⟨lp.pos.x, lp.pos.y, cycle1⟩ : Position3D)]
  let lp2 ← getPatch store2 last_patch
  let store3 ← addCubeAt store2 last_patch (cycle1 + 1) none
  let positions3 := positions2 ++
    [(⟨lp2.pos.x, lp2.pos.y, cycle1 + 1⟩ : Position3D)]
  let fp2 ← getPatch store3 self.from_patch
  let inherited ← fp2.get_cube_kind start_cycle
  let kk ← except_of_option inherited
    "AttributeError: NoneType has no attribute as_tuple"
  let bases := kk.as_tuple
  let cube_kinds ← generate_cube_kinds positions3 bases
  let store4 ← (cube_kinds.zip positions3).foldlM (fun st ckpos => do
    let r ← ppm_lookup store chain ⟨ckpos.2.x, ckpos.2.y⟩
    let ck2 ← except_of_option (ZXCube.from_list ckpos.1)
      "ValueError: invalid ZXCube"
    setCubeKindAt st r ckpos.2.z (some ck2)) store3
  let pipes := pipes0 ++
    (positions3.zip positions3.tail).map (fun pq => (⟨pq.1, pq.2⟩ : Pipe))
  .ok (store4, positions3, pipes)

/-- MoveOperation.run of `qmem/_operation.py`:
start at the from-patch's next available cycle; an Outlet origin gets a Block
immediately (advancing the cursor), any other origin a temporal continuation
pipe; the rest of the body (the pairwise chain walk with back-pressure, the
two final Blocks, the kind propagation and write-back, and the pipes between
consecutive emitted positions) is `move_run_rest`. -/
def MoveOperation.run (store : Store) (self : MoveOperation) :
    Except String (Store × List Position3D × List Pipe) := do
  let fp ← getPatch store self.from_patch
  let start_cycle := fp.next_available_cycle self.cycle
  if fp.patch_type = PatchType.OUTLET then do
    let store' ← addCubeAt store self.from_patch start_cycle none
    move_run_rest store self store'
      [(⟨fp.pos.x, fp.pos.y, start_cycle⟩ : Position3D)] []
      (start_cycle + 1) start_cycle
  else
    move_run_rest store self store []
      [(⟨⟨fp.pos.x, fp.pos.y, start_cycle - 1⟩,
         ⟨fp.pos.x, fp.pos.y, start_cycle⟩⟩ : Pipe)] start_cycle start_cycle

/-! Step relations on emitted position sequences (C9). -/

/-- Structural shape of consecutive Move emissions: the same cell at
consecutive cycles, or two cells at the same cycle. -/
def StructSame (p q : Position3D) : Prop :=
  (p.x = q.x ∧ p.y = q.y ∧ q.z = p.z + 1) ∨ p.z = q.z

/-- The step moves along exactly one axis (by any nonzero amount). -/
def OneAxis (p q : Position3D) : Prop :=
  (p.x ≠ q.x ∧ p.y = q.y ∧ p.z = q.z) ∨
  (p.x = q.x ∧ p.y ≠ q.y ∧ p.z = q.z) ∨
  (p.x = q.x ∧ p.y = q.y ∧ p.z ≠ q.z)

/-- Consecutive Move emissions: same cell one cycle later, or same cycle with
exactly one spatial coordinate changed (not necessarily by one unit). -/
def StepRel (p q : Position3D) : Prop :=
  (p.x = q.x ∧ p.y = q.y ∧ q.z = p.z + 1) ∨
  (p.z = q.z ∧ ((p.x ≠ q.x ∧ p.y = q.y) ∨ (p.x = q.x ∧ p.y ≠ q.y)))

theorem struct_one_axis_step {p q : Position3D} (h1 : StructSame p q)
    (h2 : OneAxis p q) : StepRel p q := by
  rcases h1 with ⟨hx, hy, hz⟩ | hz
  · exact Or.inl ⟨hx, hy, hz⟩
  · rcases h2 with ⟨hx, hy, hz'⟩ | ⟨hx, hy, hz'⟩ | ⟨hx, hy, hz'⟩
    · exact Or.inr ⟨hz, Or.inl ⟨hx, hy⟩⟩
    · exact Or.inr ⟨hz, Or.inr ⟨hx, hy⟩⟩
    · exact absurd hz hz'

/-- A successful cube_dynamic call certifies movement along exactly one axis.
-/
theorem cube_dynamic_one_axis {p q : Position3D} {a : Dynamic}
    (h : cube_dynamic p q = .ok a) : OneAxis p q := by
  unfold cube_dynamic at h
  by_cases hx : p.x = q.x <;> by_cases hy : p.y = q.y <;>
    by_cases hz : p.z = q.z
  · exfalso
    have hx' : (q.x - p.x).natAbs = 0 := by omega
    have hy' : (q.y - p.y).natAbs = 0 := by omega
    have hz' : (q.z - p.z).natAbs = 0 := by omega
    simp [hx', hy', hz', List.filter] at h
  · exact Or.inr (Or.inr ⟨hx, hy, hz⟩)
  · exact Or.inr (Or.inl ⟨hx, hy, hz⟩)
  · exfalso
    have hx' : (q.x - p.x).natAbs = 0 := by omega
    have hy' : 0 < (q.y - p.y).natAbs := by omega
    have hz' : 0 < (q.z - p.z).natAbs := by omega
    simp [hx', hy', hz', List.filter] at h
  · exact Or.inl ⟨hx, hy, hz⟩
  · exfalso
    have hx' : 0 < (q.x - p.x).natAbs := by omega
    have hy' : (q.y - p.y).natAbs = 0 := by omega
    have hz' : 0 < (q.z - p.z).natAbs := by omega
    simp [hx', hy', hz', List.filter] at h
  · exfalso
    have hx' : 0 < (q.x - p.x).natAbs := by omega
    have hy' : 0 < (q.y - p.y).natAbs := by omega
    have hz' : (q.z - p.z).natAbs = 0 := by omega
    simp [hx', hy', hz', List.filter] at h
  · exfalso
    have hx' : 0 < (q.x - p.x).natAbs := by omega
    have hy' : 0 < (q.y - p.y).natAbs := by omega
    have hz' : 0 < (q.z - p.z).natAbs := by omega
    simp [hx', hy', hz', List.filter] at h

/-- A successful propagation pass certifies every consecutive position pair.
-/
theorem gck_loop_chain :
    ∀ {prev : Position3D} {rest : List Position3D} {pk : List Basis}
      {ks : List (List Basis)}, gck_loop prev rest pk = .ok ks →
    List.Chain' (fun p q => ∃ a, cube_dynamic p q = .ok a) (prev :: rest) := by
  intro prev rest
  induction rest generalizing prev with
  | nil => intro pk ks _; simp
  | cons curr rest ih =>
      intro pk ks h
      unfold gck_loop at h
      cases h1 : cube_dynamic prev curr with
      | error e => rw [h1, error_bind] at h; cases h
      | ok a1 =>
          rw [h1] at h
          simp only [ok_bind] at h
          cases rest with
          | nil =>
              exact List.chain'_cons.mpr ⟨⟨a1, h1⟩, List.chain'_singleton _⟩
          | cons next rs =>
              simp only [] at h
              cases h2 : cube_dynamic curr next with
              | error e => rw [h2, error_bind] at h; cases h
              | ok a2 =>
                  rw [h2] at h
                  simp only [ok_bind] at h
                  cases h4 : generate_cube_kinds_step pk a1 a2 with
                  | error e => rw [h4, error_bind] at h; cases h
                  | ok ck =>
                      rw [h4] at h
                      simp only [ok_bind] at h
                      cases h5 : gck_loop curr (next :: rs) ck with
                      | error e => rw [h5, error_bind] at h; cases h
                      | ok tail =>
                          exact List.chain'_cons.mpr ⟨⟨a1, h1⟩, ih h5⟩

theorem generate_cube_kinds_chain {positions : List Position3D}
    {init : List Basis} {ks : List (List Basis)}
    (h : generate_cube_kinds positions init = .ok ks) :
    List.Chain' (fun p q => ∃ a, cube_dynamic p q = .ok a) positions := by
  cases positions with
  | nil => simp
  | cons p rest =>
      simp only [generate_cube_kinds] at h
      cases h1 : gck_loop p rest init with
      | error e => rw [h1, error_bind] at h; cases h
      | ok tail => exact gck_loop_chain h1

theorem chain'_and {R S : α → α → Prop} :
    ∀ {l : List α}, List.Chain' R l → List.Chain' S l →
      List.Chain' (fun a b => R a b ∧ S a b) l
  | [], _, _ => List.chain'_nil
  | [_], _, _ => List.chain'_singleton _
  | a :: b :: l, hR, hS => by
      rw [List.chain'_cons] at hR hS ⊢
      exact ⟨⟨hR.1, hS.1⟩, chain'_and hR.2 hS.2⟩

/-! Position preservation: no operation moves a patch. -/

/-- The position of the patch behind a reference (None for a dangling
reference). -/
def patch_pos (st : Store) (r : PatchRef) : Option Vec2 :=
  (st.get? r).map (·.pos)

theorem getPatch_eq_some {st : Store} {r : PatchRef} {p : TqecMemoryPatch} :
    getPatch st r = .ok p ↔ st.get? r = some p := by
  unfold getPatch
  cases hg : st.get? r with
  | none => simp
  | some q =>
      constructor
      · intro h; injection h with h'; rw [h']
      · intro h; injection h with h'; rw [h']

theorem add_a_cube_pres {p p' : TqecMemoryPatch} {c : Int} {k : Option ZXCube}
    (h : p.add_a_cube c k = .ok p') :
    p'.pos = p.pos ∧ p'.patch_type = p.patch_type ∧
      p'._cycle_layer.length = p._cycle_layer.length := by
  unfold TqecMemoryPatch.add_a_cube at h
  cases hs : pyGet p._cycle_layer c with
  | none => rw [hs] at h; cases h
  | some s =>
      cases s with
      | some b => rw [hs] at h; cases h
      | none =>
          rw [hs] at h
          injection h with h'
          subst h'
          exact ⟨rfl, rfl, pySet_length _ _ _⟩

theorem set_cube_kind_pres {p p' : TqecMemoryPatch} {c : Int}
    {k : Option ZXCube} (h : p.set_cube_kind c k = .ok p') :
    p'.pos = p.pos ∧ p'.patch_type = p.patch_type ∧
      p'._cycle_layer.length = p._cycle_layer.length := by
  unfold TqecMemoryPatch.set_cube_kind at h
  cases hs : pyGet p._cycle_layer c with
  | none => rw [hs] at h; cases h
  | some s =>
      cases s with
      | none => rw [hs] at h; cases h
      | some b =>
          rw [hs] at h
          injection h with h'
          subst h'
          exact ⟨rfl, rfl, pySet_length _ _ _⟩

theorem setPatch_patch_pos {st : Store} {r : PatchRef}
    {p p' : TqecMemoryPatch} (hget : st.get? r = some p)
    (hpos : p'.pos = p.pos) (r' : PatchRef) :
    patch_pos (setPatch st r p') r' = patch_pos st r' := by
  unfold patch_pos setPatch
  by_cases hr : r' = r
  · subst hr
    obtain ⟨hlt, -⟩ := List.get?_eq_some.mp hget
    rw [List.get?_set_eq_of_lt p' hlt, hget]
    simp [hpos]
  · rw [List.get?_set_ne p' st (fun hh => hr hh.symm)]

theorem addCubeAt_patch_pos {st st' : Store} {r : PatchRef} {c : Int}
    {k : Option ZXCube} (h : addCubeAt st r c k = .ok st') (r' : PatchRef) :
    patch_pos st' r' = patch_pos st r' := by
  unfold addCubeAt at h
  cases hp : getPatch st r with
  | error e => rw [hp, error_bind] at h; cases h
  | ok p =>
      rw [hp, ok_bind] at h
      cases ha : p.add_a_cube c k with
      | error e => rw [ha, error_bind] at h; cases h
      | ok p' =>
          rw [ha, ok_bind] at h
          injection h with h'
          subst h'
          exact setPatch_patch_pos (getPatch_eq_some.mp hp)
            (add_a_cube_pres ha).1 r'

theorem setCubeKindAt_patch_pos {st st' : Store} {r : PatchRef} {c : Int}
    {k : Option ZXCube} (h : setCubeKindAt st r c k = .ok st')
    (r' : PatchRef) : patch_pos st' r' = patch_pos st r' := by
  unfold setCubeKindAt at h
  cases hp : getPatch st r with
  | error e => rw [hp, error_bind] at h; cases h
  | ok p =>
      rw [hp, ok_bind] at h
      cases ha : p.set_cube_kind c k with
      | error e => rw [ha, error_bind] at h; cases h
      | ok p' =>
          rw [ha, ok_bind] at h
          injection h with h'
          subst h'
          exact setPatch_patch_pos (getPatch_eq_some.mp hp)
            (set_cube_kind_pres ha).1 r'

theorem getPatch_of_patch_pos {st st' : Store} {r : PatchRef}
    (hpp : patch_pos st' r = patch_pos st r) {p : TqecMemoryPatch}
    (hp : getPatch st r = .ok p) :
    ∃ p', getPatch st' r = .ok p' ∧ p'.pos = p.pos := by
  unfold patch_pos at hpp
  rw [getPatch_eq_some.mp hp] at hpp
  cases hg : st'.get? r with
  | none => rw [hg] at hpp; cases hpp
  | some q =>
      rw [hg] at hpp
      injection hpp with h'
      exact ⟨q, getPatch_eq_some.mpr hg, h'⟩

theorem move_wait_loop_patch_pos :
    ∀ {fuel : Nat} {st : Store} {curr next : PatchRef} {cycle : Int}
      {acc : List Position3D} {st' : Store} {cycle' : Int}
      {acc' : List Position3D},
    move_wait_loop fuel st curr next cycle acc = .ok (st', cycle', acc') →
    ∀ r', patch_pos st' r' = patch_pos st r' := by
  intro fuel
  induction fuel with
  | zero =>
      intro st curr next cycle acc st' cycle' acc' h r'
      unfold move_wait_loop at h
      cases hnp : getPatch st next with
      | error e => rw [hnp, error_bind] at h; cases h
      | ok np =>
          rw [hnp, ok_bind] at h
          split at h
          · cases h
          · injection h with h'
            cases h'
            rfl
  | succ n ih =>
      intro st curr next cycle acc st' cycle' acc' h r'
      unfold move_wait_loop at h
      cases hnp : getPatch st next with
      | error e => rw [hnp, error_bind] at h; cases h
      | ok np =>
          rw [hnp, ok_bind] at h
          split at h
          · cases hcp : getPatch st curr with
            | error e => rw [hcp, error_bind] at h; cases h
            | ok cp =>
                rw [hcp, ok_bind] at h
                cases hadd : addCubeAt st curr cycle none with
                | error e => rw [hadd, error_bind] at h; cases h
                | ok st1 =>
                    rw [hadd, ok_bind] at h
                    rw [ih h r', addCubeAt_patch_pos hadd r']
          · injection h with h'
            cases h'
            rfl

theorem move_chain_loop_patch_pos :
    ∀ {chain : List PatchRef} {st : Store} {cycle : Int}
      {acc : List Position3D} {st' : Store} {cycle' : Int}
      {acc' : List Position3D},
    move_chain_loop st chain cycle acc = .ok (st', cycle', acc') →
    ∀ r', patch_pos st' r' = patch_pos st r' := by
  intro chain
  induction chain with
  | nil =>
      intro st cycle acc st' cycle' acc' h r'
      unfold move_chain_loop at h
      injection h with h'
      cases h'
      rfl
  | cons curr rest ih =>
      intro st cycle acc st' cycle' acc' h r'
      cases rest with
      | nil =>
          unfold move_chain_loop at h
          injection h with h'
          cases h'
          rfl
      | cons next rs =>
          unfold move_chain_loop at h
          cases hnp : getPatch st next with
          | error e => rw [hnp, error_bind] at h; cases h
          | ok np =>
              rw [hnp, ok_bind] at h
              simp only [] at h
              cases hw : move_wait_loop
                  ((np.next_available_cycle cycle - cycle).toNat) st curr next
                  cycle acc with
              | error e => rw [hw, error_bind] at h; cases h
              | ok res1 =>
                  obtain ⟨st1, cycle1, acc1⟩ := res1
                  rw [hw, ok_bind] at h
                  cases hcp : getPatch st1 curr with
                  | error e => rw [hcp, error_bind] at h; cases h
                  | ok cp =>
                      rw [hcp, ok_bind] at h
                      cases hadd : addCubeAt st1 curr cycle1 none with
                      | error e => rw [hadd, error_bind] at h; cases h
                      | ok st2 =>
                          rw [hadd, ok_bind] at h
                          rw [ih h r', addCubeAt_patch_pos hadd r',
                            move_wait_loop_patch_pos hw r']

theorem ladder_cons (x y c : Int) (m : Nat) :
    (List.range (m + 1)).map
        (fun (i : Nat) => (⟨x, y, c + (i : Int)⟩ : Position3D)) =
      (⟨x, y, c⟩ : Position3D) :: (List.range m).map
        (fun (i : Nat) => (⟨x, y, (c + 1) + (i : Int)⟩ : Position3D)) := by
  rw [List.range_succ_eq_map, List.map_cons, List.map_map]
  congr 1
  · simp
  · apply List.map_congr_left
    intro i _
    simp only [Function.comp_apply]
    congr 1
    push_cast
    ring

theorem ladder_getLast (x y c : Int) (k : Nat) :
    ((List.range (k + 1)).map
      (fun (i : Nat) => (⟨x, y, c + (i : Int)⟩ : Position3D))).getLast? =
      some (⟨x, y, c + (k : Int)⟩ : Position3D) := by
  rw [List.range_succ, List.map_append, List.map_singleton]
  exact List.getLast?_concat _

theorem chain'_ladder (x y : Int) : ∀ (m : Nat) (c : Int),
    List.Chain' StructSame
      ((List.range m).map
        (fun (i : Nat) => (⟨x, y, c + (i : Int)⟩ : Position3D))) := by
  intro m
  induction m with
  | zero => intro c; simp
  | succ k ih =>
      intro c
      rw [ladder_cons]
      refine List.chain'_cons'.mpr ⟨?_, ih (c + 1)⟩
      intro b hb
      cases k with
      | zero => cases hb
      | succ k' =>
          rw [ladder_cons, List.head?_cons] at hb
          injection hb with hb'
          subst hb'
          exact Or.inl ⟨rfl, rfl, by norm_num⟩

/-- What the back-pressure loop emits: `m` stall Blocks on the current patch,
one per consecutive cycle from the entry cursor. -/
theorem move_wait_loop_shape :
    ∀ {fuel : Nat} {st : Store} {curr next : PatchRef} {cycle : Int}
      {acc : List Position3D} {st' : Store} {cycle' : Int}
      {acc' : List Position3D},
    move_wait_loop fuel st curr next cycle acc = .ok (st', cycle', acc') →
    ∃ m : Nat, cycle' = cycle + m ∧
      ((m = 0 ∧ acc' = acc) ∨
        (∃ cp, getPatch st curr = .ok cp ∧
          acc' = acc ++ (List.range m).map
            (fun (i : Nat) =>
              (⟨cp.pos.x, cp.pos.y, cycle + (i : Int)⟩ : Position3D)))) := by
  intro fuel
  induction fuel with
  | zero =>
      intro st curr next cycle acc st' cycle' acc' h
      unfold move_wait_loop at h
      cases hnp : getPatch st next with
      | error e => rw [hnp, error_bind] at h; cases h
      | ok np =>
          rw [hnp, ok_bind] at h
          split at h
          · cases h
          · injection h with h'
            cases h'
            exact ⟨0, by omega, Or.inl ⟨rfl, rfl⟩⟩
  | succ n ih =>
      intro st curr next cycle acc st' cycle' acc' h
      unfold move_wait_loop at h
      cases hnp : getPatch st next with
      | error e => rw [hnp, error_bind] at h; cases h
      | ok np =>
          rw [hnp, ok_bind] at h
          split at h
          · cases hcp : getPatch st curr with
            | error e => rw [hcp, error_bind] at h; cases h
            | ok cp =>
                rw [hcp, ok_bind] at h
                cases hadd : addCubeAt st curr cycle none with
                | error e => rw [hadd, error_bind] at h; cases h
                | ok st1 =>
                    rw [hadd, ok_bind] at h
                    obtain ⟨m1, hcyc, hcase⟩ := ih h
                    refine ⟨m1 + 1, by omega, Or.inr ⟨cp, rfl, ?_⟩⟩
                    rw [ladder_cons]
                    rcases hcase with ⟨hm0, rfl⟩ | ⟨cp1, hcp1, hacc⟩
                    · subst hm0
                      simp
                    · have hpp : patch_pos st1 curr = patch_pos st curr :=
                        addCubeAt_patch_pos hadd curr
                      unfold patch_pos at hpp
                      rw [getPatch_eq_some.mp hcp,
                        getPatch_eq_some.mp hcp1] at hpp
                      have hpos : cp1.pos = cp.pos := by
                        simpa using hpp
                      rw [hacc, hpos]
                      simp
          · injection h with h'
            cases h'
            exact ⟨0, by omega, Or.inl ⟨rfl, rfl⟩⟩

/-- What the pairwise chain walk emits: a Chain'-`StructSame` segment that
starts at the entry cursor on the first chain patch and ends at the final
cursor. -/
theorem move_chain_loop_shape :
    ∀ {chain : List PatchRef} {st : Store} {cycle : Int}
      {acc : List Position3D} {st' : Store} {cycle' : Int}
      {acc' : List Position3D},
    move_chain_loop st chain cycle acc = .ok (st', cycle', acc') →
    ∃ ps, acc' = acc ++ ps ∧
      List.Chain' StructSame ps ∧
      cycle ≤ cycle' ∧
      (ps = [] → cycle' = cycle) ∧
      (∀ pf, ps.head? = some pf → pf.z = cycle ∧
        ∃ r cp, chain.head? = some r ∧ getPatch st r = .ok cp ∧
          pf.x = cp.pos.x ∧ pf.y = cp.pos.y) ∧
      (∀ pl, ps.getLast? = some pl → pl.z = cycle') ∧
      (2 ≤ chain.length → ps ≠ []) := by
  intro chain
  induction chain with
  | nil =>
      intro st cycle acc st' cycle' acc' h
      unfold move_chain_loop at h
      injection h with h'
      cases h'
      refine ⟨[], by simp, by simp, le_rfl, fun _ => rfl, ?_, ?_, ?_⟩
      · intro pf hpf
        cases hpf
      · intro pl hpl
        cases hpl
      · intro h2
        simp at h2
  | cons curr rest ih =>
      intro st cycle acc st' cycle' acc' h
      cases rest with
      | nil =>
          unfold move_chain_loop at h
          injection h with h'
          cases h'
          refine ⟨[], by simp, by simp, le_rfl, fun _ => rfl, ?_, ?_, ?_⟩
          · intro pf hpf
            cases hpf
          · intro pl hpl
            cases hpl
          · intro h2
            simp at h2
      | cons next rs =>
          unfold move_chain_loop at h
          cases hnp : getPatch st next with
          | error e => rw [hnp, error_bind] at h; cases h
          | ok np =>
              rw [hnp, ok_bind] at h
              simp only [] at h
              cases hw : move_wait_loop
                  ((np.next_available_cycle cycle - cycle).toNat) st curr next
                  cycle acc with
              | error e => rw [hw, error_bind] at h; cases h
              | ok res1 =>
                  obtain ⟨st1, cycle1, acc1⟩ := res1
                  rw [hw, ok_bind] at h
                  dsimp only at h
                  cases hcp : getPatch st1 curr with
                  | error e => rw [hcp, error_bind] at h; cases h
                  | ok cp =>
                      rw [hcp, ok_bind] at h
                      cases hadd : addCubeAt st1 curr cycle1 none with
                      | error e => rw [hadd, error_bind] at h; cases h
                      | ok st2 =>
                          rw [hadd, ok_bind] at h
                          obtain ⟨cp0, hcp0, hpos0⟩ := getPatch_of_patch_pos
                            ((move_wait_loop_patch_pos hw curr).symm) hcp
                          obtain ⟨m, hm, hcase⟩ := move_wait_loop_shape hw
                          have hacc1 : acc1 = acc ++ (List.range m).map
                              (fun (i : Nat) =>
                                (⟨cp0.pos.x, cp0.pos.y, cycle + (i : Int)⟩ :
                                  Position3D)) := by
                            rcases hcase with ⟨hm0, rfl⟩ | ⟨cpw, hcpw, hacc⟩
                            · subst hm0
                              simp
                            · rw [hcpw] at hcp0
                              obtain rfl : cpw = cp0 := by injection hcp0
                              exact hacc
                          obtain ⟨ps_r, hacc', hchain_r, hle_r, hemp_r,
                            hhead_r, hlast_r, -⟩ := ih h
                          refine ⟨(List.range m).map
                              (fun (i : Nat) =>
                                (⟨cp0.pos.x, cp0.pos.y, cycle + (i : Int)⟩ :
                                  Position3D)) ++
                              ((⟨cp.pos.x, cp.pos.y, cycle1⟩ : Position3D) ::
                                ps_r), ?_, ?_, ?_, ?_, ?_, ?_, ?_⟩
                          · rw [hacc', hacc1]
                            simp
                          · refine List.chain'_append.mpr
                              ⟨chain'_ladder _ _ _ _, ?_, ?_⟩
                            · refine List.chain'_cons'.mpr ⟨?_, hchain_r⟩
                              intro y hy
                              exact Or.inr ((hhead_r y hy).1.symm)
                            · intro x hx y hy
                              rw [List.head?_cons] at hy
                              injection hy with hy'
                              subst hy'
                              cases m with
                              | zero => cases hx
                              | succ k =>
                                  rw [ladder_getLast] at hx
                                  injection hx with hx'
                                  subst hx'
                                  refine Or.inl ⟨?_, ?_, ?_⟩
                                  · rw [hpos0]
                                  · rw [hpos0]
                                  · simp only
                                    omega
                          · omega
                          · intro hps
                            simp at hps
                          · intro pf hpf
                            cases m with
                            | zero =>
                                simp only [List.range_zero, List.map_nil,
                                  List.nil_append, List.head?_cons] at hpf
                                injection hpf with hpf'
                                subst hpf'
                                refine ⟨by simp only; omega,
                                  curr, cp0, rfl, hcp0, ?_, ?_⟩
                                · rw [hpos0]
                                · rw [hpos0]
                            | succ k =>
                                rw [ladder_cons, List.cons_append,
                                  List.head?_cons] at hpf
                                injection hpf with hpf'
                                subst hpf'
                                exact ⟨rfl, curr, cp0, rfl, hcp0, rfl, rfl⟩
                          · intro pl hpl
                            cases hpsr : ps_r with
                            | nil =>
                                subst hpsr
                                have hc1 : cycle' = cycle1 := hemp_r rfl
                                rw [show ((⟨cp.pos.x, cp.pos.y, cycle1⟩ :
                                    Position3D) :: ([] : List Position3D)) =
                                    [(⟨cp.pos.x, cp.pos.y, cycle1⟩ :
                                      Position3D)] from rfl,
                                  List.getLast?_concat] at hpl
                                injection hpl with hpl'
                                subst hpl'
                                simp only
                                omega
                            | cons q qs =>
                                subst hpsr
                                rw [List.getLast?_append_cons,
                                  List.getLast?_cons_cons] at hpl
                                exact hlast_r pl hpl
                          · intro h2
                            simp

theorem bind_eq_ok {ε α β : Type} {e : Except ε α} {k : α → Except ε β}
    {v : β} (h : (e >>= k) = .ok v) : ∃ a, e = .ok a ∧ k a = .ok v := by
  cases e with
  | error er => rw [error_bind] at h; cases h
  | ok a => exact ⟨a, rfl, h⟩

/-- Core step property of the Move body after the origin branch: the emitted
positions extend `positions0` into a Chain' of structurally sound,
single-axis steps. -/
theorem move_run_rest_steps (store : Store) (mv : MoveOperation)
    (store0 : Store) (positions0 : List Position3D) (pipes0 : List Pipe)
    (cycle0 start_cycle : Int) (st' : Store) (positions : List Position3D)
    (pipes : List Pipe)
    (h : move_run_rest store mv store0 positions0 pipes0 cycle0 start_cycle =
      .ok (st', positions, pipes))
    (hpos0 : List.Chain' StructSame positions0)
    (hglue : ∀ x, positions0.getLast? = some x → x.z = cycle0 - 1 ∧
      ∃ cp0, getPatch store0 mv.from_patch = .ok cp0 ∧
        x.x = cp0.pos.x ∧ x.y = cp0.pos.y) :
    List.Chain' StepRel positions := by
  unfold move_run_rest at h
  dsimp only at h
  obtain ⟨res1, hch, h⟩ := bind_eq_ok h
  obtain ⟨store1, cycle1, positions1⟩ := res1
  dsimp only at h
  have hlastp : mv.patches.getLast? = some mv.to_patch := by
    unfold MoveOperation.patches
    rw [← List.cons_append]
    exact List.getLast?_concat _
  obtain ⟨last_patch, hmatch, h⟩ := bind_eq_ok h
  rw [hlastp] at hmatch
  unfold except_of_option at hmatch
  injection hmatch with he
  subst he
  obtain ⟨lp, hlp, h⟩ := bind_eq_ok h
  obtain ⟨store2, hadd1, h⟩ := bind_eq_ok h
  obtain ⟨lp2, hlp2, h⟩ := bind_eq_ok h
  obtain ⟨store3, hadd2, h⟩ := bind_eq_ok h
  obtain ⟨fp2, hfp2, h⟩ := bind_eq_ok h
  obtain ⟨inh, hinh, h⟩ := bind_eq_ok h
  obtain ⟨kk, hkk, h⟩ := bind_eq_ok h
  obtain ⟨cks, hgen, h⟩ := bind_eq_ok h
  obtain ⟨store4, hfold, h⟩ := bind_eq_ok h
  injection h with h'
  cases h'
  obtain ⟨ps, hacc1, hchain_ps, hle, hemp, hhead, hlast, hne⟩ :=
    move_chain_loop_shape hch
  subst hacc1
  have hlen2 : 2 ≤ mv.patches.length := by
    unfold MoveOperation.patches
    simp
  have hpsne : ps ≠ [] := hne hlen2
  obtain ⟨pl, hpl⟩ :=
    Option.isSome_iff_exists.mp (List.getLast?_isSome.mpr hpsne)
  have hplz : pl.z = cycle1 := hlast pl hpl
  have hlp2pos : lp2.pos = lp.pos := by
    obtain ⟨p', hp', hpp⟩ := getPatch_of_patch_pos
      (addCubeAt_patch_pos hadd1 mv.to_patch) hlp
    rw [hlp2] at hp'
    injection hp' with he2
    rw [he2]
    exact hpp
  have hstruct : List.Chain' StructSame
      (((positions0 ++ ps) ++ [(⟨lp.pos.x, lp.pos.y, cycle1⟩ : Position3D)])
        ++ [(⟨lp2.pos.x, lp2.pos.y, cycle1 + 1⟩ : Position3D)]) := by
    refine List.chain'_append.mpr ⟨List.chain'_append.mpr
      ⟨List.chain'_append.mpr ⟨hpos0, hchain_ps, ?_⟩,
        List.chain'_singleton _, ?_⟩, List.chain'_singleton _, ?_⟩
    · intro x hx y hy
      obtain ⟨hxz, cp0, hcp0, hxx, hxy⟩ := hglue x hx
      obtain ⟨hyz, r, cp, hr, hcp, hyx, hyy⟩ := hhead y hy
      have hrfrom : r = mv.from_patch := by
        unfold MoveOperation.patches at hr
        rw [List.head?_cons] at hr
        injection hr with hr'
        exact hr'.symm
      subst hrfrom
      rw [hcp0] at hcp
      obtain rfl : cp0 = cp := by injection hcp
      exact Or.inl ⟨by rw [hxx, hyx], by rw [hxy, hyy], by omega⟩
    · intro x hx y hy
      rw [List.getLast?_append_of_ne_nil _ hpsne, hpl] at hx
      injection hx with hx'
      subst hx'
      rw [List.head?_cons] at hy
      injection hy with hy'
      subst hy'
      exact Or.inr hplz
    · intro x hx y hy
      rw [List.getLast?_concat] at hx
      injection hx with hx'
      subst hx'
      rw [List.head?_cons] at hy
      injection hy with hy'
      subst hy'
      exact Or.inl ⟨by rw [hlp2pos], by rw [hlp2pos], rfl⟩
  have honeax := (generate_cube_kinds_chain hgen).imp
    (fun a b hab => by
      obtain ⟨ax, hax⟩ := hab
      exact cube_dynamic_one_axis hax)
  exact (chain'_and hstruct honeax).imp
    (fun a b hab => struct_one_axis_step hab.1 hab.2)

/-- C9 (amended): every consecutive pair of positions emitted by a completed
MoveOperation.run is either the same cell at two consecutive cycles, or two
cells at the same cycle differing in exactly one spatial coordinate — possibly
by more than one unit — so the propagation error branches for stationary or
diagonal steps are never taken on a run that completes. -/
theorem move_run_steps (store : Store) (mv : MoveOperation) (st' : Store)
    (positions : List Position3D) (pipes : List Pipe)
    (h : MoveOperation.run store mv = .ok (st', positions, pipes)) :
    List.Chain' StepRel positions := by
  unfold MoveOperation.run at h
  obtain ⟨fp, hfp, h⟩ := bind_eq_ok h
  dsimp only at h
  split at h
  · obtain ⟨store0, haddo, h⟩ := bind_eq_ok h
    refine move_run_rest_steps store mv store0 _ _ _ _ st' positions pipes h
      (List.chain'_singleton _) ?_
    intro x hx
    injection hx with hx'
    subst hx'
    obtain ⟨p', hp', hpos'⟩ := getPatch_of_patch_pos
      (addCubeAt_patch_pos haddo mv.from_patch) hfp
    refine ⟨?_, p', hp', ?_, ?_⟩
    · show fp.next_available_cycle mv.cycle =
        fp.next_available_cycle mv.cycle + 1 - 1
      omega
    · show fp.pos.x = p'.pos.x
      rw [hpos']
    · show fp.pos.y = p'.pos.y
      rw [hpos']
  · exact move_run_rest_steps store mv store _ _ _ _ st' positions pipes h
      List.chain'_nil (fun x hx => by cases hx)

/-- Store for the C9 counterexample: an Outlet at (0,0) and a Data patch two
columns away at (2,0), with nothing in between in the chain. -/
def mvCexStore : Store :=
  [⟨⟨0, 0⟩, .OUTLET, [none, none, none, none, none, none], -1⟩,
   ⟨⟨2, 0⟩, .DATA, [none, none, none, none, none, none], -1⟩]

/-- A Move from the Outlet directly to the non-adjacent Data patch. -/
def mvCex : MoveOperation := ⟨0, [], 1, 0⟩

/-- The positions `mvCex` emits (None if the run fails). -/
def mvCexPositions : Option (List Position3D) :=
  (MoveOperation.run mvCexStore mvCex).toOption.map (fun r => r.2.1)

/-- C9 counterexample: the Move completes without error, yet the consecutive
emitted pair (0,0,1) → (2,0,1) moves two units along x, so not every
consecutive pair differs by exactly one unit. -/
theorem move_run_unit_step_counterexample :
    mvCexPositions = some [⟨0, 0, 0⟩, ⟨0, 0, 1⟩, ⟨2, 0, 1⟩, ⟨2, 0, 2⟩] ∧
    ((2 : Int) - 0).natAbs ≠ 1 :=
  ⟨rfl, by decide⟩

/-- Store for the C9 witness: an Outlet at (0,0) adjacent to a Data patch at
(1,0). -/
def mvWitStore : Store :=
  [⟨⟨0, 0⟩, .OUTLET, [none, none, none, none, none, none], -1⟩,
   ⟨⟨1, 0⟩, .DATA, [none, none, none, none, none, none], -1⟩]

/-- A Move from the Outlet to the adjacent Data patch. -/
def mvWit : MoveOperation := ⟨0, [], 1, 0⟩

/-- The store `mvWit` leaves behind. -/
def mvWitStoreAfter : Store :=
  [⟨⟨0, 0⟩, .OUTLET,
     [some ⟨some ⟨.X, .Z, .X⟩, ⟨0, 0, 0⟩⟩, some ⟨some ⟨.X, .Z, .X⟩, ⟨0, 0, 1⟩⟩,
      none, none, none, none], 1⟩,
   ⟨⟨1, 0⟩, .DATA,
     [none, some ⟨some ⟨.X, .Z, .X⟩, ⟨1, 0, 1⟩⟩,
      some ⟨some ⟨.X, .Z, .X⟩, ⟨1, 0, 2⟩⟩, none, none, none], 2⟩]

/-- C9 witness: the concrete adjacent Move completes, and its emitted
positions satisfy the amended step property. -/
theorem move_run_steps_witness :
    List.Chain' StepRel
      [⟨0, 0, 0⟩, ⟨0, 0, 1⟩, ⟨1, 0, 1⟩, ⟨1, 0, 2⟩] :=
  move_run_steps mvWitStore mvWit mvWitStoreAfter
    [⟨0, 0, 0⟩, ⟨0, 0, 1⟩, ⟨1, 0, 1⟩, ⟨1, 0, 2⟩]
    [⟨⟨0, 0, 0⟩, ⟨0, 0, 1⟩⟩, ⟨⟨0, 0, 1⟩, ⟨1, 0, 1⟩⟩, ⟨⟨1, 0, 1⟩, ⟨1, 0, 2⟩⟩]
    rfl

/-! Embedding of IdleOperation of `qmem/_operation.py`, the controller of
`qmem/_controller.py` and the orchestrator of `qmem/_qmem.py`. -/

/-- IdleOperation state after `__init__`. -/
structure IdleOperation where
  idling_patch : PatchRef
  cycle : Int
deriving DecidableEq, Repr

/-- IdleOperation.run: schedule one Block at the requested cycle, propagating
the patch's inherited kind forward; if the patch is already busy past the
requested cycle, print a warning and do nothing (`run` returns Python None,
here `none`). -/
def IdleOperation.run (store : Store) (self : IdleOperation) :
    Except String (Store × Option (List Position3D × List Pipe)) := do
  let p ← getPatch store self.idling_patch
  let cycle := p.next_available_cycle self.cycle
  if self.cycle < cycle then
    .ok (store, none)
  else do
    let store1 ← addCubeAt store self.idling_patch cycle none
    let p1 ← getPatch store1 self.idling_patch
    let ck ← p1.get_cube_kind cycle
    let store2 ← setCubeKindAt store1 self.idling_patch cycle ck
    .ok (store2,
      some ([(⟨p.pos.x, p.pos.y, cycle⟩ : Position3D)],
        [(⟨⟨p.pos.x, p.pos.y, cycle - 1⟩, ⟨p.pos.x, p.pos.y, cycle⟩⟩ :
          Pipe)]))

/-- SimpleController of `qmem/_controller.py`: the two mapping dicts in
insertion order.  The `_3D_map` attribute initialised by the source is never
read or written afterwards and is omitted. -/
structure SimpleController where
  coord_to_qid : List (Vec2 × Option Nat)
  qid_to_coord : List (Nat × Option Vec2)
deriving DecidableEq, Repr

/-- Controller.__init__: one `coord_to_qid` slot (initially unmapped) per
Data cell, in row-major scan order. -/
def controller_init (memory_layout : List (List Int)) : SimpleController :=
  ⟨(memory_layout.enum).flatMap (fun yr =>
      (yr.2.enum).filterMap (fun xc =>
        if xc.2 = 0 then
          some (⟨(xc.1 : Int), (yr.1 : Int)⟩, none)
        else none)),
   []⟩

/-- SimpleController.map: assign the qubit to the first free Data slot in
insertion order (the `cyl` argument is accepted and ignored, as in the
source). -/
def SimpleController.map (c : SimpleController) (q_id : Nat) (cyl : Int) :
    Except String (SimpleController × Vec2) :=
  let _ := cyl
  match c.coord_to_qid.find? (fun pr => pr.2.isNone) with
  | some entry =>
      .ok (⟨dictSet c.coord_to_qid entry.1 (some q_id),
            dictSet c.qid_to_coord q_id (some entry.1)⟩, entry.1)
  | none => .error "No available memory cells to map the qubit."

/-- Controller.get_mapping_coord: KeyError when the qubit was never mapped,
ValueError when it is currently unmapped. -/
def SimpleController.get_mapping_coord (c : SimpleController) (q_id : Nat) :
    Except String Vec2 :=
  match dictGet c.qid_to_coord q_id with
  | none => .error "KeyError"
  | some none => .error "q_id is not in the mapping"
  | some (some coord) => .ok coord

/-- Controller.unmap. -/
def SimpleController.unmap (c : SimpleController) (q_id : Nat) :
    Except String SimpleController := do
  let coord ← c.get_mapping_coord q_id
  .ok ⟨dictSet c.coord_to_qid coord none, dictSet c.qid_to_coord q_id none⟩

/-- Controller.get_mapping_qid: KeyError when the coordinate is not a Data
slot, ValueError when no qubit sits there. -/
def SimpleController.get_mapping_qid (c : SimpleController) (coord : Vec2) :
    Except String Nat :=
  match dictGet c.coord_to_qid coord with
  | none => .error "KeyError"
  | some none => .error "coord is not mapped to any q_id"
  | some (some q) => .ok q

/-- Controller.get_in_memory_qids: the currently mapped qubit ids in
insertion order. -/
def SimpleController.get_in_memory_qids (c : SimpleController) : List Nat :=
  (c.qid_to_coord.filter (fun pr => pr.2.isSome)).map (·.1)

/-- Modelled from the spec: `Controller.mapping`, the coordinate-to-qubit-id
mapping read by `QMemory.__yoke` as `self.controller.mapping.get(pos)`.  The
attribute does not exist in the source under src/ (only this caller does); the
spec describes `qidAt(coord)` as returning a none-equivalent when absent, so
it is modelled as the none-flattened `coord_to_qid` lookup. -/
def SimpleController.mapping_get (c : SimpleController) (coord : Vec2) :
    Option Nat :=
  (dictGet c.coord_to_qid coord).join

/-- Row/column line selector (the source reuses Vec2 with one absent
component; see `Vec2`). -/
inductive Line
  | row (y : Int)
  | col (x : Int)
deriving DecidableEq, Repr

/-- Vec2.is_row on a line selector. -/
def Line.is_row : Line → Bool
  | .row _ => true
  | .col _ => false

/-- Vec2.expand on a line selector. -/
def Line.expand (l : Line) (values : List Int) : List Vec2 :=
  match l with
  | .row y => values.map (fun v => ⟨v, y⟩)
  | .col x => values.map (fun v => ⟨x, v⟩)

/-- OperationType of `qmem/_operation.py`. -/
inductive OperationType
  | INIT
  | STORE
  | LOAD
  | YOKE_ROW
  | YOKE_COL
deriving DecidableEq, Repr

/-- Instruction of `qmem/_instruction.py` (the `q_id : int | list[int]`
annotation notwithstanding, every use reads a single id). -/
structure Instruction where
  operation : OperationType
  q_id : Option Nat
  pos : Option Line
deriving DecidableEq, Repr

/-- Modelled from the spec: `TqecMemoryPatch.get_cubes`, called by
`QMemory.run` for the final collection but not defined under src/.  The spec
says the run result holds one `Cube{x, y, cycle, boundaryType}` per scheduled
Block across the patch's entire timeline, so `get_cubes` yields the stored
Cube of every occupied timeline slot, in cycle order. -/
def TqecMemoryPatch.get_cubes (p : TqecMemoryPatch) : List Cube :=
  p._cycle_layer.filterMap id

/-- Index of `self.memory_storage[pos.y][pos.x]` inside the row-major
flattening of the patch grid, with Python's negative-index wrap-around on
both levels.  Row lengths are read from the layout matrix, whose shape the
in-place cell writes never change. -/
def storage_ref (layout : List (List Int)) (pos : Vec2) :
    Except String PatchRef :=
  match pyIdx layout.length pos.y with
  | none => .error "IndexError: list index out of range"
  | some ny =>
    match layout.get? ny with
    | none => .error "IndexError: list index out of range"
    | some row =>
      match pyIdx row.length pos.x with
      | none => .error "IndexError: list index out of range"
      | some nx => .ok (((layout.take ny).map List.length).sum + nx)

/-- QMemory state: the shared layout matrix (also the path generator's and
controller's `map`), the patch grid flattened row-major (`memory_storage`,
indexed through `storage_ref`; `tqec_patches` is this same flattening), and
the controller.  The path generator holds no other state: its `rows`/`cols`
equal `height`/`width` by the same formulas, and its `map` is this very
layout object. -/
structure QMemory where
  maximum_cycles : Nat
  memory_layout : List (List Int)
  width : Nat
  height : Nat
  access_hallway_layout : List Vec2
  outlet_points : List Vec2
  memory_storage : Store
  controller : SimpleController
deriving DecidableEq, Repr

/-- Patch type of a layout cell value; any other value raises. -/
def cell_patch_type : Int → Except String PatchType
  | 0 => .ok PatchType.DATA
  | 1 => .ok PatchType.ACCESS_HALLWAY
  | 2 => .ok PatchType.OUTLET
  | -1 => .ok PatchType.WALL
  | _ => .error "Memory layout can only contain 0, 1, 2, and -1."

/-- QMemory.__init__: validate the layout, build one patch per cell (scanning
rows top to bottom, cells left to right), record access-hallway and outlet
coordinates in scan order, and build the controller over the same layout. -/
def QMemory.init (memory_layout : List (List Int)) (maximum_cycles : Nat) :
    Except String QMemory := do
  let storage_rows ← memory_layout.enum.mapM (fun yr =>
    yr.2.enum.mapM (fun xc => do
      let pt ← cell_patch_type xc.2
      pure (TqecMemoryPatch.mk_patch ⟨(xc.1 : Int), (yr.1 : Int)⟩ pt
        maximum_cycles)))
  .ok
    { maximum_cycles := maximum_cycles
      memory_layout := memory_layout
      width := if 0 < memory_layout.length then memory_layout.headI.length
               else 0
      height := memory_layout.length
      access_hallway_layout := memory_layout.enum.flatMap (fun yr =>
        yr.2.enum.filterMap (fun xc =>
          if xc.2 = 1 then some (⟨(xc.1 : Int), (yr.1 : Int)⟩ : Vec2)
          else none))
      outlet_points := memory_layout.enum.flatMap (fun yr =>
        yr.2.enum.filterMap (fun xc =>
          if xc.2 = 2 then some (⟨(xc.1 : Int), (yr.1 : Int)⟩ : Vec2)
          else none))
      memory_storage := storage_rows.join
      controller := controller_init memory_layout }

/-- `self.memory_storage[pos.y][pos.x]` as a reference. -/
def QMemory.patch_ref (q : QMemory) (pos : Vec2) : Except String PatchRef :=
  storage_ref q.memory_layout pos

/-- QMemory.get_patches_at, returning references. -/
def QMemory.get_patch_refs_at (q : QMemory) (positions : List Vec2) :
    Except String (List PatchRef) :=
  positions.mapM q.patch_ref

/-- QMemory.generate_path: run BFS from the coordinate to the goal list
(keeping the layout the search mutated), fail on an empty path, and resolve
the first position, the intermediate positions (`paths[1:-1]`) and the last
position to patches. -/
def QMemory.generate_path (q : QMemory) (coord_from : Vec2)
    (coord_to : List Vec2) :
    Except String (QMemory × PatchRef × List PatchRef × PatchRef) := do
  let (paths, gen') ←
    (BFSPathGenerator.mk_gen q.memory_layout).path coord_from coord_to
  let q' := { q with memory_layout := gen'.map }
  match paths with
  | [] => .error "No path found from the access hallway to any outlet point."
  | p0 :: _ => do
      let from_ref ← q'.patch_ref p0
      let hall_refs ← ((paths.drop 1).dropLast).mapM q'.patch_ref
      let plast ← except_of_option paths.getLast?
        "IndexError: list index out of range"
      let to_ref ← q'.patch_ref plast
      .ok (q', from_ref, hall_refs, to_ref)

/-- QMemory.load: unmap the qubit, find a path from its cell to the outlet
points, and build the LoadOperation (a MoveOperation from the data cell
through the hallway to the outlet). -/
def QMemory.load (q : QMemory) (q_id : Nat) (cyl : Int) :
    Except String (QMemory × MoveOperation) := do
  let coord ← q.controller.get_mapping_coord q_id
  let ctrl' ← q.controller.unmap q_id
  let q1 := { q with controller := ctrl' }
  let (q2, from_ref, hall_refs, to_ref) ←
    q1.generate_path coord q1.outlet_points
  .ok (q2, (⟨from_ref, hall_refs, to_ref, cyl⟩ : MoveOperation))

/-- QMemory.store: map the qubit to a free cell, find a path from that cell
to the outlet points, and build the StoreOperation (a MoveOperation from the
outlet through the reversed hallway to the data cell). -/
def QMemory.store (q : QMemory) (q_id : Nat) (cyl : Int) :
    Except String (QMemory × MoveOperation) := do
  let (ctrl', coord_to) ← q.controller.map q_id cyl
  let q1 := { q with controller := ctrl' }
  let (q2, target_ref, hall_refs, outlet_ref) ←
    q1.generate_path coord_to q1.outlet_points
  .ok (q2, (⟨outlet_ref, hall_refs.reverse, target_ref, cyl⟩ : MoveOperation))

/-- QMemory.idle: look up the qubit's cell and build the IdleOperation on the
patch there. -/
def QMemory.idle (q : QMemory) (q_id : Nat) (cyl : Int) :
    Except String IdleOperation := do
  let coord ← q.controller.get_mapping_coord q_id
  let r ← q.patch_ref coord
  .ok (⟨r, cyl⟩ : IdleOperation)

/-- QMemory.__yoke: collect the line's patches, keep those whose position the
controller maps to a qubit (none occupied yields Python `None`), locate an
adjacent access-hallway line next to the first occupied patch (checking the
two perpendicular offsets in order and keeping the first hit), and construct
the YokeOperation over the occupied patches and the full hallway line. -/
def QMemory.yoke (q : QMemory) (line : Line) (cyl : Int) :
    Except String (Option YokeOperation) := do
  let is_row := line.is_row
  let limit : Nat := if is_row then q.width else q.height
  let all_points := line.expand ((List.range limit).map (fun i => (i : Int)))
  let all_refs ← q.get_patch_refs_at all_points
  let occupied ← all_refs.filterM (fun r => do
    let p ← getPatch q.memory_storage r
    pure ((q.controller.mapping_get p.pos).isSome))
  match occupied with
  | [] => .ok none
  | r0 :: _ => do
      let p0 ← getPatch q.memory_storage r0
      let pos := p0.pos
      let checks : List (Int × Int) :=
        if is_row then [(0, 1), (0, -1)] else [(1, 0), (-1, 0)]
      let access_line ← checks.foldlM (fun (found : Option Line) d => do
        match found with
        | some l => pure (some l)
        | none =>
            let nx := pos.x + d.1
            let ny := pos.y + d.2
            if 0 ≤ nx ∧ nx < q.width ∧ 0 ≤ ny ∧ ny < q.height then do
              let r ← q.patch_ref ⟨nx, ny⟩
              let p ← getPatch q.memory_storage r
              if p.patch_type = PatchType.ACCESS_HALLWAY then
                pure (some (if is_row then Line.row ny else Line.col nx))
              else
                pure none
            else
              pure none) none
      match access_line with
      | none =>
          .error (if is_row then
              "No access hallway found for the occupied patch in the row."
            else
              "No access hallway found for the occupied patch in the column.")
      | some al => do
          let hall_refs ← q.get_patch_refs_at
            (al.expand ((List.range limit).map (fun i => (i : Int))))
          let yop ← YokeOperation.init q.memory_storage occupied hall_refs cyl
            (if is_row then YokeOperationType.YOKE_ROW
             else YokeOperationType.YOKE_COL)
          .ok (some yop)

/-- `memory_operation.run()` followed by `memory_operation.to_tqec_pipes()`
for a MoveOperation: `to_tqec_pipes` re-runs the operation when the stored
pipe list is empty and returns the pipes the (re-)run left behind. -/
def run_move_and_pipes (store : Store) (m : MoveOperation) :
    Except String (Store × List Pipe) := do
  let (st1, _, pipes1) ← m.run store
  if pipes1.isEmpty then do
    let (st2, _, pipes2) ← m.run st1
    .ok (st2, pipes2)
  else
    .ok (st1, pipes1)

/-- `memory_operation.run()` followed by `memory_operation.to_tqec_pipes()`
for a YokeOperation: its `to_tqec_pipes` returns the stored pipes directly.
-/
def run_yoke_and_pipes (store : Store) (y : YokeOperation) :
    Except String (Store × List Pipe) := do
  let (st1, _, pipes1) ← y.run store
  .ok (st1, pipes1)

/-- The operation object the run loop's `memory_operation` variable can hold
(idle operations are bound to a different variable). -/
inductive MemOp
  | move (m : MoveOperation)
  | yoke (y : YokeOperation)
deriving DecidableEq, Repr

/-- Execute whatever `memory_operation` holds and collect its pipes. -/
def MemOp.exec (store : Store) : MemOp → Except String (Store × List Pipe)
  | .move m => run_move_and_pipes store m
  | .yoke y => run_yoke_and_pipes store y

/-- The `while _cyl < cycle` idle back-fill of the yoke branch of
QMemory.run: the counter increases by one per iteration unconditionally, so
the loop runs exactly `(cycle - _cyl).toNat` times; per iteration an
IdleOperation on the qubit's patch is built and run, and its pipes are
appended as a batch only when the run did something. -/
def yoke_fill_loop : Nat → QMemory → Nat → Int → List (List Pipe) →
    Except String (QMemory × List (List Pipe))
  | 0, q, _, _, acc => .ok (q, acc)
  | n + 1, q, pid, _cyl, acc => do
      let idle_op ← q.idle pid _cyl
      let (st', res) ← IdleOperation.run q.memory_storage idle_op
      let q' := { q with memory_storage := st' }
      match res with
      | none => yoke_fill_loop n q' pid (_cyl + 1) acc
      | some (_, pipes) => yoke_fill_loop n q' pid (_cyl + 1) (acc ++ [pipes])

/-- The `for i in range(len(patches))` loop of the yoke branch of
QMemory.run: each target patch's qubit id is looked up (`get_mapping_qid`
raises rather than returning Python `None`, so the `is not None` guard is
always taken) and idled from the requested cycle up to the yoke's pinned
cycle. -/
def yoke_fill_patches : List PatchRef → QMemory → Int → Int →
    List (List Pipe) → Except String (QMemory × List (List Pipe))
  | [], q, _, _, acc => .ok (q, acc)
  | r :: rs, q, cycle, cyl, acc => do
      let p ← getPatch q.memory_storage r
      let pid ← q.controller.get_mapping_qid p.pos
      let (q', acc') ← yoke_fill_loop (cycle - cyl).toNat q pid cyl acc
      yoke_fill_patches rs q' cycle cyl acc'

/-- The end-of-cycle idle loop of QMemory.run: idle every in-memory qubit at
the cycle, appending the pipes of every idle that did something. -/
def end_cycle_idles : List Nat → QMemory → Int → List (List Pipe) →
    Except String (QMemory × List (List Pipe))
  | [], q, _, acc => .ok (q, acc)
  | qid :: qs, q, cyl, acc => do
      let idle_op ← q.idle qid cyl
      let (st', res) ← IdleOperation.run q.memory_storage idle_op
      let q' := { q with memory_storage := st' }
      match res with
      | none => end_cycle_idles qs q' cyl acc
      | some (_, pipes) => end_cycle_idles qs q' cyl (acc ++ [pipes])

/-- The shared YOKE_ROW/YOKE_COL arm of the inner loop of QMemory.run:
build the yoke (an absent line selector or a Python `None` yoke raises when
its attributes are read), back-fill idles on the target patches while the
requested cycle lags the pinned one, then run the yoke and append its pipes.
-/
def dispatch_yoke (q : QMemory) (cyl : Int) (op : Instruction)
    (acc : List (List Pipe)) :
    Except String (QMemory × Option MemOp × List (List Pipe)) := do
  let line ← except_of_option op.pos
    "AttributeError: NoneType has no attribute is_row"
  let yok ← q.yoke line cyl
  let y ← except_of_option yok
    "AttributeError: NoneType has no attribute cycle"
  let (q2, acc1) ←
    if cyl < y.cycle then
      yoke_fill_patches y.patches q y.cycle cyl acc
    else
      pure (q, acc)
  let (st', pipes) ← run_yoke_and_pipes q2.memory_storage y
  .ok ({ q2 with memory_storage := st' }, some (MemOp.yoke y),
    acc1 ++ [pipes])

/-- One instruction of the inner loop of QMemory.run: build the operation
(LOAD/STORE/YOKE rebind `memory_operation`; no branch handles INIT, so it
runs whatever `memory_operation` already holds, a NameError when nothing
does), back-fill idles below a postponed yoke's pinned cycle, then run the
operation and append its pipe batch. -/
def QMemory.dispatch (q : QMemory) (cyl : Int) (op : Instruction)
    (lastOp : Option MemOp) (acc : List (List Pipe)) :
    Except String (QMemory × Option MemOp × List (List Pipe)) :=
  match op.operation with
  | OperationType.LOAD => do
      let qid ← except_of_option op.q_id "KeyError"
      let (q1, mv) ← q.load qid cyl
      let (st', pipes) ← run_move_and_pipes q1.memory_storage mv
      .ok ({ q1 with memory_storage := st' }, some (MemOp.move mv),
        acc ++ [pipes])
  | OperationType.STORE => do
      let qid ← except_of_option op.q_id "KeyError"
      let (q1, mv) ← q.store qid cyl
      let (st', pipes) ← run_move_and_pipes q1.memory_storage mv
      .ok ({ q1 with memory_storage := st' }, some (MemOp.move mv),
        acc ++ [pipes])
  | OperationType.YOKE_ROW | OperationType.YOKE_COL =>
      dispatch_yoke q cyl op acc
  | OperationType.INIT => do
      let mo ← except_of_option lastOp
        "NameError: name memory_operation is not defined"
      let (st', pipes) ← mo.exec q.memory_storage
      .ok ({ q with memory_storage := st' }, some mo, acc ++ [pipes])

/-- The inner `for op in ops` loop of QMemory.run. -/
def run_ops : List Instruction → QMemory → Int → Option MemOp →
    List (List Pipe) → Except String (QMemory × Option MemOp ×
    List (List Pipe))
  | [], q, _, lastOp, acc => .ok (q, lastOp, acc)
  | op :: ops, q, cyl, lastOp, acc => do
      let (q', last', acc') ← q.dispatch cyl op lastOp acc
      run_ops ops q' cyl last' acc'

/-- The outer `for cyl in instructions` loop of QMemory.run (a Python dict
iterates its keys in insertion order, so the instruction stream is a list of
cycle/operation-list pairs). -/
def run_cycles : List (Int × List Instruction) → QMemory → Option MemOp →
    List (List Pipe) → Except String (QMemory × Option MemOp ×
    List (List Pipe))
  | [], q, lastOp, acc => .ok (q, lastOp, acc)
  | (cyl, ops) :: rest, q, lastOp, acc => do
      let (q1, last1, acc1) ← run_ops ops q cyl lastOp acc
      let qids := q1.controller.get_in_memory_qids
      let (q2, acc2) ← end_cycle_idles qids q1 cyl acc1
      run_cycles rest q2 last1 acc2

/-- QMemory.run of `qmem/_qmem.py`: execute the instruction stream cycle by
cycle (operations, then end-of-cycle idles for every in-memory qubit), and
finally collect every patch's cubes over its entire timeline, returning the
cube list, the accumulated per-operation pipe batches and the final state. -/
def QMemory.run (q : QMemory) (instructions : List (Int × List Instruction)) :
    Except String (List Cube × List (List Pipe) × QMemory) := do
  let (q', _, all_pipes) ← run_cycles instructions q none []
  .ok (q'.memory_storage.flatMap TqecMemoryPatch.get_cubes, all_pipes, q')

/-! C1: invariants carried through the run loop. -/

/-- Every occupied timeline slot holds a cube stamped with the patch's own
coordinates and the slot's index as its cycle. -/
def WfPatch (p : TqecMemoryPatch) : Prop :=
  ∀ (n : Nat) (cu : Cube), p._cycle_layer.get? n = some (some cu) →
    cu.pos = ⟨p.pos.x, p.pos.y, (n : Int)⟩

/-- Store invariant: every patch is well-formed and its occupancy counter
never drops below its initial -1. -/
def Inv (st : Store) : Prop :=
  ∀ p ∈ st, WfPatch p ∧ -1 ≤ p.current_occupied_cycle

/-- The patches' positions, in store order. -/
def store_pos (st : Store) : List Vec2 := st.map TqecMemoryPatch.pos

theorem getPatch_mem {st : Store} {r : PatchRef} {p : TqecMemoryPatch}
    (h : getPatch st r = .ok p) : p ∈ st :=
  List.get?_mem (getPatch_eq_some.mp h)

theorem pyIdx_nonneg {len : Nat} {i : Int} {n : Nat}
    (h : pyIdx len i = some n) (h0 : 0 ≤ i) : n = i.toNat ∧ i < len := by
  unfold pyIdx at h
  by_cases h1 : 0 ≤ i ∧ i < len
  · rw [if_pos h1] at h
    injection h with h'
    exact ⟨h'.symm, h1.2⟩
  · rw [if_neg h1] at h
    by_cases h2 : -(len : Int) ≤ i ∧ i < 0
    · omega
    · rw [if_neg h2] at h; cases h

theorem pySet_eq_set {l : List α} {i : Int} {n : Nat}
    (h : pyIdx l.length i = some n) (a : α) : pySet l i a = l.set n a := by
  unfold pySet
  rw [h]

theorem pyGet_some_norm_get {l : List α} {i : Int} {v : α}
    (h : pyGet l i = some v) :
    ∃ n, pyIdx l.length i = some n ∧ l.get? n = some v := by
  unfold pyGet at h
  cases hn : pyIdx l.length i with
  | none => rw [hn] at h; cases h
  | some n => rw [hn] at h; exact ⟨n, rfl, h⟩

theorem add_a_cube_wf {p p' : TqecMemoryPatch} {c : Int} {k : Option ZXCube}
    (h : p.add_a_cube c k = .ok p') (hw : WfPatch p) (hc : 0 ≤ c) :
    WfPatch p' := by
  unfold TqecMemoryPatch.add_a_cube at h
  cases hs : pyGet p._cycle_layer c with
  | none => rw [hs] at h; cases h
  | some s =>
      cases s with
      | some b => rw [hs] at h; cases h
      | none =>
          rw [hs] at h
          injection h with h'
          subst h'
          intro n cu hn
          obtain ⟨m, hidx, hget⟩ := pyGet_some_norm_get hs
          obtain ⟨hm, hlt⟩ := pyIdx_nonneg hidx hc
          subst hm
          rw [pySet_eq_set hidx] at hn
          by_cases hnm : n = c.toNat
          · subst hnm
            rw [List.get?_set_eq_of_lt _
              (List.get?_eq_some.mp hget).1] at hn
            injection hn with hn'
            injection hn' with hn''
            rw [← hn'']
            have hcast : ((c.toNat : Nat) : Int) = c := Int.toNat_of_nonneg hc
            simp [hcast]
          · rw [List.get?_set_ne _ _ (fun hh => hnm hh.symm)] at hn
            exact hw n cu hn

theorem add_a_cube_cur {p p' : TqecMemoryPatch} {c : Int} {k : Option ZXCube}
    (h : p.add_a_cube c k = .ok p') :
    p'.current_occupied_cycle = max p.current_occupied_cycle c := by
  unfold TqecMemoryPatch.add_a_cube at h
  cases hs : pyGet p._cycle_layer c with
  | none => rw [hs] at h; cases h
  | some s =>
      cases s with
      | some b => rw [hs] at h; cases h
      | none => rw [hs] at h; injection h with h'; rw [← h']

theorem set_cube_kind_wf {p p' : TqecMemoryPatch} {c : Int}
    {k : Option ZXCube} (h : p.set_cube_kind c k = .ok p') (hw : WfPatch p) :
    WfPatch p' ∧ p'.current_occupied_cycle = p.current_occupied_cycle := by
  unfold TqecMemoryPatch.set_cube_kind at h
  cases hs : pyGet p._cycle_layer c with
  | none => rw [hs] at h; cases h
  | some s =>
      cases s with
      | none => rw [hs] at h; cases h
      | some c0 =>
          rw [hs] at h
          injection h with h'
          subst h'
          refine ⟨?_, rfl⟩
          intro n cu hn
          obtain ⟨m, hidx, hget⟩ := pyGet_some_norm_get hs
          rw [pySet_eq_set hidx] at hn
          by_cases hnm : n = m
          · subst hnm
            rw [List.get?_set_eq_of_lt _ (List.get?_eq_some.mp hget).1] at hn
            injection hn with hn'
            injection hn' with hn''
            rw [← hn'']
            exact hw n c0 hget
          · rw [List.get?_set_ne _ _ (fun hh => hnm hh.symm)] at hn
            exact hw n cu hn

theorem setPatch_inv {st : Store} {r : PatchRef} {p' : TqecMemoryPatch}
    (hinv : Inv st) (hw' : WfPatch p') (hc' : -1 ≤ p'.current_occupied_cycle) :
    Inv (setPatch st r p') := by
  intro q hq
  rcases List.mem_or_eq_of_mem_set hq with hq' | rfl
  · exact hinv q hq'
  · exact ⟨hw', hc'⟩

theorem setPatch_store_pos {st : Store} {r : PatchRef}
    {p p' : TqecMemoryPatch} (hget : st.get? r = some p)
    (hpos : p'.pos = p.pos) :
    store_pos (setPatch st r p') = store_pos st := by
  unfold store_pos setPatch
  apply List.ext_get?
  intro n
  rw [List.get?_map, List.get?_map]
  by_cases hn : n = r
  · subst hn
    rw [List.get?_set_eq_of_lt _ (List.get?_eq_some.mp hget).1, hget]
    simp [hpos]
  · rw [List.get?_set_ne _ _ (fun hh => hn hh.symm)]

theorem addCubeAt_inv {st st' : Store} {r : PatchRef} {c : Int}
    {k : Option ZXCube} (h : addCubeAt st r c k = .ok st') (hc : 0 ≤ c)
    (hinv : Inv st) : Inv st' ∧ store_pos st' = store_pos st := by
  unfold addCubeAt at h
  cases hp : getPatch st r with
  | error e => rw [hp, error_bind] at h; cases h
  | ok p =>
      rw [hp, ok_bind] at h
      cases ha : p.add_a_cube c k with
      | error e => rw [ha, error_bind] at h; cases h
      | ok p' =>
          rw [ha, ok_bind] at h
          injection h with h'
          subst h'
          obtain ⟨hw, hcur⟩ := hinv p (getPatch_mem hp)
          refine ⟨setPatch_inv hinv (add_a_cube_wf ha hw hc) ?_,
            setPatch_store_pos (getPatch_eq_some.mp hp) (add_a_cube_pres ha).1⟩
          rw [add_a_cube_cur ha]
          omega

theorem setCubeKindAt_inv {st st' : Store} {r : PatchRef} {c : Int}
    {k : Option ZXCube} (h : setCubeKindAt st r c k = .ok st') (hinv : Inv st) :
    Inv st' ∧ store_pos st' = store_pos st := by
  unfold setCubeKindAt at h
  cases hp : getPatch st r with
  | error e => rw [hp, error_bind] at h; cases h
  | ok p =>
      rw [hp, ok_bind] at h
      cases ha : p.set_cube_kind c k with
      | error e => rw [ha, error_bind] at h; cases h
      | ok p' =>
          rw [ha, ok_bind] at h
          injection h with h'
          subst h'
          obtain ⟨hw, hcur⟩ := hinv p (getPatch_mem hp)
          obtain ⟨hw', hcur'⟩ := set_cube_kind_wf ha hw
          exact ⟨setPatch_inv hinv hw' (hcur' ▸ hcur),
            setPatch_store_pos (getPatch_eq_some.mp hp)
              (set_cube_kind_pres ha).1⟩

theorem nac_nonneg {st : Store} {r : PatchRef} {p : TqecMemoryPatch}
    (hinv : Inv st) (h : getPatch st r = .ok p) (c : Int) :
    0 ≤ p.next_available_cycle c := by
  have := (hinv p (getPatch_mem h)).2
  unfold TqecMemoryPatch.next_available_cycle
  omega

theorem foldlM_inv {α : Type} {f : Store → α → Except String Store}
    (hf : ∀ st a st', f st a = .ok st' → Inv st →
      Inv st' ∧ store_pos st' = store_pos st) :
    ∀ (l : List α) {st st' : Store}, l.foldlM f st = .ok st' → Inv st →
      Inv st' ∧ store_pos st' = store_pos st := by
  intro l
  induction l with
  | nil =>
      intro st st' h hinv
      injection h with h'
      subst h'
      exact ⟨hinv, rfl⟩
  | cons a as ih =>
      intro st st' h hinv
      rw [List.foldlM_cons] at h
      cases hfa : f st a with
      | error e => rw [hfa, error_bind] at h; cases h
      | ok st1 =>
          rw [hfa, ok_bind] at h
          obtain ⟨h1, h2⟩ := hf st a st1 hfa hinv
          obtain ⟨h3, h4⟩ := ih h h1
          exact ⟨h3, h4.trans h2⟩

theorem move_wait_loop_inv :
    ∀ {fuel : Nat} {st : Store} {curr next : PatchRef} {cycle : Int}
      {acc : List Position3D} {st' : Store} {cycle' : Int}
      {acc' : List Position3D},
    move_wait_loop fuel st curr next cycle acc = .ok (st', cycle', acc') →
    0 ≤ cycle → Inv st →
    Inv st' ∧ store_pos st' = store_pos st ∧ cycle ≤ cycle' := by
  intro fuel
  induction fuel with
  | zero =>
      intro st curr next cycle acc st' cycle' acc' h h0 hinv
      unfold move_wait_loop at h
      cases hnp : getPatch st next with
      | error e => rw [hnp, error_bind] at h; cases h
      | ok np =>
          rw [hnp, ok_bind] at h
          split at h
          · cases h
          · injection h with h'
            cases h'
            exact ⟨hinv, rfl, le_refl _⟩
  | succ n ih =>
      intro st curr next cycle acc st' cycle' acc' h h0 hinv
      unfold move_wait_loop at h
      cases hnp : getPatch st next with
      | error e => rw [hnp, error_bind] at h; cases h
      | ok np =>
          rw [hnp, ok_bind] at h
          split at h
          · cases hcp : getPatch st curr with
            | error e => rw [hcp, error_bind] at h; cases h
            | ok cp =>
                rw [hcp, ok_bind] at h
                cases hadd : addCubeAt st curr cycle none with
                | error e => rw [hadd, error_bind] at h; cases h
                | ok st1 =>
                    rw [hadd, ok_bind] at h
                    obtain ⟨h1, h2⟩ := addCubeAt_inv hadd h0 hinv
                    obtain ⟨h3, h4, h5⟩ := ih h (by omega) h1
                    exact ⟨h3, h4.trans h2, by omega⟩
          · injection h with h'
            cases h'
            exact ⟨hinv, rfl, le_refl _⟩

theorem move_chain_loop_inv :
    ∀ {chain : List PatchRef} {st : Store} {cycle : Int}
      {acc : List Position3D} {st' : Store} {cycle' : Int}
      {acc' : List Position3D},
    move_chain_loop st chain cycle acc = .ok (st', cycle', acc') →
    0 ≤ cycle → Inv st →
    Inv st' ∧ store_pos st' = store_pos st ∧ cycle ≤ cycle' := by
  intro chain
  induction chain with
  | nil =>
      intro st cycle acc st' cycle' acc' h h0 hinv
      unfold move_chain_loop at h
      injection h with h'
      cases h'
      exact ⟨hinv, rfl, le_refl _⟩
  | cons curr rest ih =>
      intro st cycle acc st' cycle' acc' h h0 hinv
      cases rest with
      | nil =>
          unfold move_chain_loop at h
          injection h with h'
          cases h'
          exact ⟨hinv, rfl, le_refl _⟩
      | cons next rs =>
          unfold move_chain_loop at h
          cases hnp : getPatch st next with
          | error e => rw [hnp, error_bind] at h; cases h
          | ok np =>
              rw [hnp, ok_bind] at h
              simp only [] at h
              cases hw : move_wait_loop
                  ((np.next_available_cycle cycle - cycle).toNat) st curr next
                  cycle acc with
              | error e => rw [hw, error_bind] at h; cases h
              | ok res1 =>
                  obtain ⟨st1, cycle1, acc1⟩ := res1
                  rw [hw, ok_bind] at h
                  dsimp only at h
                  obtain ⟨h1, h2, h3⟩ := move_wait_loop_inv hw h0 hinv
                  have h3' : cycle ≤ cycle1 := h3
                  cases hcp : getPatch st1 curr with
                  | error e => rw [hcp, error_bind] at h; cases h
                  | ok cp =>
                      rw [hcp, ok_bind] at h
                      cases hadd : addCubeAt st1 curr cycle1 none with
                      | error e => rw [hadd, error_bind] at h; cases h
                      | ok st2 =>
                          rw [hadd, ok_bind] at h
                          obtain ⟨h4, h5⟩ := addCubeAt_inv hadd (by omega) h1
                          obtain ⟨h6, h7, h8⟩ := ih h (by omega) h4
                          have h8' : cycle1 ≤ cycle' := h8
                          exact ⟨h6, (h7.trans h5).trans h2, by omega⟩

theorem move_run_rest_inv {store : Store} {mv : MoveOperation}
    {store0 : Store} {positions0 : List Position3D} {pipes0 : List Pipe}
    {cycle0 start_cycle : Int} {st' : Store} {ps : List Position3D}
    {pipes : List Pipe}
    (h : move_run_rest store mv store0 positions0 pipes0 cycle0 start_cycle =
      .ok (st', ps, pipes))
    (h0 : 0 ≤ cycle0) (hinv : Inv store0) :
    Inv st' ∧ store_pos st' = store_pos store0 := by
  unfold move_run_rest at h
  obtain ⟨⟨st1, cycle1, positions1⟩, hchain, h⟩ := bind_eq_ok h
  obtain ⟨h1, h2, h3⟩ := move_chain_loop_inv hchain h0 hinv
  obtain ⟨last_patch, hlast, h⟩ := bind_eq_ok h
  obtain ⟨lp, hlp, h⟩ := bind_eq_ok h
  obtain ⟨st2, hadd2, h⟩ := bind_eq_ok h
  obtain ⟨h4, h5⟩ := addCubeAt_inv hadd2 (by omega) h1
  obtain ⟨lp2, hlp2, h⟩ := bind_eq_ok h
  obtain ⟨st3, hadd3, h⟩ := bind_eq_ok h
  obtain ⟨h6, h7⟩ := addCubeAt_inv hadd3 (by omega) h4
  obtain ⟨fp2, hfp2, h⟩ := bind_eq_ok h
  obtain ⟨inherited, hinh, h⟩ := bind_eq_ok h
  obtain ⟨kk, hkk, h⟩ := bind_eq_ok h
  obtain ⟨cube_kinds, hck, h⟩ := bind_eq_ok h
  obtain ⟨st4, hfold, h⟩ := bind_eq_ok h
  injection h with h'
  obtain ⟨h8, h9⟩ := foldlM_inv (fun st a st' hfa hi => by
    obtain ⟨r, hr, hfa⟩ := bind_eq_ok hfa
    obtain ⟨ck2, hck2, hfa⟩ := bind_eq_ok hfa
    exact setCubeKindAt_inv hfa hi) (cube_kinds.zip _) hfold h6
  have hst : st4 = st' := congrArg (fun t => t.1) h'
  subst hst
  exact ⟨h8, ((h9.trans h7).trans h5).trans h2⟩

theorem move_run_inv {store : Store} {mv : MoveOperation} {st' : Store}
    {ps : List Position3D} {pipes : List Pipe}
    (h : MoveOperation.run store mv = .ok (st', ps, pipes))
    (hinv : Inv store) :
    Inv st' ∧ store_pos st' = store_pos store := by
  unfold MoveOperation.run at h
  obtain ⟨fp, hfp, h⟩ := bind_eq_ok h
  have hnac := nac_nonneg hinv hfp mv.cycle
  split at h
  · obtain ⟨st1, hadd, h⟩ := bind_eq_ok h
    obtain ⟨h1, h2⟩ := addCubeAt_inv hadd hnac hinv
    obtain ⟨h3, h4⟩ := move_run_rest_inv h (by omega) h1
    exact ⟨h3, h4.trans h2⟩
  · exact move_run_rest_inv h hnac hinv

theorem run_move_and_pipes_inv {store : Store} {mv : MoveOperation}
    {st' : Store} {pipes : List Pipe}
    (h : run_move_and_pipes store mv = .ok (st', pipes)) (hinv : Inv store) :
    Inv st' ∧ store_pos st' = store_pos store := by
  unfold run_move_and_pipes at h
  obtain ⟨⟨st1, ps1, pipes1⟩, hrun1, h⟩ := bind_eq_ok h
  dsimp only at h
  obtain ⟨h1, h2⟩ := move_run_inv hrun1 hinv
  by_cases hemp : pipes1.isEmpty = true
  · rw [if_pos hemp] at h
    obtain ⟨⟨st2, ps2, pipes2⟩, hrun2, h⟩ := bind_eq_ok h
    obtain ⟨h3, h4⟩ := move_run_inv hrun2 h1
    injection h with h'
    have hst : st2 = st' := congrArg (fun t => t.1) h'
    subst hst
    exact ⟨h3, h4.trans h2⟩
  · rw [if_neg hemp] at h
    injection h with h'
    have hst : st1 = st' := congrArg (fun t => t.1) h'
    subst hst
    exact ⟨h1, h2⟩

theorem yoke_targets_add_inv :
    ∀ {rs : List PatchRef} {st : Store} {cycle : Int} {k : ZXCube}
      {st' : Store} {ps : List Position3D} {pp : List Pipe},
    yoke_targets_add cycle k st rs = .ok (st', ps, pp) → 0 ≤ cycle →
    Inv st → Inv st' ∧ store_pos st' = store_pos st := by
  intro rs
  induction rs with
  | nil =>
      intro st cycle k st' ps pp h h0 hinv
      unfold yoke_targets_add at h
      injection h with h'
      cases h'
      exact ⟨hinv, rfl⟩
  | cons r rest ih =>
      intro st cycle k st' ps pp h h0 hinv
      unfold yoke_targets_add at h
      obtain ⟨p, hp, h⟩ := bind_eq_ok h
      obtain ⟨st1, hadd, h⟩ := bind_eq_ok h
      obtain ⟨⟨st2, ps2, pp2⟩, hrec, h⟩ := bind_eq_ok h
      obtain ⟨h1, h2⟩ := addCubeAt_inv hadd h0 hinv
      obtain ⟨h3, h4⟩ := ih hrec h0 h1
      injection h with h'
      have hst : st2 = st' := congrArg (fun t => t.1) h'
      subst hst
      exact ⟨h3, h4.trans h2⟩

theorem yoke_hallway_add_inv :
    ∀ {rs : List PatchRef} {st : Store} {cycle : Int} {k : ZXCube}
      {st' : Store} {ps : List Position3D},
    yoke_hallway_add cycle k st rs = .ok (st', ps) → 0 ≤ cycle →
    Inv st → Inv st' ∧ store_pos st' = store_pos st := by
  intro rs
  induction rs with
  | nil =>
      intro st cycle k st' ps h h0 hinv
      unfold yoke_hallway_add at h
      injection h with h'
      cases h'
      exact ⟨hinv, rfl⟩
  | cons r rest ih =>
      intro st cycle k st' ps h h0 hinv
      unfold yoke_hallway_add at h
      obtain ⟨p, hp, h⟩ := bind_eq_ok h
      obtain ⟨st1, hadd, h⟩ := bind_eq_ok h
      obtain ⟨⟨st2, ps2⟩, hrec, h⟩ := bind_eq_ok h
      obtain ⟨h1, h2⟩ := addCubeAt_inv hadd h0 hinv
      obtain ⟨h3, h4⟩ := ih hrec h0 h1
      injection h with h'
      have hst : st2 = st' := congrArg (fun t => t.1) h'
      subst hst
      exact ⟨h3, h4.trans h2⟩

theorem yoke_revert_add_inv :
    ∀ {rs : List PatchRef} {st : Store} {cycle : Int} {k : ZXCube}
      {st' : Store} {ps : List Position3D} {pp : List Pipe},
    yoke_revert_add cycle k st rs = .ok (st', ps, pp) → 0 ≤ cycle →
    Inv st → Inv st' ∧ store_pos st' = store_pos st := by
  intro rs
  induction rs with
  | nil =>
      intro st cycle k st' ps pp h h0 hinv
      unfold yoke_revert_add at h
      injection h with h'
      cases h'
      exact ⟨hinv, rfl⟩
  | cons r rest ih =>
      intro st cycle k st' ps pp h h0 hinv
      unfold yoke_revert_add at h
      obtain ⟨p, hp, h⟩ := bind_eq_ok h
      obtain ⟨st1, hadd, h⟩ := bind_eq_ok h
      obtain ⟨⟨st2, ps2, pp2⟩, hrec, h⟩ := bind_eq_ok h
      obtain ⟨h1, h2⟩ := addCubeAt_inv hadd (by omega) hinv
      obtain ⟨h3, h4⟩ := ih hrec h0 h1
      injection h with h'
      have hst : st2 = st' := congrArg (fun t => t.1) h'
      subst hst
      exact ⟨h3, h4.trans h2⟩

theorem yoke_run_inv {store : Store} {y : YokeOperation} {st' : Store}
    {ps : List Position3D} {pipes : List Pipe}
    (h : YokeOperation.run store y = .ok (st', ps, pipes))
    (h0 : 0 ≤ y.cycle) (hinv : Inv store) :
    Inv st' ∧ store_pos st' = store_pos store := by
  unfold YokeOperation.run at h
  simp only [] at h
  obtain ⟨cube_kinds, hck, h⟩ := bind_eq_ok h
  obtain ⟨majority_kind, hmk, h⟩ := bind_eq_ok h
  cases majority_kind with
  | none => simp only [error_bind] at h; cases h
  | some mk =>
      simp only [ok_bind] at h
      obtain ⟨⟨st1, pos1, pipes1⟩, ht, h⟩ := bind_eq_ok h
      dsimp only at h
      obtain ⟨⟨st2, pos2⟩, hh, h⟩ := bind_eq_ok h
      dsimp only at h
      obtain ⟨spatial, hsp, h⟩ := bind_eq_ok h
      obtain ⟨chain, hcn, h⟩ := bind_eq_ok h
      obtain ⟨⟨st3, pos3, pipes3⟩, hr, h⟩ := bind_eq_ok h
      dsimp only at h
      injection h with h'
      have hst : st3 = st' := congrArg (fun t => t.1) h'
      subst hst
      obtain ⟨h1, h2⟩ := yoke_targets_add_inv ht h0 hinv
      obtain ⟨h3, h4⟩ := yoke_hallway_add_inv hh h0 h1
      obtain ⟨h5, h6⟩ := yoke_revert_add_inv hr h0 h3
      exact ⟨h5, (h6.trans h4).trans h2⟩

theorem run_yoke_and_pipes_inv {store : Store} {y : YokeOperation}
    {st' : Store} {pipes : List Pipe}
    (h : run_yoke_and_pipes store y = .ok (st', pipes)) (h0 : 0 ≤ y.cycle)
    (hinv : Inv store) : Inv st' ∧ store_pos st' = store_pos store := by
  unfold run_yoke_and_pipes at h
  obtain ⟨⟨st1, ps1, pipes1⟩, hrun, h⟩ := bind_eq_ok h
  dsimp only at h
  injection h with h'
  have hst : st1 = st' := congrArg (fun t => t.1) h'
  subst hst
  exact yoke_run_inv hrun h0 hinv

theorem idle_run_inv {store : Store} {i : IdleOperation} {st' : Store}
    {res : Option (List Position3D × List Pipe)}
    (h : IdleOperation.run store i = .ok (st', res)) (hinv : Inv store) :
    Inv st' ∧ store_pos st' = store_pos store := by
  unfold IdleOperation.run at h
  obtain ⟨p, hp, h⟩ := bind_eq_ok h
  dsimp only at h
  have hnac := nac_nonneg hinv hp i.cycle
  split at h
  · injection h with h'
    have hst : store = st' := congrArg (fun t => t.1) h'
    subst hst
    exact ⟨hinv, rfl⟩
  · obtain ⟨st1, hadd, h⟩ := bind_eq_ok h
    obtain ⟨p1, hp1, h⟩ := bind_eq_ok h
    obtain ⟨ck, hck, h⟩ := bind_eq_ok h
    obtain ⟨st2, hset, h⟩ := bind_eq_ok h
    injection h with h'
    have hst : st2 = st' := congrArg (fun t => t.1) h'
    subst hst
    obtain ⟨h1, h2⟩ := addCubeAt_inv hadd hnac hinv
    obtain ⟨h3, h4⟩ := setCubeKindAt_inv hset h1
    exact ⟨h3, h4.trans h2⟩

theorem idle_run_some_pipes {store : Store} {i : IdleOperation} {st' : Store}
    {ps : List Position3D} {pipes : List Pipe}
    (h : IdleOperation.run store i = .ok (st', some (ps, pipes))) :
    pipes ≠ [] := by
  unfold IdleOperation.run at h
  obtain ⟨p, hp, h⟩ := bind_eq_ok h
  dsimp only at h
  split at h
  · injection h with h'
    have : (none : Option (List Position3D × List Pipe)) = some (ps, pipes) :=
      congrArg (fun t => t.2) h'
    cases this
  · obtain ⟨st1, hadd, h⟩ := bind_eq_ok h
    obtain ⟨p1, hp1, h⟩ := bind_eq_ok h
    obtain ⟨ck, hck, h⟩ := bind_eq_ok h
    obtain ⟨st2, hset, h⟩ := bind_eq_ok h
    injection h with h'
    have h2 := congrArg (fun t => t.2) h'
    simp only [] at h2
    injection h2 with h3
    have : pipes = [⟨⟨p.pos.x, p.pos.y, p.next_available_cycle i.cycle - 1⟩,
        ⟨p.pos.x, p.pos.y, p.next_available_cycle i.cycle⟩⟩] :=
      (congrArg (fun t => t.2) h3).symm
    rw [this]
    exact List.cons_ne_nil _ _

theorem zip_tail_ne_nil {ps : List Position3D} (h : 2 ≤ ps.length) :
    ps.zip ps.tail ≠ [] := by
  intro hz
  have hlen := congrArg List.length hz
  rw [List.length_zip, List.length_tail] at hlen
  simp at hlen
  omega

theorem move_run_rest_pipes {store : Store} {mv : MoveOperation}
    {store0 : Store} {positions0 : List Position3D} {pipes0 : List Pipe}
    {cycle0 start_cycle : Int} {st' : Store} {ps : List Position3D}
    {pipes : List Pipe}
    (h : move_run_rest store mv store0 positions0 pipes0 cycle0 start_cycle =
      .ok (st', ps, pipes)) :
    2 ≤ ps.length ∧
      pipes = pipes0 ++ (ps.zip ps.tail).map (fun pq => (⟨pq.1, pq.2⟩ : Pipe))
    := by
  unfold move_run_rest at h
  obtain ⟨⟨st1, cycle1, positions1⟩, hchain, h⟩ := bind_eq_ok h
  obtain ⟨last_patch, hlast, h⟩ := bind_eq_ok h
  obtain ⟨lp, hlp, h⟩ := bind_eq_ok h
  obtain ⟨st2, hadd2, h⟩ := bind_eq_ok h
  obtain ⟨lp2, hlp2, h⟩ := bind_eq_ok h
  obtain ⟨st3, hadd3, h⟩ := bind_eq_ok h
  obtain ⟨fp2, hfp2, h⟩ := bind_eq_ok h
  obtain ⟨inherited, hinh, h⟩ := bind_eq_ok h
  obtain ⟨kk, hkk, h⟩ := bind_eq_ok h
  obtain ⟨cube_kinds, hck, h⟩ := bind_eq_ok h
  obtain ⟨st4, hfold, h⟩ := bind_eq_ok h
  injection h with h'
  have hps : positions1 ++ [(⟨lp.pos.x, lp.pos.y, cycle1⟩ : Position3D)] ++
      [(⟨lp2.pos.x, lp2.pos.y, cycle1 + 1⟩ : Position3D)] = ps :=
    congrArg (fun t => t.2.1) h'
  have hpp := congrArg (fun t => t.2.2) h'
  simp only [] at hpp
  constructor
  · rw [← hps]
    simp
  · rw [← hpp, ← hps]

theorem move_run_pipes_ne {store : Store} {mv : MoveOperation} {st' : Store}
    {ps : List Position3D} {pipes : List Pipe}
    (h : MoveOperation.run store mv = .ok (st', ps, pipes)) : pipes ≠ [] := by
  unfold MoveOperation.run at h
  obtain ⟨fp, hfp, h⟩ := bind_eq_ok h
  split at h
  · obtain ⟨st1, hadd, h⟩ := bind_eq_ok h
    obtain ⟨hlen, hpp⟩ := move_run_rest_pipes h
    rw [hpp]
    simp only [List.nil_append, ne_eq, List.map_eq_nil]
    exact zip_tail_ne_nil hlen
  · obtain ⟨hlen, hpp⟩ := move_run_rest_pipes h
    rw [hpp]
    exact List.append_ne_nil_of_left_ne_nil (List.cons_ne_nil _ _) _

theorem run_move_and_pipes_pipes_ne {store : Store} {mv : MoveOperation}
    {st' : Store} {pipes : List Pipe}
    (h : run_move_and_pipes store mv = .ok (st', pipes)) : pipes ≠ [] := by
  unfold run_move_and_pipes at h
  obtain ⟨⟨st1, ps1, pipes1⟩, hrun1, h⟩ := bind_eq_ok h
  dsimp only at h
  by_cases hemp : pipes1.isEmpty = true
  · rw [if_pos hemp] at h
    obtain ⟨⟨st2, ps2, pipes2⟩, hrun2, h⟩ := bind_eq_ok h
    injection h with h'
    have hp : pipes2 = pipes := congrArg (fun t => t.2) h'
    rw [← hp]
    exact move_run_pipes_ne hrun2
  · rw [if_neg hemp] at h
    injection h with h'
    have hp : pipes1 = pipes := congrArg (fun t => t.2) h'
    rw [← hp]
    exact move_run_pipes_ne hrun1

theorem max_by_count_ok_ne {α : Type} [DecidableEq α]
    {cands l : List α} {x : α} (h : max_by_count cands l = .ok x) :
    cands ≠ [] := by
  intro hc
  subst hc
  cases h

theorem foldl_dedup_ne {α : Type} [DecidableEq α] :
    ∀ (l acc : List α), acc ≠ [] →
      l.foldl (fun acc x => if x ∈ acc then acc else acc ++ [x]) acc ≠ [] := by
  intro l
  induction l with
  | nil => intro acc hacc; exact hacc
  | cons a as ih =>
      intro acc hacc
      rw [List.foldl_cons]
      by_cases hmem : a ∈ acc
      · rw [if_pos hmem]
        exact ih acc hacc
      · rw [if_neg hmem]
        exact ih _ (List.append_ne_nil_of_right_ne_nil _
          (List.cons_ne_nil _ _))

theorem set_order_eq_nil {α : Type} [DecidableEq α] {l : List α}
    (h : set_order l = []) : l = [] := by
  cases l with
  | nil => rfl
  | cons a as =>
      exfalso
      have h2 : set_order (a :: as) =
          as.foldl (fun acc x => if x ∈ acc then acc else acc ++ [x]) [a] := by
        unfold set_order
        rw [List.foldl_cons]
        simp
      exact foldl_dedup_ne as [a] (List.cons_ne_nil _ _) (h2.symm.trans h)

theorem mapM_except_length {α β : Type} {f : α → Except String β} :
    ∀ {l : List α} {ys : List β}, l.mapM f = .ok ys → ys.length = l.length := by
  intro l
  induction l with
  | nil =>
      intro ys h
      rw [List.mapM_nil] at h
      injection h with h'
      rw [← h']
      rfl
  | cons a as ih =>
      intro ys h
      rw [List.mapM_cons] at h
      cases hfa : f a with
      | error e => rw [hfa] at h; simp [error_bind] at h
      | ok b =>
          rw [hfa] at h
          simp only [ok_bind] at h
          cases hrec : as.mapM f with
          | error e => rw [hrec] at h; simp [error_bind] at h
          | ok bs =>
              rw [hrec] at h
              simp only [ok_bind] at h
              injection h with h'
              rw [← h']
              simp [ih hrec]

theorem yoke_targets_add_len :
    ∀ {rs : List PatchRef} {st : Store} {cycle : Int} {k : ZXCube}
      {st' : Store} {ps : List Position3D} {pp : List Pipe},
    yoke_targets_add cycle k st rs = .ok (st', ps, pp) →
    pp.length = rs.length := by
  intro rs
  induction rs with
  | nil =>
      intro st cycle k st' ps pp h
      unfold yoke_targets_add at h
      injection h with h'
      have : ([] : List Pipe) = pp := congrArg (fun t => t.2.2) h'
      rw [← this]
      rfl
  | cons r rest ih =>
      intro st cycle k st' ps pp h
      unfold yoke_targets_add at h
      obtain ⟨p, hp, h⟩ := bind_eq_ok h
      obtain ⟨st1, hadd, h⟩ := bind_eq_ok h
      obtain ⟨⟨st2, ps2, pp2⟩, hrec, h⟩ := bind_eq_ok h
      injection h with h'
      have hpp := congrArg (fun t => t.2.2) h'
      simp only [] at hpp
      rw [← hpp]
      simp [ih hrec]

theorem yoke_run_pipes_ne {store : Store} {y : YokeOperation} {st' : Store}
    {ps : List Position3D} {pipes : List Pipe}
    (h : YokeOperation.run store y = .ok (st', ps, pipes)) : pipes ≠ [] := by
  unfold YokeOperation.run at h
  simp only [] at h
  obtain ⟨cube_kinds, hck, h⟩ := bind_eq_ok h
  obtain ⟨majority_kind, hmk, h⟩ := bind_eq_ok h
  have hcands : set_order cube_kinds ≠ [] := max_by_count_ok_ne hmk
  have hcknil : cube_kinds ≠ [] := fun hc => hcands (by rw [hc]; rfl)
  have hpat : y.patches ≠ [] := by
    intro hp
    apply hcknil
    have := mapM_except_length hck
    rw [hp] at this
    exact List.length_eq_zero.mp this
  cases majority_kind with
  | none => simp only [error_bind] at h; cases h
  | some mk =>
      simp only [ok_bind] at h
      obtain ⟨⟨st1, pos1, pipes1⟩, ht, h⟩ := bind_eq_ok h
      dsimp only at h
      obtain ⟨⟨st2, pos2⟩, hh, h⟩ := bind_eq_ok h
      dsimp only at h
      obtain ⟨spatial, hsp, h⟩ := bind_eq_ok h
      obtain ⟨chain, hcn, h⟩ := bind_eq_ok h
      obtain ⟨⟨st3, pos3, pipes3⟩, hr, h⟩ := bind_eq_ok h
      dsimp only at h
      injection h with h'
      have hpp : pipes1 ++ spatial ++ chain ++ pipes3 = pipes :=
        congrArg (fun t => t.2.2) h'
      have hp1 : pipes1 ≠ [] := by
        intro hp1
        apply hpat
        have := yoke_targets_add_len ht
        rw [hp1] at this
        exact List.length_eq_zero.mp this.symm
      rw [← hpp]
      exact List.append_ne_nil_of_left_ne_nil
        (List.append_ne_nil_of_left_ne_nil
          (List.append_ne_nil_of_left_ne_nil hp1 _) _) _

theorem run_yoke_and_pipes_pipes_ne {store : Store} {y : YokeOperation}
    {st' : Store} {pipes : List Pipe}
    (h : run_yoke_and_pipes store y = .ok (st', pipes)) : pipes ≠ [] := by
  unfold run_yoke_and_pipes at h
  obtain ⟨⟨st1, ps1, pipes1⟩, hrun, h⟩ := bind_eq_ok h
  dsimp only at h
  injection h with h'
  have hp : pipes1 = pipes := congrArg (fun t => t.2) h'
  rw [← hp]
  exact yoke_run_pipes_ne hrun

theorem memop_exec_pipes_ne {store : Store} {mo : MemOp} {st' : Store}
    {pipes : List Pipe} (h : MemOp.exec store mo = .ok (st', pipes)) :
    pipes ≠ [] := by
  cases mo with
  | move m => exact run_move_and_pipes_pipes_ne h
  | yoke y => exact run_yoke_and_pipes_pipes_ne h

theorem except_of_option_ok {α : Type} {o : Option α} {msg : String} {a : α}
    (h : except_of_option o msg = .ok a) : o = some a := by
  cases o with
  | none => cases h
  | some b => injection h with h'; rw [h']

theorem generate_path_state {q : QMemory} {cf : Vec2} {ct : List Vec2}
    {q2 : QMemory} {fr : PatchRef} {hall : List PatchRef} {tr : PatchRef}
    (h : q.generate_path cf ct = .ok (q2, fr, hall, tr)) :
    q2.memory_storage = q.memory_storage ∧ q2.controller = q.controller := by
  unfold QMemory.generate_path at h
  obtain ⟨⟨paths, gen'⟩, hpath, h⟩ := bind_eq_ok h
  dsimp only at h
  cases paths with
  | nil => cases h
  | cons p0 rest =>
      obtain ⟨fr1, hfr, h⟩ := bind_eq_ok h
      obtain ⟨hall1, hhall, h⟩ := bind_eq_ok h
      obtain ⟨plast, hlast, h⟩ := bind_eq_ok h
      obtain ⟨tr1, htr, h⟩ := bind_eq_ok h
      injection h with h'
      have hq : { q with memory_layout := gen'.map } = q2 :=
        congrArg (fun t => t.1) h'
      rw [← hq]
      exact ⟨rfl, rfl⟩

theorem load_state {q : QMemory} {qid : Nat} {cyl : Int} {q2 : QMemory}
    {mv : MoveOperation} (h : q.load qid cyl = .ok (q2, mv)) :
    q2.memory_storage = q.memory_storage := by
  unfold QMemory.load at h
  obtain ⟨coord, hc, h⟩ := bind_eq_ok h
  obtain ⟨ctrl', hu, h⟩ := bind_eq_ok h
  obtain ⟨⟨q3, fr, hall, tr⟩, hgp, h⟩ := bind_eq_ok h
  injection h with h'
  have hq : q3 = q2 := congrArg (fun t => t.1) h'
  subst hq
  exact (generate_path_state hgp).1

theorem store_state {q : QMemory} {qid : Nat} {cyl : Int} {q2 : QMemory}
    {mv : MoveOperation} (h : q.store qid cyl = .ok (q2, mv)) :
    q2.memory_storage = q.memory_storage := by
  unfold QMemory.store at h
  obtain ⟨⟨ctrl', coord⟩, hm, h⟩ := bind_eq_ok h
  dsimp only at h
  obtain ⟨⟨q3, tr, hall, orf⟩, hgp, h⟩ := bind_eq_ok h
  injection h with h'
  have hq : q3 = q2 := congrArg (fun t => t.1) h'
  subst hq
  exact (generate_path_state hgp).1

theorem yoke_some_cycle_nonneg {q : QMemory} {line : Line} {cyl : Int}
    {y : YokeOperation} (h : q.yoke line cyl = .ok (some y))
    (hinv : Inv q.memory_storage) : 0 ≤ y.cycle := by
  unfold QMemory.yoke at h
  simp only [] at h
  obtain ⟨all_refs, hrefs, h⟩ := bind_eq_ok h
  obtain ⟨occupied, hocc, h⟩ := bind_eq_ok h
  cases occupied with
  | nil => injection h with h'; cases h'
  | cons r0 rest =>
      obtain ⟨p0, hp0, h⟩ := bind_eq_ok h
      obtain ⟨access_line, hal, h⟩ := bind_eq_ok h
      cases access_line with
      | none => cases h
      | some al =>
          obtain ⟨hall_refs, hhall, h⟩ := bind_eq_ok h
          obtain ⟨yop, hinitY, h⟩ := bind_eq_ok h
          injection h with h'
          injection h' with h''
          subst h''
          unfold YokeOperation.init at hinitY
          obtain ⟨ncs, hncs, hinitY⟩ := bind_eq_ok hinitY
          injection hinitY with h3
          have hcy : yop.cycle = max cyl (ncs.foldl max cyl) := by
            rw [← h3]
          have hmem : p0.next_available_cycle cyl ∈ ncs := by
            apply mapM_except_mem hncs
              (List.mem_append_left _ (List.mem_cons_self r0 rest))
            rw [hp0, ok_bind]
            rfl
          have hle := mem_le_foldl_max hmem cyl
          have hnn := nac_nonneg hinv hp0 cyl
          rw [hcy]
          omega

def MemOpOk : MemOp → Prop
  | MemOp.yoke y => 0 ≤ y.cycle
  | MemOp.move _ => True

def OpOk : Option MemOp → Prop
  | none => True
  | some mo => MemOpOk mo

theorem memop_exec_inv {store : Store} {mo : MemOp} {st' : Store}
    {pipes : List Pipe} (h : MemOp.exec store mo = .ok (st', pipes))
    (hok : MemOpOk mo) (hinv : Inv store) :
    Inv st' ∧ store_pos st' = store_pos store := by
  cases mo with
  | move m => exact run_move_and_pipes_inv h hinv
  | yoke y => exact run_yoke_and_pipes_inv h hok hinv

theorem yoke_fill_loop_post :
    ∀ {fuel : Nat} {q : QMemory} {pid : Nat} {cyl : Int}
      {acc : List (List Pipe)} {q2 : QMemory} {acc2 : List (List Pipe)},
    yoke_fill_loop fuel q pid cyl acc = .ok (q2, acc2) →
    Inv q.memory_storage → (∀ b ∈ acc, b ≠ []) →
    Inv q2.memory_storage ∧
      store_pos q2.memory_storage = store_pos q.memory_storage ∧
      (∀ b ∈ acc2, b ≠ []) := by
  intro fuel
  induction fuel with
  | zero =>
      intro q pid cyl acc q2 acc2 h hinv hacc
      unfold yoke_fill_loop at h
      injection h with h'
      have hq : q = q2 := congrArg (fun t => t.1) h'
      have ha : acc = acc2 := congrArg (fun t => t.2) h'
      subst hq
      subst ha
      exact ⟨hinv, rfl, hacc⟩
  | succ n ih =>
      intro q pid cyl acc q2 acc2 h hinv hacc
      unfold yoke_fill_loop at h
      obtain ⟨idle_op, hio, h⟩ := bind_eq_ok h
      obtain ⟨⟨st1, res⟩, hrun, h⟩ := bind_eq_ok h
      dsimp only at h
      obtain ⟨h1, h2⟩ := idle_run_inv hrun hinv
      cases res with
      | none =>
          obtain ⟨h3, h4, h5⟩ := ih h h1 hacc
          exact ⟨h3, h4.trans h2, h5⟩
      | some pr =>
          obtain ⟨ps, pipes⟩ := pr
          have hne := idle_run_some_pipes hrun
          obtain ⟨h3, h4, h5⟩ := ih h h1 (by
            intro b hb
            rcases List.mem_append.mp hb with hb' | hb'
            · exact hacc b hb'
            · rw [List.mem_singleton.mp hb']
              exact hne)
          exact ⟨h3, h4.trans h2, h5⟩

theorem yoke_fill_patches_post :
    ∀ {rs : List PatchRef} {q : QMemory} {cycle cyl : Int}
      {acc : List (List Pipe)} {q2 : QMemory} {acc2 : List (List Pipe)},
    yoke_fill_patches rs q cycle cyl acc = .ok (q2, acc2) →
    Inv q.memory_storage → (∀ b ∈ acc, b ≠ []) →
    Inv q2.memory_storage ∧
      store_pos q2.memory_storage = store_pos q.memory_storage ∧
      (∀ b ∈ acc2, b ≠ []) := by
  intro rs
  induction rs with
  | nil =>
      intro q cycle cyl acc q2 acc2 h hinv hacc
      unfold yoke_fill_patches at h
      injection h with h'
      have hq : q = q2 := congrArg (fun t => t.1) h'
      have ha : acc = acc2 := congrArg (fun t => t.2) h'
      subst hq
      subst ha
      exact ⟨hinv, rfl, hacc⟩
  | cons r rest ih =>
      intro q cycle cyl acc q2 acc2 h hinv hacc
      unfold yoke_fill_patches at h
      obtain ⟨p, hp, h⟩ := bind_eq_ok h
      obtain ⟨pid, hpid, h⟩ := bind_eq_ok h
      obtain ⟨⟨q1, acc1⟩, hloop, h⟩ := bind_eq_ok h
      obtain ⟨h1, h2, h3⟩ := yoke_fill_loop_post hloop hinv hacc
      obtain ⟨h4, h5, h6⟩ := ih h h1 h3
      exact ⟨h4, h5.trans h2, h6⟩

theorem end_cycle_idles_post :
    ∀ {qs : List Nat} {q : QMemory} {cyl : Int} {acc : List (List Pipe)}
      {q2 : QMemory} {acc2 : List (List Pipe)},
    end_cycle_idles qs q cyl acc = .ok (q2, acc2) →
    Inv q.memory_storage → (∀ b ∈ acc, b ≠ []) →
    Inv q2.memory_storage ∧
      store_pos q2.memory_storage = store_pos q.memory_storage ∧
      (∀ b ∈ acc2, b ≠ []) := by
  intro qs
  induction qs with
  | nil =>
      intro q cyl acc q2 acc2 h hinv hacc
      unfold end_cycle_idles at h
      injection h with h'
      have hq : q = q2 := congrArg (fun t => t.1) h'
      have ha : acc = acc2 := congrArg (fun t => t.2) h'
      subst hq
      subst ha
      exact ⟨hinv, rfl, hacc⟩
  | cons qid qrest ih =>
      intro q cyl acc q2 acc2 h hinv hacc
      unfold end_cycle_idles at h
      obtain ⟨idle_op, hio, h⟩ := bind_eq_ok h
      obtain ⟨⟨st1, res⟩, hrun, h⟩ := bind_eq_ok h
      dsimp only at h
      obtain ⟨h1, h2⟩ := idle_run_inv hrun hinv
      cases res with
      | none =>
          obtain ⟨h3, h4, h5⟩ := ih h h1 hacc
          exact ⟨h3, h4.trans h2, h5⟩
      | some pr =>
          obtain ⟨ps, pipes⟩ := pr
          have hne := idle_run_some_pipes hrun
          obtain ⟨h3, h4, h5⟩ := ih h h1 (by
            intro b hb
            rcases List.mem_append.mp hb with hb' | hb'
            · exact hacc b hb'
            · rw [List.mem_singleton.mp hb']
              exact hne)
          exact ⟨h3, h4.trans h2, h5⟩

theorem dispatch_yoke_post {q : QMemory} {cyl : Int} {op : Instruction}
    {acc : List (List Pipe)} {q' : QMemory} {last' : Option MemOp}
    {acc' : List (List Pipe)}
    (h : dispatch_yoke q cyl op acc = .ok (q', last', acc'))
    (hinv : Inv q.memory_storage) (hacc : ∀ b ∈ acc, b ≠ []) :
    Inv q'.memory_storage ∧
      store_pos q'.memory_storage = store_pos q.memory_storage ∧
      OpOk last' ∧ (∀ b ∈ acc', b ≠ []) := by
  unfold dispatch_yoke at h
  obtain ⟨line, hline, h⟩ := bind_eq_ok h
  obtain ⟨yok, hyok, h⟩ := bind_eq_ok h
  obtain ⟨y, hy, h⟩ := bind_eq_ok h
  rw [except_of_option_ok hy] at hyok
  have h0 : 0 ≤ y.cycle := yoke_some_cycle_nonneg hyok hinv
  have htail : ∀ (q2 : QMemory) (acc1 : List (List Pipe)),
      Inv q2.memory_storage →
      store_pos q2.memory_storage = store_pos q.memory_storage →
      (∀ b ∈ acc1, b ≠ []) →
      (do
        let (st', pipes) ← run_yoke_and_pipes q2.memory_storage y
        Except.ok ({ q2 with memory_storage := st' }, some (MemOp.yoke y),
          acc1 ++ [pipes])) = .ok (q', last', acc') →
      Inv q'.memory_storage ∧
        store_pos q'.memory_storage = store_pos q.memory_storage ∧
        OpOk last' ∧ (∀ b ∈ acc', b ≠ []) := by
    intro q2 acc1 h1 h2 h3 ht
    obtain ⟨⟨st1, pipes⟩, hry, ht⟩ := bind_eq_ok ht
    dsimp only at ht
    injection ht with h'
    have hq : { q2 with memory_storage := st1 } = q' :=
      congrArg (fun t => t.1) h'
    have hl : some (MemOp.yoke y) = last' := congrArg (fun t => t.2.1) h'
    have ha : acc1 ++ [pipes] = acc' := congrArg (fun t => t.2.2) h'
    obtain ⟨h4, h5⟩ := run_yoke_and_pipes_inv hry h0 h1
    refine ⟨?_, ?_, ?_, ?_⟩
    · rw [← hq]; exact h4
    · rw [← hq]
      show store_pos st1 = store_pos q.memory_storage
      rw [h5, h2]
    · rw [← hl]
      exact h0
    · rw [← ha]
      intro b hb
      rcases List.mem_append.mp hb with hb' | hb'
      · exact h3 b hb'
      · rw [List.mem_singleton.mp hb']
        exact run_yoke_and_pipes_pipes_ne hry
  by_cases hcy : cyl < y.cycle
  · rw [if_pos hcy] at h
    dsimp only at h
    obtain ⟨⟨q2, acc1⟩, hfill, h⟩ := bind_eq_ok h
    dsimp only at h
    obtain ⟨h1, h2, h3⟩ := yoke_fill_patches_post hfill hinv hacc
    exact htail q2 acc1 h1 h2 h3 h
  · rw [if_neg hcy] at h
    dsimp only at h
    exact htail q acc hinv rfl hacc h

theorem dispatch_post {q : QMemory} {cyl : Int} {op : Instruction}
    {lastOp : Option MemOp} {acc : List (List Pipe)} {q' : QMemory}
    {last' : Option MemOp} {acc' : List (List Pipe)}
    (h : q.dispatch cyl op lastOp acc = .ok (q', last', acc'))
    (hinv : Inv q.memory_storage) (hop : OpOk lastOp)
    (hacc : ∀ b ∈ acc, b ≠ []) :
    Inv q'.memory_storage ∧
      store_pos q'.memory_storage = store_pos q.memory_storage ∧
      OpOk last' ∧ (∀ b ∈ acc', b ≠ []) := by
  unfold QMemory.dispatch at h
  split at h
  · -- LOAD
    obtain ⟨qid, hqid, h⟩ := bind_eq_ok h
    obtain ⟨⟨q1, mv⟩, hload, h⟩ := bind_eq_ok h
    dsimp only at h
    obtain ⟨⟨st1, pipes⟩, hrmp, h⟩ := bind_eq_ok h
    dsimp only at h
    injection h with h'
    have hq : { q1 with memory_storage := st1 } = q' :=
      congrArg (fun t => t.1) h'
    have hl : some (MemOp.move mv) = last' :=
      congrArg (fun t => t.2.1) h'
    have ha : acc ++ [pipes] = acc' := congrArg (fun t => t.2.2) h'
    have hst := load_state hload
    have hinv1 : Inv q1.memory_storage := by rw [hst]; exact hinv
    obtain ⟨h1, h2⟩ := run_move_and_pipes_inv hrmp hinv1
    refine ⟨?_, ?_, ?_, ?_⟩
    · rw [← hq]; exact h1
    · rw [← hq]
      show store_pos st1 = store_pos q.memory_storage
      rw [h2, hst]
    · rw [← hl]; trivial
    · rw [← ha]
      intro b hb
      rcases List.mem_append.mp hb with hb' | hb'
      · exact hacc b hb'
      · rw [List.mem_singleton.mp hb']
        exact run_move_and_pipes_pipes_ne hrmp
  · -- STORE
    obtain ⟨qid, hqid, h⟩ := bind_eq_ok h
    obtain ⟨⟨q1, mv⟩, hstore, h⟩ := bind_eq_ok h
    dsimp only at h
    obtain ⟨⟨st1, pipes⟩, hrmp, h⟩ := bind_eq_ok h
    dsimp only at h
    injection h with h'
    have hq : { q1 with memory_storage := st1 } = q' :=
      congrArg (fun t => t.1) h'
    have hl : some (MemOp.move mv) = last' :=
      congrArg (fun t => t.2.1) h'
    have ha : acc ++ [pipes] = acc' := congrArg (fun t => t.2.2) h'
    have hst := store_state hstore
    have hinv1 : Inv q1.memory_storage := by rw [hst]; exact hinv
    obtain ⟨h1, h2⟩ := run_move_and_pipes_inv hrmp hinv1
    refine ⟨?_, ?_, ?_, ?_⟩
    · rw [← hq]; exact h1
    · rw [← hq]
      show store_pos st1 = store_pos q.memory_storage
      rw [h2, hst]
    · rw [← hl]; trivial
    · rw [← ha]
      intro b hb
      rcases List.mem_append.mp hb with hb' | hb'
      · exact hacc b hb'
      · rw [List.mem_singleton.mp hb']
        exact run_move_and_pipes_pipes_ne hrmp
  · -- YOKE_ROW
    exact dispatch_yoke_post h hinv hacc
  · -- YOKE_COL
    exact dispatch_yoke_post h hinv hacc
  · -- INIT
    obtain ⟨mo, hmo, h⟩ := bind_eq_ok h
    obtain ⟨⟨st1, pipes⟩, hex, h⟩ := bind_eq_ok h
    dsimp only at h
    injection h with h'
    have hq : { q with memory_storage := st1 } = q' :=
      congrArg (fun t => t.1) h'
    have hl : some mo = last' := congrArg (fun t => t.2.1) h'
    have ha : acc ++ [pipes] = acc' := congrArg (fun t => t.2.2) h'
    have hmook : MemOpOk mo := by
      rw [except_of_option_ok hmo] at hop
      exact hop
    obtain ⟨h1, h2⟩ := memop_exec_inv hex hmook hinv
    refine ⟨?_, ?_, ?_, ?_⟩
    · rw [← hq]; exact h1
    · rw [← hq]
      show store_pos st1 = store_pos q.memory_storage
      exact h2
    · rw [← hl]
      exact hmook
    · rw [← ha]
      intro b hb
      rcases List.mem_append.mp hb with hb' | hb'
      · exact hacc b hb'
      · rw [List.mem_singleton.mp hb']
        exact memop_exec_pipes_ne hex

theorem run_ops_post :
    ∀ {ops : List Instruction} {q : QMemory} {cyl : Int}
      {lastOp : Option MemOp} {acc : List (List Pipe)} {q2 : QMemory}
      {last2 : Option MemOp} {acc2 : List (List Pipe)},
    run_ops ops q cyl lastOp acc = .ok (q2, last2, acc2) →
    Inv q.memory_storage → OpOk lastOp → (∀ b ∈ acc, b ≠ []) →
    Inv q2.memory_storage ∧
      store_pos q2.memory_storage = store_pos q.memory_storage ∧
      OpOk last2 ∧ (∀ b ∈ acc2, b ≠ []) := by
  intro ops
  induction ops with
  | nil =>
      intro q cyl lastOp acc q2 last2 acc2 h hinv hop hacc
      unfold run_ops at h
      injection h with h'
      have hq : q = q2 := congrArg (fun t => t.1) h'
      have hl : lastOp = last2 := congrArg (fun t => t.2.1) h'
      have ha : acc = acc2 := congrArg (fun t => t.2.2) h'
      subst hq
      subst hl
      subst ha
      exact ⟨hinv, rfl, hop, hacc⟩
  | cons op ops ih =>
      intro q cyl lastOp acc q2 last2 acc2 h hinv hop hacc
      unfold run_ops at h
      obtain ⟨⟨q1, last1, acc1⟩, hd, h⟩ := bind_eq_ok h
      obtain ⟨h1, h2, h3, h4⟩ := dispatch_post hd hinv hop hacc
      obtain ⟨h5, h6, h7, h8⟩ := ih h h1 h3 h4
      exact ⟨h5, h6.trans h2, h7, h8⟩

theorem run_cycles_post :
    ∀ {instrs : List (Int × List Instruction)} {q : QMemory}
      {lastOp : Option MemOp} {acc : List (List Pipe)} {q2 : QMemory}
      {last2 : Option MemOp} {acc2 : List (List Pipe)},
    run_cycles instrs q lastOp acc = .ok (q2, last2, acc2) →
    Inv q.memory_storage → OpOk lastOp → (∀ b ∈ acc, b ≠ []) →
    Inv q2.memory_storage ∧
      store_pos q2.memory_storage = store_pos q.memory_storage ∧
      (∀ b ∈ acc2, b ≠ []) := by
  intro instrs
  induction instrs with
  | nil =>
      intro q lastOp acc q2 last2 acc2 h hinv hop hacc
      unfold run_cycles at h
      injection h with h'
      have hq : q = q2 := congrArg (fun t => t.1) h'
      have ha : acc = acc2 := congrArg (fun t => t.2.2) h'
      subst hq
      subst ha
      exact ⟨hinv, rfl, hacc⟩
  | cons pr rest ih =>
      intro q lastOp acc q2 last2 acc2 h hinv hop hacc
      obtain ⟨cyl, ops⟩ := pr
      unfold run_cycles at h
      obtain ⟨⟨q1, last1, acc1⟩, hops, h⟩ := bind_eq_ok h
      dsimp only at h
      obtain ⟨⟨qe, acce⟩, hend, h⟩ := bind_eq_ok h
      obtain ⟨h1, h2, h3, h4⟩ := run_ops_post hops hinv hop hacc
      obtain ⟨h5, h6, h7⟩ := end_cycle_idles_post hend h1 h4
      obtain ⟨h8, h9, h10⟩ := ih h h5 h3 h7
      exact ⟨h8, (h9.trans h6).trans h2, h10⟩

theorem pure_bind_except {ε α β : Type} (a : α) (f : α → Except ε β) :
    (pure a : Except ε α) >>= f = f a := rfl

theorem mapM_except_mem_rev {α β : Type} {f : α → Except String β} :
    ∀ {l : List α} {ys : List β}, l.mapM f = .ok ys → ∀ {y : β}, y ∈ ys →
      ∃ x ∈ l, f x = .ok y := by
  intro l
  induction l with
  | nil =>
      intro ys h y hy
      rw [List.mapM_nil] at h
      injection h with h'
      rw [← h'] at hy
      cases hy
  | cons a as ih =>
      intro ys h y hy
      rw [List.mapM_cons] at h
      cases hfa : f a with
      | error e => rw [hfa] at h; simp [error_bind] at h
      | ok b =>
          rw [hfa] at h
          simp only [ok_bind] at h
          cases hrec : as.mapM f with
          | error e => rw [hrec] at h; simp [error_bind] at h
          | ok bs =>
              rw [hrec] at h
              simp only [ok_bind] at h
              injection h with h'
              rw [← h'] at hy
              rcases List.mem_cons.mp hy with rfl | hy'
              · exact ⟨a, List.mem_cons_self a as, hfa⟩
              · obtain ⟨x, hx, hfx⟩ := ih hrec hy'
                exact ⟨x, List.mem_cons_of_mem a hx, hfx⟩

theorem mk_patch_wf (pos : Vec2) (pt : PatchType) (mc : Nat) :
    WfPatch (TqecMemoryPatch.mk_patch pos pt mc) ∧
      -1 ≤ (TqecMemoryPatch.mk_patch pos pt mc).current_occupied_cycle := by
  constructor
  · intro n cu hn
    exfalso
    have hmem : (some cu) ∈ List.replicate mc (none : Option Cube) :=
      List.get?_mem hn
    cases (List.eq_of_mem_replicate hmem)
  · exact le_refl _

theorem row_pos_map {mc : Nat} {y : Int} :
    ∀ {pairs : List (Nat × Int)} {ps : List TqecMemoryPatch},
    pairs.mapM (fun xc => do
        let pt ← cell_patch_type xc.2
        pure (TqecMemoryPatch.mk_patch ⟨(xc.1 : Int), y⟩ pt mc)) = .ok ps →
    ps.map TqecMemoryPatch.pos =
      pairs.map (fun xc => (⟨(xc.1 : Int), y⟩ : Vec2)) := by
  intro pairs
  induction pairs with
  | nil =>
      intro ps h
      rw [List.mapM_nil] at h
      injection h with h'
      rw [← h']
      rfl
  | cons xc rest ih =>
      intro ps h
      rw [List.mapM_cons] at h
      cases hpt : cell_patch_type xc.2 with
      | error e => rw [hpt] at h; simp [error_bind] at h
      | ok pt =>
          rw [hpt] at h
          simp only [ok_bind, pure_bind_except] at h
          cases hrec : rest.mapM (fun xc => do
              let pt ← cell_patch_type xc.2
              pure (TqecMemoryPatch.mk_patch ⟨(xc.1 : Int), y⟩ pt mc)) with
          | error e => rw [hrec] at h; simp [error_bind] at h
          | ok ps' =>
              rw [hrec] at h
              simp only [ok_bind] at h
              injection h with h'
              rw [← h', List.map_cons, List.map_cons, ih hrec]
              rfl

theorem rows_pos_map {mc : Nat} :
    ∀ {yrs : List (Nat × List Int)} {rows : List (List TqecMemoryPatch)},
    yrs.mapM (fun yr => yr.2.enum.mapM (fun xc => do
        let pt ← cell_patch_type xc.2
        pure (TqecMemoryPatch.mk_patch ⟨(xc.1 : Int), (yr.1 : Int)⟩ pt mc))) =
      .ok rows →
    rows.map (fun ps => ps.map TqecMemoryPatch.pos) =
      yrs.map (fun yr =>
        yr.2.enum.map (fun xc => (⟨(xc.1 : Int), (yr.1 : Int)⟩ : Vec2))) := by
  intro yrs
  induction yrs with
  | nil =>
      intro rows h
      rw [List.mapM_nil] at h
      injection h with h'
      rw [← h']
      rfl
  | cons yr rest ih =>
      intro rows h
      rw [List.mapM_cons] at h
      cases hrow : yr.2.enum.mapM (fun xc => do
          let pt ← cell_patch_type xc.2
          pure (TqecMemoryPatch.mk_patch ⟨(xc.1 : Int), (yr.1 : Int)⟩ pt
            mc)) with
      | error e => rw [hrow] at h; simp [error_bind] at h
      | ok ps =>
          rw [hrow] at h
          simp only [ok_bind] at h
          cases hrec : rest.mapM (fun yr => yr.2.enum.mapM (fun xc => do
              let pt ← cell_patch_type xc.2
              pure (TqecMemoryPatch.mk_patch ⟨(xc.1 : Int), (yr.1 : Int)⟩ pt
                mc))) with
          | error e => rw [hrec] at h; simp [error_bind] at h
          | ok rows' =>
              rw [hrec] at h
              simp only [ok_bind] at h
              injection h with h'
              rw [← h', List.map_cons, List.map_cons, ih hrec,
                row_pos_map hrow]

theorem init_inv {layout : List (List Int)} {mc : Nat} {q : QMemory}
    (h : QMemory.init layout mc = .ok q) :
    Inv q.memory_storage ∧ (store_pos q.memory_storage).Nodup := by
  unfold QMemory.init at h
  obtain ⟨rows, hrows, h⟩ := bind_eq_ok h
  injection h with h'
  have hst : q.memory_storage = rows.join := by rw [← h']
  constructor
  · intro p hp
    rw [hst] at hp
    obtain ⟨row, hrow, hp2⟩ := List.mem_join.mp hp
    obtain ⟨yr, hyr, hfyr⟩ := mapM_except_mem_rev hrows hrow
    obtain ⟨xc, hxc, hfxc⟩ := mapM_except_mem_rev hfyr hp2
    cases hpt : cell_patch_type xc.2 with
    | error e => rw [hpt] at hfxc; simp [error_bind] at hfxc
    | ok pt =>
        rw [hpt] at hfxc
        simp only [ok_bind, pure_bind_except] at hfxc
        injection hfxc with h2
        rw [← h2]
        exact mk_patch_wf _ _ _
  · rw [hst]
    unfold store_pos
    rw [List.map_join, rows_pos_map hrows]
    rw [List.nodup_join]
    constructor
    · intro l hl
      obtain ⟨yr, hyr, hfl⟩ := List.mem_map.mp hl
      rw [← hfl]
      have hcomp : yr.2.enum.map
          (fun xc => (⟨(xc.1 : Int), (yr.1 : Int)⟩ : Vec2)) =
          (yr.2.enum.map Prod.fst).map
            (fun (n : Nat) => (⟨(n : Int), (yr.1 : Int)⟩ : Vec2)) := by
        rw [List.map_map]
        rfl
      rw [hcomp, List.enum_map_fst]
      apply List.Nodup.map
      · intro a b hab
        have := congrArg Vec2.x hab
        simp only [] at this
        exact Int.ofNat.inj this
      · exact List.nodup_range _
    · have hfst : (layout.enum.map Prod.fst).Nodup := by
        rw [List.enum_map_fst]
        exact List.nodup_range _
      have hpw : layout.enum.Pairwise (fun a b => a.1 ≠ b.1) :=
        List.pairwise_map.mp hfst
      rw [List.pairwise_map]
      apply hpw.imp_of_mem
      intro yr1 yr2 h1 h2 hne
      intro v hv1 hv2
      obtain ⟨xc1, hxc1, hfv1⟩ := List.mem_map.mp hv1
      obtain ⟨xc2, hxc2, hfv2⟩ := List.mem_map.mp hv2
      apply hne
      have hy1 : v.y = (yr1.1 : Int) := by rw [← hfv1]
      have hy2 : v.y = (yr2.1 : Int) := by rw [← hfv2]
      have : (yr1.1 : Int) = (yr2.1 : Int) := by rw [← hy1, hy2]
      exact Int.ofNat.inj this

theorem layer_cubes_pairwise {x y0 : Int} :
    ∀ (layer : List (Option Cube)) (b : Nat),
    (∀ (n : Nat) (cu : Cube), layer.get? n = some (some cu) →
      cu.pos = ⟨x, y0, ((b + n : Nat) : Int)⟩) →
    (layer.filterMap id).Pairwise (fun a c => a.pos ≠ c.pos) := by
  intro layer
  induction layer with
  | nil =>
      intro b h
      simp
  | cons o rest ih =>
      intro b h
      cases o with
      | none =>
          have hred : (none :: rest).filterMap (id : Option Cube → Option Cube)
              = rest.filterMap id := by simp
          rw [hred]
          apply ih (b + 1)
          intro n cu hn
          have h2 := h (n + 1) cu hn
          rw [h2]
          have : ((b + (n + 1) : Nat) : Int) = ((b + 1 + n : Nat) : Int) := by
            omega
          rw [this]
      | some cu0 =>
          have hred : (some cu0 :: rest).filterMap
              (id : Option Cube → Option Cube) = cu0 :: rest.filterMap id := by
            simp
          rw [hred]
          apply List.Pairwise.cons
          · intro c hc heq
            obtain ⟨oc, hoc, hid⟩ := List.mem_filterMap.mp hc
            have hoc2 : oc = some c := hid
            subst hoc2
            obtain ⟨m, hm⟩ := List.get?_of_mem hoc
            have hcz := h (m + 1) c hm
            have h0 := h 0 cu0 rfl
            rw [h0, hcz] at heq
            have hz := congrArg Position3D.z heq
            simp only [] at hz
            omega
          · apply ih (b + 1)
            intro n cu hn
            have h2 := h (n + 1) cu hn
            rw [h2]
            have : ((b + (n + 1) : Nat) : Int) = ((b + 1 + n : Nat) : Int) :=
              by omega
            rw [this]

theorem get_cubes_mem {p : TqecMemoryPatch} {cu : Cube} (hw : WfPatch p)
    (hcu : cu ∈ p.get_cubes) :
    ∃ n : Nat, p._cycle_layer.get? n = some (some cu) ∧
      cu.pos = ⟨p.pos.x, p.pos.y, (n : Int)⟩ := by
  unfold TqecMemoryPatch.get_cubes at hcu
  obtain ⟨oc, hoc, hid⟩ := List.mem_filterMap.mp hcu
  have hoc2 : oc = some cu := hid
  subst hoc2
  obtain ⟨n, hn⟩ := List.get?_of_mem hoc
  exact ⟨n, hn, hw n cu hn⟩

theorem flatMap_cubes_length (st : Store) :
    (st.flatMap TqecMemoryPatch.get_cubes).length =
      (st.map (fun p => (p._cycle_layer.filterMap id).length)).sum := by
  rw [List.length_flatMap]
  congr 1

theorem flatMap_cubes_pairwise {st : Store} (hinv : Inv st)
    (hnd : (store_pos st).Nodup) :
    (st.flatMap TqecMemoryPatch.get_cubes).Pairwise
      (fun a b => a.pos ≠ b.pos) := by
  rw [List.flatMap_def, List.pairwise_join]
  constructor
  · intro l hl
    obtain ⟨p, hp, hfl⟩ := List.mem_map.mp hl
    rw [← hfl]
    apply layer_cubes_pairwise p._cycle_layer 0
    intro n cu hn
    rw [(hinv p hp).1 n cu hn]
    have : ((0 + n : Nat) : Int) = (n : Int) := by omega
    rw [this]
  · rw [List.pairwise_map]
    have hpw : st.Pairwise (fun p q => p.pos ≠ q.pos) :=
      List.pairwise_map.mp hnd
    apply hpw.imp_of_mem
    intro p q hp hq hne c1 hc1 c2 hc2 heq
    obtain ⟨n1, hg1, hp1⟩ := get_cubes_mem (hinv p hp).1 hc1
    obtain ⟨n2, hg2, hp2⟩ := get_cubes_mem (hinv q hq).1 hc2
    apply hne
    rw [hp1, hp2] at heq
    have hx := congrArg Position3D.x heq
    have hy := congrArg Position3D.y heq
    simp only [] at hx hy
    have hpp : p.pos = (⟨p.pos.x, p.pos.y⟩ : Vec2) := rfl
    have hqq : q.pos = (⟨q.pos.x, q.pos.y⟩ : Vec2) := rfl
    rw [hpp, hqq, hx, hy]

/-- C1: for every layout whose construction succeeds and every instruction
stream whose run completes, QMemory.run returns (i) exactly the Cube list
collected from every patch's entire timeline — one Cube per scheduled Block
across all patches (the count equals the total number of occupied timeline
slots, every returned Cube sits in its patch's timeline at the slot its
cycle coordinate names, and no two returned Cubes share a position) — and
(ii) the per-operation Pipe batches, one non-empty batch per executed
operation (each batch is appended by exactly one operation execution in the
loop). -/
theorem qmemory_run_output (layout : List (List Int)) (mc : Nat)
    (instrs : List (Int × List Instruction)) (q q' : QMemory)
    (cubes : List Cube) (batches : List (List Pipe))
    (hinit : QMemory.init layout mc = .ok q)
    (hrun : q.run instrs = .ok (cubes, batches, q')) :
    cubes = q'.memory_storage.flatMap TqecMemoryPatch.get_cubes ∧
    cubes.length = (q'.memory_storage.map
      (fun p => (p._cycle_layer.filterMap id).length)).sum ∧
    (∀ cu ∈ cubes, ∃ p ∈ q'.memory_storage, ∃ n : Nat,
      p._cycle_layer.get? n = some (some cu) ∧
      cu.pos = ⟨p.pos.x, p.pos.y, (n : Int)⟩) ∧
    cubes.Pairwise (fun a b => a.pos ≠ b.pos) ∧
    (∀ b ∈ batches, b ≠ []) := by
  obtain ⟨hinv0, hnd0⟩ := init_inv hinit
  unfold QMemory.run at hrun
  obtain ⟨⟨q2, last2, all_pipes⟩, hrc, hrun⟩ := bind_eq_ok hrun
  dsimp only at hrun
  injection hrun with h'
  have hc : q2.memory_storage.flatMap TqecMemoryPatch.get_cubes = cubes :=
    congrArg (fun t => t.1) h'
  have hb : all_pipes = batches := congrArg (fun t => t.2.1) h'
  have hq : q2 = q' := congrArg (fun t => t.2.2) h'
  subst hq
  subst hb
  obtain ⟨hinv', hpos', hball⟩ := run_cycles_post hrc hinv0 trivial
    (by intro b hb; cases hb)
  have hnd' : (store_pos q2.memory_storage).Nodup := by
    rw [hpos']
    exact hnd0
  refine ⟨hc.symm, ?_, ?_, ?_, hball⟩
  · rw [← hc]
    exact flatMap_cubes_length _
  · rw [← hc]
    intro cu hcu
    obtain ⟨p, hp, hcu2⟩ := List.mem_flatMap.mp hcu
    obtain ⟨n, hg, hpz⟩ := get_cubes_mem (hinv' p hp).1 hcu2
    exact ⟨p, hp, n, hg, hpz⟩
  · rw [← hc]
    exact flatMap_cubes_pairwise hinv' hnd'

/-- The QMemory built from the layout [[0, 1, 2]] with 10-cycle timelines. -/
def c1WitQ : QMemory :=
  match QMemory.init [[0, 1, 2]] 10 with
  | .ok q => q
  | .error _ => ⟨0, [], 0, 0, [], [], [], ⟨[], []⟩⟩

/-- One STORE of qubit 7 requested at cycle 0. -/
def c1WitInstrs : List (Int × List Instruction) :=
  [(0, [⟨OperationType.STORE, some 7, none⟩])]

/-- The result of running the witness instruction stream. -/
def c1WitRes : Except String (List Cube × List (List Pipe) × QMemory) :=
  c1WitQ.run c1WitInstrs

/-- The cube list of the witness run. -/
def c1WitCubes : List Cube :=
  match c1WitRes with
  | .ok r => r.1
  | .error _ => []

/-- The pipe batches of the witness run. -/
def c1WitBatches : List (List Pipe) :=
  match c1WitRes with
  | .ok r => r.2.1
  | .error _ => []

/-- The final state of the witness run. -/
def c1WitQ' : QMemory :=
  match c1WitRes with
  | .ok r => r.2.2
  | .error _ => c1WitQ

theorem qmemory_run_output_witness :
    QMemory.init [[0, 1, 2]] 10 = .ok c1WitQ ∧
    c1WitQ.run c1WitInstrs = .ok (c1WitCubes, c1WitBatches, c1WitQ') ∧
    (c1WitCubes =
        c1WitQ'.memory_storage.flatMap TqecMemoryPatch.get_cubes ∧
      c1WitCubes.length = (c1WitQ'.memory_storage.map
        (fun p => (p._cycle_layer.filterMap id).length)).sum ∧
      (∀ cu ∈ c1WitCubes, ∃ p ∈ c1WitQ'.memory_storage, ∃ n : Nat,
        p._cycle_layer.get? n = some (some cu) ∧
        cu.pos = ⟨p.pos.x, p.pos.y, (n : Int)⟩) ∧
      c1WitCubes.Pairwise (fun a b => a.pos ≠ b.pos) ∧
      (∀ b ∈ c1WitBatches, b ≠ [])) :=
  ⟨rfl, rfl, qmemory_run_output [[0, 1, 2]] 10 c1WitInstrs c1WitQ c1WitQ'
    c1WitCubes c1WitBatches rfl rfl⟩

/-! C3: BFS on a single-row corridor whose interior cells are walkable. -/

/-- Cell `(j, 0)` of a single-row grid. -/
def corrVec (j : Nat) : Vec2 := ⟨(j : Int), 0⟩

/-- The first `k` corridor cells left to right. -/
def corrAsc (k : Nat) : List Vec2 := (List.range k).map corrVec

/-- The BFS parent table after the corridor has been explored up to cell `i`:
the start is parentless, every later cell points one cell left. -/
def corrParent (i : Nat) : List (Vec2 × Option Vec2) :=
  (corrVec 0, none) ::
    (List.range i).map (fun (j : Nat) => (corrVec (j + 1), some (corrVec j)))

theorem corrVec_inj {a b : Nat} (h : corrVec a = corrVec b) : a = b := by
  unfold corrVec at h
  have := congrArg Vec2.x h
  simp only [] at this
  exact Int.ofNat.inj this

theorem mem_corrAsc {v : Vec2} {k : Nat} :
    v ∈ corrAsc k ↔ ∃ j, j < k ∧ v = corrVec j := by
  unfold corrAsc
  constructor
  · intro h
    obtain ⟨j, hj, hv⟩ := List.mem_map.mp h
    exact ⟨j, List.mem_range.mp hj, hv.symm⟩
  · rintro ⟨j, hj, rfl⟩
    exact List.mem_map.mpr ⟨j, List.mem_range.mpr hj, rfl⟩

theorem corrVec_notmem_corrAsc {m k : Nat} (h : k ≤ m) :
    corrVec m ∉ corrAsc k := by
  intro hmem
  obtain ⟨j, hj, hv⟩ := mem_corrAsc.mp hmem
  have := corrVec_inj hv
  omega

theorem corrAsc_succ (k : Nat) :
    corrAsc (k + 1) = corrAsc k ++ [corrVec k] := by
  unfold corrAsc
  rw [List.range_succ, List.map_append]
  rfl

theorem corrAsc_length (k : Nat) : (corrAsc k).length = k := by
  unfold corrAsc
  rw [List.length_map, List.length_range]

theorem dictGet_corrParent_zero (i : Nat) :
    dictGet (corrParent i) (corrVec 0) = some none := by
  unfold dictGet corrParent
  rw [List.find?_cons]
  simp only [beq_self_eq_true]
  rfl

theorem find?_corrParent_tail {j : Nat} :
    ∀ (i : Nat), j < i →
    ((List.range i).map
        (fun (t : Nat) => (corrVec (t + 1), some (corrVec t)))).find?
      (fun p => p.1 == corrVec (j + 1)) =
      some (corrVec (j + 1), some (corrVec j)) := by
  intro i
  induction i with
  | zero => intro h; omega
  | succ i ih =>
      intro hj
      rw [List.range_succ, List.map_append, List.find?_append]
      by_cases hji : j < i
      · rw [ih hji]
        rfl
      · have hje : j = i := by omega
        subst hje
        have hnone : ((List.range j).map
            (fun (t : Nat) => (corrVec (t + 1), some (corrVec t)))).find?
            (fun p => p.1 == corrVec (j + 1)) = none := by
          rw [List.find?_eq_none]
          intro x hx
          obtain ⟨t, ht, hxt⟩ := List.mem_map.mp hx
          rw [← hxt]
          simp only [beq_iff_eq]
          intro hc
          have := corrVec_inj hc
          have := List.mem_range.mp ht
          omega
        rw [hnone]
        simp only [List.map_cons, List.map_nil, List.find?_cons,
          beq_self_eq_true]
        rfl

theorem dictGet_corrParent_succ {j i : Nat} (h : j < i) :
    dictGet (corrParent i) (corrVec (j + 1)) = some (some (corrVec j)) := by
  unfold dictGet corrParent
  rw [List.find?_cons]
  have hne : ((corrVec 0, (none : Option Vec2)).1 == corrVec (j + 1)) =
      false := by
    simp only [beq_eq_false_iff_ne, ne_eq]
    intro hc
    have := corrVec_inj hc
    omega
  rw [hne, find?_corrParent_tail i h]
  rfl

theorem dictSet_corrParent (i : Nat) :
    dictSet (corrParent i) (corrVec (i + 1)) (some (corrVec i)) =
      corrParent (i + 1) := by
  unfold dictSet
  have hnone : (corrParent i).find?
      (fun p => p.1 == corrVec (i + 1)) = none := by
    rw [List.find?_eq_none]
    intro x hx
    unfold corrParent at hx
    rcases List.mem_cons.mp hx with rfl | hx'
    · simp only [beq_iff_eq]
      intro hc
      have := corrVec_inj hc
      omega
    · obtain ⟨t, ht, hxt⟩ := List.mem_map.mp hx'
      rw [← hxt]
      simp only [beq_iff_eq]
      intro hc
      have := corrVec_inj hc
      have := List.mem_range.mp ht
      omega
  rw [hnone]
  simp only [Option.isSome_none, Bool.false_eq_true, if_false]
  unfold corrParent
  rw [List.range_succ, List.map_append]
  rfl

theorem corridor_explore (m : List (List Int)) (cols i : Nat)
    (hx : (i : Int) + 1 < (cols : Int))
    (hcell : cellPositive m 0 ((i : Int) + 1) = true) :
    explore m 1 cols (corrVec i) ([], corrAsc (i + 1), corrParent i) =
      ([corrVec (i + 1)], corrAsc (i + 2), corrParent (i + 1)) := by
  have a1 : Vec2.add (corrVec i) ⟨0, 1⟩ = ⟨(i : Int), 1⟩ := by
    simp [Vec2.add, corrVec]
  have a2 : Vec2.add (corrVec i) ⟨1, 0⟩ = corrVec (i + 1) := by
    simp [Vec2.add, corrVec]
  have a3 : Vec2.add (corrVec i) ⟨0, -1⟩ = ⟨(i : Int), -1⟩ := by
    simp [Vec2.add, corrVec]
  have a4 : Vec2.add (corrVec i) ⟨-1, 0⟩ = ⟨(i : Int) - 1, 0⟩ := by
    simp [Vec2.add, corrVec]
    ring
  have hcell2 : cellPositive m 0 (((i + 1 : Nat) : Int)) = true := by
    push_cast
    exact hcell
  have hx2 : ((i + 1 : Nat) : Int) < (cols : Int) := by
    push_cast
    omega
  have h1 : explore_step m 1 cols (corrVec i)
      ([], corrAsc (i + 1), corrParent i) ⟨0, 1⟩ =
      ([], corrAsc (i + 1), corrParent i) := by
    unfold explore_step
    rw [a1]
    rw [if_neg]
    rintro ⟨-, -, -, h4, -⟩
    dsimp only at h4
    omega
  have h2 : explore_step m 1 cols (corrVec i)
      ([], corrAsc (i + 1), corrParent i) ⟨1, 0⟩ =
      ([corrVec (i + 1)], corrAsc (i + 2), corrParent (i + 1)) := by
    unfold explore_step
    rw [a2]
    rw [if_pos]
    · show ([] ++ [corrVec (i + 1)], corrAsc (i + 1) ++ [corrVec (i + 1)],
        dictSet (corrParent i) (corrVec (i + 1)) (some (corrVec i))) = _
      rw [dictSet_corrParent, ← corrAsc_succ, List.nil_append]
    · refine ⟨?_, ?_, ?_, ?_, ?_, ?_⟩
      · show (0 : Int) ≤ ((i + 1 : Nat) : Int)
        omega
      · exact hx2
      · show (0 : Int) ≤ 0
        omega
      · show (0 : Int) < ((1 : Nat) : Int)
        omega
      · exact hcell2
      · exact corrVec_notmem_corrAsc (le_refl _)
  have h3 : explore_step m 1 cols (corrVec i)
      ([corrVec (i + 1)], corrAsc (i + 2), corrParent (i + 1)) ⟨0, -1⟩ =
      ([corrVec (i + 1)], corrAsc (i + 2), corrParent (i + 1)) := by
    unfold explore_step
    rw [a3]
    rw [if_neg]
    rintro ⟨-, -, h3', -⟩
    dsimp only at h3'
    omega
  have h4 : explore_step m 1 cols (corrVec i)
      ([corrVec (i + 1)], corrAsc (i + 2), corrParent (i + 1)) ⟨-1, 0⟩ =
      ([corrVec (i + 1)], corrAsc (i + 2), corrParent (i + 1)) := by
    unfold explore_step
    rw [a4]
    rw [if_neg]
    by_cases hi0 : i = 0
    · subst hi0
      rintro ⟨c1, -⟩
      revert c1
      decide
    · rintro ⟨-, -, -, -, -, c6⟩
      apply c6
      show (⟨(i : Int) - 1, 0⟩ : Vec2) ∈ corrAsc (i + 2)
      have hcast : (⟨(i : Int) - 1, 0⟩ : Vec2) = corrVec (i - 1) := by
        unfold corrVec
        have hc : ((i - 1 : Nat) : Int) = (i : Int) - 1 := by omega
        rw [hc]
      rw [hcast]
      exact mem_corrAsc.mpr ⟨i - 1, by omega, rfl⟩
  unfold explore directions
  rw [List.foldl_cons, h1, List.foldl_cons, h2, List.foldl_cons, h3,
    List.foldl_cons, h4, List.foldl_nil]

theorem reconstruct_none (P : List (Vec2 × Option Vec2)) (f : Nat)
    (path : List Vec2) : reconstruct P f none path = .ok path.reverse := by
  cases f <;> rfl

theorem corrAsc_one : corrAsc 1 = [corrVec 0] := rfl

theorem corridor_reconstruct (n : Nat) :
    ∀ (j : Nat), j ≤ n → ∀ (fuel : Nat), j + 2 ≤ fuel →
    ∀ (path : List Vec2),
    reconstruct (corrParent n) fuel (some (corrVec j)) path =
      .ok (corrAsc (j + 1) ++ path.reverse) := by
  intro j
  induction j with
  | zero =>
      intro hj fuel hf path
      cases fuel with
      | zero => omega
      | succ f =>
          unfold reconstruct
          rw [dictGet_corrParent_zero]
          show reconstruct (corrParent n) f none (path ++ [corrVec 0]) = _
          rw [reconstruct_none, List.reverse_append]
          rw [corrAsc_one]
          rfl
  | succ j ih =>
      intro hj fuel hf path
      cases fuel with
      | zero => omega
      | succ f =>
          unfold reconstruct
          rw [dictGet_corrParent_succ (show j < n by omega)]
          show reconstruct (corrParent n) f (some (corrVec j))
            (path ++ [corrVec (j + 1)]) = _
          rw [ih (by omega) f (by omega)]
          rw [corrAsc_succ (j + 1), List.reverse_append]
          simp [List.append_assoc]

theorem corridor_loop (m : List (List Int)) (n : Nat)
    (hcells : ∀ j : Nat, 1 ≤ j → j ≤ n →
      cellPositive m 0 ((j : Nat) : Int) = true) :
    ∀ (k i : Nat), i + k = n →
    bfs_loop m 1 (n + 1) [corrVec n] (k + 2) [corrVec i] (corrAsc (i + 1))
        (corrParent i) = .ok (corrAsc (n + 1)) := by
  intro k
  induction k with
  | zero =>
      intro i hi
      have hin : i = n := by omega
      subst hin
      unfold bfs_loop
      dsimp only
      rw [if_pos (List.mem_singleton.mpr rfl)]
      have hlen : (corrParent i).length + 1 = i + 2 := by
        unfold corrParent
        simp
      rw [hlen]
      rw [corridor_reconstruct i i (le_refl _) (i + 2) (by omega) []]
      simp
  | succ k ih =>
      intro i hi
      unfold bfs_loop
      dsimp only
      rw [if_neg (by
        intro hmem
        have := corrVec_inj (List.mem_singleton.mp hmem)
        omega)]
      have hcell : cellPositive m 0 ((i : Int) + 1) = true := by
        have := hcells (i + 1) (by omega) (by omega)
        push_cast at this
        exact this
      rw [corridor_explore m (n + 1) i (by push_cast; omega) hcell]
      exact ih (i + 1) (by omega)

theorem pyGet_nat {α : Type} {l : List α} {j : Nat} (h : j < l.length) :
    pyGet l ((j : Nat) : Int) = l.get? j := by
  rw [pyGet_of_range (by omega) (by exact_mod_cast h)]
  norm_num

theorem pySet_nat {α : Type} {l : List α} {j : Nat} (h : j < l.length)
    (a : α) : pySet l ((j : Nat) : Int) a = l.set j a := by
  rw [pySet_eq_set (pyIdx_of_range (by omega) (by exact_mod_cast h))]
  norm_num

theorem pyGet2_row {row : List Int} {j : Nat} (h : j < row.length) :
    pyGet2 [row] 0 ((j : Nat) : Int) = row.get? j := by
  unfold pyGet2
  have h0 : pyGet [row] (0 : Int) = some row := rfl
  rw [h0]
  show pyGet row ((j : Nat) : Int) = row.get? j
  exact pyGet_nat h

theorem pySet2_row {row : List Int} {j : Nat} (h : j < row.length)
    (v : Int) : pySet2 [row] 0 ((j : Nat) : Int) v = [row.set j v] := by
  unfold pySet2
  have h1 : pyIdx ([row] : List (List Int)).length 0 = some 0 := rfl
  rw [h1]
  show [row].set 0 (pySet row ((j : Nat) : Int) v) = [row.set j v]
  rw [pySet_nat h]
  rfl

/-- C3 (amended): on a single-row corridor whose interior cells are
walkable (value > 0: AccessHallway or Outlet), `path` from the left end to
the right end returns exactly the n + 1 corridor cells; the start and goal
cells themselves may hold any non-negative value, the marking overwrites
them. -/
theorem bfs_corridor_walkable (vals : List Int) (n : Nat)
    (hlen : vals.length = n + 1)
    (hv0 : ∀ v, vals.get? 0 = some v → 0 ≤ v)
    (hvn : ∀ v, vals.get? n = some v → 0 ≤ v)
    (hmid : ∀ (j : Nat) (v : Int), 0 < j → j < n → vals.get? j = some v →
      0 < v) :
    (BFSPathGenerator.mk_gen [vals]).path ⟨0, 0⟩ [⟨(n : Int), 0⟩] =
      .ok (corrAsc (n + 1),
        { map := [(vals.set n 1).set 0 1], rows := 1, cols := n + 1 }) ∧
    (corrAsc (n + 1)).length = n + 1 := by
  refine ⟨?_, corrAsc_length _⟩
  have hgen : BFSPathGenerator.mk_gen [vals] =
      ⟨[vals], 1, n + 1⟩ := by
    unfold BFSPathGenerator.mk_gen
    simp [hlen]
  rw [hgen]
  obtain ⟨vn, hvnget⟩ : ∃ v, vals.get? n = some v :=
    ⟨_, List.get?_eq_get (by omega)⟩
  have hmark : mark_goals [vals] [(⟨(n : Int), 0⟩ : Vec2)] =
      .ok [vals.set n 1] := by
    unfold mark_goals
    rw [show pyGet2 [vals] (⟨(n : Int), 0⟩ : Vec2).y
        (⟨(n : Int), 0⟩ : Vec2).x = some vn from by
      show pyGet2 [vals] 0 ((n : Nat) : Int) = some vn
      rw [pyGet2_row (by omega)]
      exact hvnget]
    dsimp only
    rw [if_neg (by have := hvn vn hvnget; omega)]
    rw [show pySet2 [vals] (⟨(n : Int), 0⟩ : Vec2).y
        (⟨(n : Int), 0⟩ : Vec2).x 1 = [vals.set n 1] from by
      show pySet2 [vals] 0 ((n : Nat) : Int) 1 = [vals.set n 1]
      exact pySet2_row (by omega) 1]
    rfl
  obtain ⟨s0, hs0get, hs0⟩ : ∃ s0,
      (vals.set n 1).get? 0 = some s0 ∧ 0 ≤ s0 := by
    by_cases hn0 : n = 0
    · subst hn0
      refine ⟨1, ?_, by omega⟩
      rw [List.get?_set_eq_of_lt _ (by omega)]
    · obtain ⟨v0, hv0get⟩ : ∃ v, vals.get? 0 = some v :=
        ⟨_, List.get?_eq_get (by omega)⟩
      refine ⟨v0, ?_, hv0 v0 hv0get⟩
      rw [List.get?_set_ne _ _ (fun hh => hn0 hh), hv0get]
  have hcells : ∀ j : Nat, 1 ≤ j → j ≤ n →
      cellPositive [(vals.set n 1).set 0 1] 0 ((j : Nat) : Int) = true := by
    intro j hj1 hjn
    unfold cellPositive
    have hjlen : j < ((vals.set n 1).set 0 1).length := by
      simp [hlen]
      omega
    rw [pyGet2_row hjlen]
    rw [List.get?_set_ne _ _ (fun hh => by omega)]
    by_cases hjn' : j = n
    · subst hjn'
      rw [List.get?_set_eq_of_lt _ (by omega)]
      rfl
    · rw [List.get?_set_ne _ _ (fun hh => hjn' hh.symm)]
      obtain ⟨vj, hvj⟩ : ∃ v, vals.get? j = some v :=
        ⟨_, List.get?_eq_get (by omega)⟩
      rw [hvj]
      simpa using hmid j vj (by omega) (by omega) hvj
  unfold BFSPathGenerator.path
  rw [hmark, ok_bind]
  dsimp only
  rw [show pyGet2 [vals.set n 1] (0 : Int) (0 : Int) = some s0 from by
    have : pyGet2 [vals.set n 1] 0 (((0 : Nat) : Nat) : Int) = some s0 := by
      rw [pyGet2_row (by simp [hlen])]
      exact hs0get
    exact this]
  dsimp only
  rw [ok_bind]
  rw [if_neg (by omega)]
  rw [show pySet2 [vals.set n 1] (0 : Int) (0 : Int) 1 =
      [(vals.set n 1).set 0 1] from by
    have : pySet2 [vals.set n 1] 0 (((0 : Nat) : Nat) : Int) 1 =
        [(vals.set n 1).set 0 1] := pySet2_row (by simp [hlen]) 1
    exact this]
  have hloop := corridor_loop [(vals.set n 1).set 0 1] n hcells n 0
    (by omega)
  rw [show (1 * (n + 1) + 1 : Nat) = n + 2 by omega]
  have hloop2 : bfs_loop [(vals.set n 1).set 0 1] 1 (n + 1)
      [(⟨(n : Int), 0⟩ : Vec2)] (n + 2) [(⟨0, 0⟩ : Vec2)] [(⟨0, 0⟩ : Vec2)]
      [((⟨0, 0⟩ : Vec2), (none : Option Vec2))] = .ok (corrAsc (n + 1)) :=
    hloop
  rw [hloop2, ok_bind]

theorem bfs_corridor_walkable_witness :
    (BFSPathGenerator.mk_gen [[0, 1, 2]]).path ⟨0, 0⟩ [⟨(2 : Int), 0⟩] =
      .ok (corrAsc 3, { map := [[1, 1, 1]], rows := 1, cols := 3 }) ∧
    (corrAsc 3).length = 2 + 1 :=
  bfs_corridor_walkable [0, 1, 2] 2 rfl
    (by intro v hv; simp at hv; omega)
    (by intro v hv; simp at hv; omega)
    (by
      intro j v hj1 hj2 hv
      have hj : j = 1 := by omega
      subst hj
      simp at hv
      omega)

end Qmem
